import Mathlib

/-!
# kframe `state` system: a shallow embedding of `src/components/state/index.js`

Modelling conventions.

* JavaScript values follow the data model of the store: scalars, plain mappings and
  ordered collections.  Plain mappings are finite association lists of their own
  properties, held by value.  Arrays are references into a heap, so that the aliasing the
  store itself creates between the state and its snapshot ("copy by reference") is visible.
* Members inherited from a prototype are functions of the platform, which are no values of
  the state tree: reads and `in` tests are those of own properties.  The source differs
  for a key that names such a member and is no own property (`prototypeNames`): it finds
  the inherited member.  A statement that excludes these names says so.
* Numbers are integers, strings are sequences of characters.  For-in enumeration follows
  the order of the association list.  The file is non-strict code: an assignment to a
  property of a primitive is silently ignored.
* Code that lives outside the file (action handlers, the `computeState` hook, observer
  callbacks, `AFRAME.utils.clone`) is a parameter of the model, collected in `Env`.
* A JavaScript exception is an explicit outcome that carries the store reached when it was
  thrown.
-/

namespace KFrame

/-! ## Values -/

/-- JavaScript values of the state tree. -/
inductive Val where
  | undefined
  | null
  | bool (b : Bool)
  | num (n : Int)
  | str (s : String)
  | arr (ref : Nat)
  | obj (fields : List (String × Val))

/-- Own properties of a plain mapping, in enumeration order. -/
abbrev Fields := List (String × Val)

/-- Error values: the message of the thrown exception. -/
abbrev Err := String

/-- The error raised by reading or writing a property of `undefined` or `null`, by
`in` on a primitive, and by calling something that is not a function. -/
def typeError : Err := "TypeError"

/-- The error raised by an invalid array length. -/
def rangeError : Err := "RangeError"

namespace Val

mutual
/-- Strict equality `===` on values: scalars by value, arrays by reference.  Two plain
mappings are compared structurally: the identity of a mapping is not part of the model. -/
def beq : Val → Val → Bool
  | .undefined, .undefined => true
  | .null, .null => true
  | .bool a, .bool b => a == b
  | .num a, .num b => a == b
  | .str a, .str b => a == b
  | .arr a, .arr b => a == b
  | .obj fa, .obj fb => beqFields fa fb
  | _, _ => false
/-- Entry-wise comparison of two property lists. -/
def beqFields : List (String × Val) → List (String × Val) → Bool
  | [], [] => true
  | (ka, va) :: ra, (kb, vb) :: rb => ka == kb && beq va vb && beqFields ra rb
  | _, _ => false
end

/-- JavaScript truthiness. -/
def truthy : Val → Bool
  | .undefined => false
  | .null => false
  | .bool b => b
  | .num n => n != 0
  | .str s => s != ""
  | .arr _ => true
  | .obj _ => true

/-- The test `v.constructor === Boolean` on a defined value. -/
def isBoolean : Val → Bool
  | .bool _ => true
  | _ => false

end Val

/-! ## Property lists -/

/-- Own-property lookup in a property list. -/
def lookupKey {β : Type} (key : String) : List (String × β) → Option β
  | [] => none
  | (k, v) :: rest => if k = key then some v else lookupKey key rest

/-- Assignment `o[key] = v` on a property list: an existing key keeps its place, a new key
is appended. -/
def setKey {β : Type} (key : String) (v : β) : List (String × β) → List (String × β)
  | [] => [(key, v)]
  | (k, w) :: rest => if k = key then (k, v) :: rest else (k, w) :: setKey key v rest

/-- The own keys of a property list, in enumeration order. -/
def keysOf {β : Type} (fs : List (String × β)) : List String := fs.map Prod.fst

/-! ## Arrays and the heap -/

/-- An array object: its elements and its named own properties (such as `__dirty`). -/
structure ArrCell where
  items : List Val
  props : Fields

/-- The array heap: a finite map from references to array objects.  A reference without
an entry denotes an empty array without named properties. -/
abbrev Heap := List (Nat × ArrCell)

/-- The array a reference denotes. -/
def Heap.get : Heap → Nat → ArrCell
  | [], _ => { items := [], props := [] }
  | (r, c) :: rest, ref => if r = ref then c else Heap.get rest ref

/-- Replace the array a reference denotes. -/
def Heap.set (h : Heap) (ref : Nat) (c : ArrCell) : Heap := (ref, c) :: h

/-- Value of a decimal digit. -/
def digitVal (c : Char) : Option Nat :=
  if '0'.toNat ≤ c.toNat ∧ c.toNat ≤ '9'.toNat then some (c.toNat - '0'.toNat) else none

/-- Read a run of decimal digits, most significant first. -/
def parseDigits : List Char → Nat → Option Nat
  | [], acc => some acc
  | c :: cs, acc =>
    match digitVal c with
    | some d => parseDigits cs (acc * 10 + d)
    | none => none

/-- A property key that is a canonical array index (`"0"`, `"17"`, not `"01"`). -/
def parseIndex (key : String) : Option Nat :=
  match key.data with
  | [] => none
  | ['0'] => some 0
  | '0' :: _ => none
  | cs =>
    match parseDigits cs 0 with
    | some n => if n < 4294967295 then some n else none
    | none => none

/-- Assignment to an array element, padding with `undefined` up to the index. -/
def setItem (items : List Val) (i : Nat) (v : Val) : List Val :=
  if i < items.length then items.set i v
  else items ++ List.replicate (i - items.length) Val.undefined ++ [v]

/-- Assignment to `length`: truncate, or pad with `undefined`. -/
def resize (items : List Val) (n : Nat) : List Val :=
  items.take n ++ List.replicate (n - items.length) Val.undefined

/-- The new length requested by `a.length = v`, if `v` is a valid array length. -/
def lengthArg : Val → Option Nat
  | .num n => if 0 ≤ n ∧ n < 4294967296 then some n.toNat else none
  | .bool b => some (if b then 1 else 0)
  | .null => some 0
  | .str s => if s = "" then some 0 else parseIndex s
  | _ => none

/-- Property read `value[key]` of an own property.  Reading off `undefined` or `null`
throws.  A key that is no own property reads as `undefined`; the source reads the
inherited member instead when the key names one (`toString` of a mapping, `push` of an
array). -/
def getProp (h : Heap) (value : Val) (key : String) : Except Err Val :=
  match value with
  | .undefined => .error typeError
  | .null => .error typeError
  | .bool _ => .ok .undefined
  | .num _ => .ok .undefined
  | .str s =>
    match parseIndex key with
    | some i =>
      match s.data.get? i with
      | some c => .ok (.str (String.mk [c]))
      | none => .ok .undefined
    | none => if key = "length" then .ok (.num s.data.length) else .ok .undefined
  | .arr r =>
    match parseIndex key with
    | some i => .ok ((h.get r).items.getD i .undefined)
    | none =>
      if key = "length" then .ok (.num (h.get r).items.length)
      else .ok ((lookupKey key (h.get r).props).getD .undefined)
  | .obj fs => .ok ((lookupKey key fs).getD .undefined)

/-- The test `key in value` on own properties.  It throws on everything that is not an
object.  In the source the test also finds the members the value inherits (`toString` in a
mapping, `push` in an array). -/
def hasProp (h : Heap) (value : Val) (key : String) : Except Err Bool :=
  match value with
  | .arr r =>
    match parseIndex key with
    | some i => .ok (decide (i < (h.get r).items.length))
    | none =>
      if key = "length" then .ok true
      else .ok (lookupKey key (h.get r).props).isSome
  | .obj fs => .ok (lookupKey key fs).isSome
  | _ => .error typeError

/-- Assignment `target[key] = v` in non-strict code, returning the updated target and heap.
On `undefined` and `null` it throws, on other primitives it is silently ignored, on an
array it writes through the reference. -/
def setProp (h : Heap) (target : Val) (key : String) (v : Val) : Except Err (Val × Heap) :=
  match target with
  | .undefined => .error typeError
  | .null => .error typeError
  | .bool b => .ok (.bool b, h)
  | .num n => .ok (.num n, h)
  | .str s => .ok (.str s, h)
  | .arr r =>
    match parseIndex key with
    | some i => .ok (.arr r, h.set r { h.get r with items := setItem (h.get r).items i v })
    | none =>
      if key = "length" then
        match lengthArg v with
        | some n => .ok (.arr r, h.set r { h.get r with items := resize (h.get r).items n })
        | none => .error rangeError
      else .ok (.arr r, h.set r { h.get r with props := setKey key v (h.get r).props })
  | .obj fs => .ok (.obj (setKey key v fs), h)

/-- The flag `a.__dirty` of the array behind a reference, as tested by `!a.__dirty`. -/
def isDirty (h : Heap) (ref : Nat) : Bool :=
  ((lookupKey "__dirty" (h.get ref).props).getD .undefined).truthy

/-- The entries a `for (key in value)` loop visits, each with `value[key]`. -/
def fieldsOf (h : Heap) : Val → Fields
  | .obj fs => fs
  | .arr r =>
    (List.range (h.get r).items.length).map
        (fun i => (toString i, (h.get r).items.getD i .undefined)) ++ (h.get r).props
  | .str s => (List.range s.data.length).map
        (fun i => (toString i, (Val.str (String.mk ((s.data.get? i).toList)))))
  | _ => []

/-- The assignment `a.__dirty = flag` on the array behind a reference. -/
def setDirty (h : Heap) (ref : Nat) (flag : Bool) : Heap :=
  h.set ref { h.get ref with props := setKey "__dirty" (.bool flag) (h.get ref).props }

/-- The loop `for (key in state) if (state[key] && state[key].constructor === Array)
state[key].__dirty = flag`, run over the entries of the state. -/
def flagArrays (flag : Bool) : Fields → Heap → Heap
  | [], h => h
  | (_, .arr r) :: rest, h => flagArrays flag rest (setDirty h r flag)
  | _ :: rest, h => flagArrays flag rest h

/-! ## JavaScript array helpers -/

/-- The search behind `Array.prototype.indexOf`, counting from position `i`. -/
def indexOfFrom {α : Type} [DecidableEq α] : List α → α → Nat → Int
  | [], _, _ => -1
  | y :: ys, x, i => if y = x then (i : Int) else indexOfFrom ys x (i + 1)

/-- The method `xs.indexOf(x)`: the first position of `x`, or `-1`. -/
def indexOf {α : Type} [DecidableEq α] (xs : List α) (x : α) : Int := indexOfFrom xs x 0

/-- The method `xs.splice(start, deleteCount)`, as the array it leaves behind.  A negative
`start` counts from the end of the array. -/
def splice {α : Type} (xs : List α) (start : Int) (deleteCount : Nat) : List α :=
  let len : Int := xs.length
  let from_ : Nat := if start < 0 then (max (len + start) 0).toNat else (min start len).toNat
  xs.take from_ ++ xs.drop (from_ + deleteCount)

/-! ## The store -/

/-- A subscribed component: its identity, its component name and the top-level state keys
it watches. -/
structure Observer where
  id : Nat
  name : String
  keysToWatch : List String
  deriving DecidableEq

/-- The fields of the `state` system. -/
structure Store where
  state : Val
  lastState : Val
  diff : Fields
  subscriptions : List Observer
  heap : Heap

/-- How a call ends: it returns, or it throws; either way with the state it reached. -/
inductive Outcome (σ : Type) where
  | done (s : σ)
  | threw (e : Err) (s : σ)

/-- The state a call ended in. -/
def Outcome.result {σ : Type} : Outcome σ → σ
  | .done s => s
  | .threw _ s => s

/-- Whether the call returned normally. -/
def Outcome.returned {σ : Type} : Outcome σ → Bool
  | .done _ => true
  | .threw _ _ => false

/-- The registered definition (`State`) together with the code the store calls into. -/
structure Env where
  /-- The field `State.initialState`. -/
  initialState : Val
  /-- The field `State.nonBindedStateKeys`. -/
  nonBindedStateKeys : List String
  /-- The table `State.handlers`: `none` where `State.handlers[actionName]` is `undefined`. -/
  handlers : String → Option (Store → Val → Outcome Store)
  /-- The hook `State.computeState(state, actionName, payload)`. -/
  computeState : Store → String → Val → Outcome Store
  /-- The effect of `subscription.onStateUpdate()` on the store. -/
  onStateUpdate : Observer → Store → Outcome Store
  /-- The library function `AFRAME.utils.clone`. -/
  clone : Val → Val

/-- The event detail passed to `el.emit('stateupdate', ...)`. -/
structure Event where
  name : String
  action : String
  payload : Val
  state : Val
  lastState : Val

/-- The store together with what an outside observer sees of it: the `onStateUpdate`
calls made so far and the events emitted so far, oldest first. -/
structure World where
  store : Store
  calls : List Observer
  emitted : List Event

/-- The constant `STATE_UPDATE_EVENT`. -/
def STATE_UPDATE_EVENT : String := "stateupdate"

/-- The method `subscribe(component)`. -/
def subscribe (s : Store) (component : Observer) : Store :=
  { s with subscriptions := s.subscriptions ++ [component] }

/-- The method `unsubscribe(component)`. -/
def unsubscribe (s : Store) (component : Observer) : Store :=
  { s with subscriptions := splice s.subscriptions (indexOf s.subscriptions component) 1 }

/-- The method `shouldUpdate(keysToWatch, diff)`. -/
def shouldUpdate (keysToWatch : List String) : Fields → Bool
  | [] => false
  | (stateKey, _) :: rest =>
    if indexOf keysToWatch stateKey ≠ -1 then true else shouldUpdate keysToWatch rest

/-- The in-place effect of a nested `copyState` call on its parent: a mapping is held by
value, so the updated mapping is stored back under its key; arrays and scalars are not. -/
def writeBack (h : Heap) (target : Val) (key : String) (v : Val) : Val × Heap :=
  match v with
  | .obj _ =>
    match setProp h target key v with
    | .ok r => r
    | .error _ => (target, h)
  | _ => (target, h)

mutual
/-- One iteration of the loop of `copyState`, for `key` with `state[key]` the first
argument, after the test on `nonBindedStateKeys`. -/
def copyEntry (env : Env) (key : String) : Val → Val → Heap → Outcome (Val × Heap)
  | .obj fs, lastState, h =>
    match hasProp h lastState key with
    | .error e => .threw e (lastState, h)
    | .ok false =>
      match setProp h lastState key (env.clone (.obj fs)) with
      | .error e => .threw e (lastState, h)
      | .ok r => .done r
    | .ok true =>
      match getProp h lastState key with
      | .error e => .threw e (lastState, h)
      | .ok sub =>
        match copyState env true fs sub h with
        | .done r => .done (writeBack r.2 lastState key r.1)
        | .threw e r => .threw e (writeBack r.2 lastState key r.1)
  | v, lastState, h =>
    match setProp h lastState key v with
    | .error e => .threw e (lastState, h)
    | .ok r => .done r
/-- The method `copyState(lastState, state, isRecursive)`, over the entries of `state`. -/
def copyState (env : Env) (isRecursive : Bool) : Fields → Val → Heap → Outcome (Val × Heap)
  | [], lastState, h => .done (lastState, h)
  | (key, v) :: rest, lastState, h =>
    if !isRecursive && indexOf env.nonBindedStateKeys key ≠ -1 then
      copyState env isRecursive rest lastState h
    else
      match copyEntry env key v lastState h with
      | .done r => copyState env isRecursive rest r.1 r.2
      | .threw e r => .threw e r
end

mutual
/-- Modelled from the spec: the comparison of the Diff Engine (`lib/diff`, not among the
sources), "recursively for nested plain mappings, by reference/value for everything
else". -/
def deepEqual : Val → Val → Bool
  | .obj fa, .obj fb =>
    (keysOf fb).all (fun k => (lookupKey k fa).isSome) && deepEqualFields fa fb
  | a, b => a.beq b
/-- Every entry of the first mapping has a deep-equal entry in the second. -/
def deepEqualFields : Fields → Fields → Bool
  | [], _ => true
  | (k, v) :: rest, fb =>
    (match lookupKey k fb with
      | some w => deepEqual v w
      | none => false) && deepEqualFields rest fb
end

/-- Modelled from the spec: the Diff Engine (`lib/diff`, not among the sources).  "Given
previous and current state snapshots and a list of excluded top-level keys, computes the
set of top-level keys that changed value": every key of either mapping that is not
excluded and whose two values differ, with the current value. -/
def diffEngine (lastState state : Fields) (ignoreKeys : List String) : Fields :=
  (keysOf lastState ++ (keysOf state).filter (fun k => decide (k ∉ keysOf lastState))).filterMap
    (fun k =>
      if indexOf ignoreKeys k ≠ -1 then none
      else if deepEqual ((lookupKey k lastState).getD .undefined)
          ((lookupKey k state).getD .undefined) then none
      else some (k, (lookupKey k state).getD .undefined))

/-- The test that guards `onStateUpdate()` in the notification loop of `dispatch`: the
`__dirty` flag of the watched array for a `bind-for` component, `shouldUpdate` for any
other. -/
def shouldNotify (s : Store) (sub : Observer) : Except Err Bool :=
  if sub.name = "bind-for" then
    match getProp s.heap s.state (sub.keysToWatch.head?.getD "undefined") with
    | .error e => .error e
    | .ok watched =>
      match getProp s.heap watched "__dirty" with
      | .error e => .error e
      | .ok flag => .ok flag.truthy
  else .ok (shouldUpdate sub.keysToWatch s.diff)

/-- The notification loop of `dispatch`, `for (i = ...; i < this.subscriptions.length;
i++)`, from index `i` on.  The list and its length are read afresh in every iteration.
The first argument bounds the number of iterations; `none` means the bound was reached. -/
def notifyLoop (env : Env) : Nat → Nat → World → Option (Outcome World)
  | 0, _, _ => none
  | fuel + 1, i, w =>
    match w.store.subscriptions.get? i with
    | none => some (.done w)
    | some sub =>
      match shouldNotify w.store sub with
      | .error e => some (.threw e w)
      | .ok false => notifyLoop env fuel (i + 1) w
      | .ok true =>
        match env.onStateUpdate sub w.store with
        | .threw e s => some (.threw e { w with store := s, calls := w.calls ++ [sub] })
        | .done s => notifyLoop env fuel (i + 1) { w with store := s, calls := w.calls ++ [sub] }

/-- The part of `dispatch` before the notification loop: the handler, the `computeState`
hook and the diff. -/
def beforeNotify (env : Env) (w : World) (actionName : String) (payload : Val) :
    Outcome World :=
  match env.handlers actionName with
  | none => .threw typeError w
  | some handler =>
    match handler w.store payload with
    | .threw e s => .threw e { w with store := s }
    | .done s1 =>
      match env.computeState s1 actionName payload with
      | .threw e s => .threw e { w with store := s }
      | .done s2 =>
        .done { w with store :=
          { s2 with diff := diffEngine (fieldsOf s2.heap s2.lastState)
                      (fieldsOf s2.heap s2.state) env.nonBindedStateKeys } }

/-- The part of `dispatch` after the notification loop: unset the dirty flags, store the
last state, emit the event. -/
def afterNotify (env : Env) (w : World) (actionName : String) (payload : Val) :
    Outcome World :=
  let heap1 := flagArrays false (fieldsOf w.store.heap w.store.state) w.store.heap
  match copyState env false (fieldsOf heap1 w.store.state) w.store.lastState heap1 with
  | .threw e r => .threw e { w with store := { w.store with lastState := r.1, heap := r.2 } }
  | .done r =>
    .done { w with
      store := { w.store with lastState := r.1, heap := r.2 }
      emitted := w.emitted ++
        [{ name := STATE_UPDATE_EVENT, action := actionName, payload := payload,
           state := w.store.state, lastState := r.1 }] }

/-- The method `dispatch(actionName, payload)`.  The first argument bounds the number of
iterations of the notification loop; `none` means the bound was reached. -/
def dispatch (env : Env) (fuel : Nat) (w : World) (actionName : String) (payload : Val) :
    Option (Outcome World) :=
  match beforeNotify env w actionName payload with
  | .threw e w1 => some (.threw e w1)
  | .done w1 =>
    match notifyLoop env fuel 0 w1 with
    | none => none
    | some (.threw e w2) => some (.threw e w2)
    | some (.done w2) => some (afterNotify env w2 actionName payload)

/-- The method `init` of the system, up to the registration of event listeners: clone the
initial state, mark every top-level array dirty, clone the state into the snapshot. -/
def init (env : Env) (heap : Heap) : Store :=
  let state := env.clone env.initialState
  { state := state
    lastState := env.clone state
    diff := []
    subscriptions := []
    heap := flagArrays true (fieldsOf heap state) heap }

/-! ## Strings -/

/-- The characters matched by `\s` in a JavaScript regular expression. -/
def isWhitespace (c : Char) : Bool :=
  let n := c.toNat
  n == 9 || n == 10 || n == 11 || n == 12 || n == 13 || n == 32 || n == 160 ||
  n == 5760 || (8192 ≤ n && n ≤ 8202) || n == 8232 || n == 8233 || n == 8239 ||
  n == 8287 || n == 12288 || n == 65279

/-- The method `str.split(/\s+/)` on characters: a maximal run of whitespace is one
separator.  The flag tells whether the previous character was whitespace. -/
def splitWhitespace : Bool → List Char → List (List Char)
  | _, [] => [[]]
  | inRun, c :: cs =>
    if isWhitespace c then
      if inRun then splitWhitespace true cs else [] :: splitWhitespace true cs
    else
      match splitWhitespace false cs with
      | [] => [[c]]
      | t :: ts => (c :: t) :: ts

/-- The method `str.split(d)` on characters, for a one-character separator `d`. -/
def splitChar (d : Char) : List Char → List (List Char)
  | [] => [[]]
  | c :: cs =>
    if c = d then [] :: splitChar d cs
    else
      match splitChar d cs with
      | [] => [[c]]
      | t :: ts => (c :: t) :: ts

/-- The test `str.startsWith(pre)` on characters. -/
def startsWith : List Char → List Char → Bool
  | [], _ => true
  | _ :: _, [] => false
  | p :: ps, c :: cs => p == c && startsWith ps cs

/-- The method `str.replace(pattern, '')` for a string pattern: the first occurrence of
the pattern is removed. -/
def removeFirst (pattern : List Char) : List Char → List Char
  | [] => []
  | c :: cs =>
    if startsWith pattern (c :: cs) then (c :: cs).drop pattern.length
    else c :: removeFirst pattern cs

/-- The single-quote character. -/
def quoteChar : Char := Char.ofNat 39

/-- The call `str.replace(QUOTE_RE, '')`: every single quote is removed. -/
def removeQuotes (str : String) : String := String.mk (str.data.filter (fun c => c != quoteChar))

/-- The function `stripNot(str)`. -/
def stripNot (str : String) : String :=
  match str.data with
  | '!' :: '!' :: rest => String.mk rest
  | '!' :: rest => String.mk rest
  | _ => str

/-! ## The selector evaluator -/

/-- The separators `split` is called with: the regular expression `/\s+/`, or a
one-character string. -/
inductive Delimiter where
  | whitespace
  | char (c : Char)

/-- The property key a delimiter has in `SPLIT_CACHE`: its string form. -/
def Delimiter.key : Delimiter → String
  | .whitespace => String.mk ['/', Char.ofNat 92, 's', '+', '/']
  | .char c => String.mk [c]

/-- The uncached `str.split(delimiter)`. -/
def nativeSplit (str : String) : Delimiter → List String
  | .whitespace => (splitWhitespace false str.data).map String.mk
  | .char c => (splitChar c str.data).map String.mk

/-- The module-level variables of the selector evaluator, and the diagnostics written
with `console.error` (the split path and the missing segment). -/
structure Mod where
  SPLIT_CACHE : List (String × List (String × List String))
  tempTokenArray : List Val
  tokenArray : List Val
  console : List (List String × String)

/-- The module as loaded: empty cache, empty scratch arrays. -/
def Mod.fresh : Mod := { SPLIT_CACHE := [], tempTokenArray := [], tokenArray := [], console := [] }

/-- The function `split(str, delimiter)`, the cached split.  The cache objects are read
by their own entries; in the source they are plain objects, in which a string that names
a member of `Object.prototype` finds that member (see `objectPrototypeNames`). -/
def split (m : Mod) (str : String) (delimiter : Delimiter) : List String × Mod :=
  let cache1 :=
    match lookupKey delimiter.key m.SPLIT_CACHE with
    | none => setKey delimiter.key [] m.SPLIT_CACHE
    | some _ => m.SPLIT_CACHE
  let forDelimiter := (lookupKey delimiter.key cache1).getD []
  match lookupKey str forDelimiter with
  | some tokens => (tokens, { m with SPLIT_CACHE := cache1 })
  | none =>
    (nativeSplit str delimiter,
      { m with SPLIT_CACHE :=
          setKey delimiter.key (setKey str (nativeSplit str delimiter) forDelimiter) cache1 })

/-- The function `copyArray(dest, src)`, as the contents `dest` ends with. -/
def copyArray {α : Type} (_dest src : List α) : List α := [] ++ src

/-- The walk of `selectProperty`: `for (i = ...; i < splitted.length; i++)`, over the
segments that remain, with the diagnostics logged so far. -/
def walk (h : Heap) (splitted : List String) :
    List String → Val → List (List String × String) →
      Except Err Val × List (List String × String)
  | [], value, log => (.ok value, log)
  | [seg], value, log => (getProp h value seg, log)
  | seg :: next :: rest, value, log =>
    match hasProp h value seg with
    | .error e => (.error e, log)
    | .ok present =>
      match getProp h value seg with
      | .error e => (.error e, if present then log else log ++ [(splitted, seg)])
      | .ok v => walk h splitted (next :: rest) v (if present then log else log ++ [(splitted, seg)])

/-- The last lines of `selectProperty`: `!!` forces a boolean, `!` negates. -/
def applyNot (selector : String) (value : Val) : Val :=
  match selector.data with
  | '!' :: '!' :: _ => .bool value.truthy
  | '!' :: _ => .bool (!value.truthy)
  | _ => value

/-- The data of a `bind-for` component: the fields `for`, `in` and `key`. -/
structure BindFor where
  for_ : String
  in_ : String
  key : String

/-- The function `selectProperty(state, selector)` called without an iteration context.
A selector that is not a string makes `stripNot` throw. -/
def selectPlain (m : Mod) (h : Heap) (state : Val) (selector : Val) : Except Err Val × Mod :=
  match selector with
  | .str sel =>
    let r := split m (stripNot sel) (.char '.')
    let w := walk h r.1 r.1 state r.2.console
    match w.1 with
    | .error e => (.error e, { r.2 with console := w.2 })
    | .ok value => (.ok (applyNot sel value), { r.2 with console := w.2 })
  | _ => (.error typeError, m)

/-- The value bounding `for (i = ...; i < value.length; i++)`: the numeric `length` of
the value; against a `length` that is not a number the comparison fails at once. -/
def lengthOf (h : Heap) (value : Val) : Except Err Nat :=
  match getProp h value "length" with
  | .error e => .error e
  | .ok (.num n) => .ok n.toNat
  | .ok _ => .ok 0

/-- The loop of `selectProperty` over an array of objects: the first item whose key field
is `bindForKey` is selected from, with the item name stripped off the selector.  The
first number counts the iterations that remain, the second is `i`. -/
def findItem (m : Mod) (h : Heap) (bindFor : BindFor) (bindForKey : String)
    (originalSelector : Option String) (value : Val) : Nat → Nat → Except Err Val × Mod
  | 0, _ => (.ok value, m)
  | n + 1, i =>
    match getProp h value (toString i) with
    | .error e => (.error e, m)
    | .ok item =>
      match getProp h item bindFor.key with
      | .error e => (.error e, m)
      | .ok k =>
        if k.beq (.str bindForKey) then
          match originalSelector with
          | none => (.error typeError, m)
          | some original =>
            selectPlain m h item
              (.str (String.mk (removeFirst (bindFor.for_.data ++ ['.']) original.data)))
        else findItem m h bindFor bindForKey originalSelector value n (i + 1)

/-- The function `selectProperty(state, selector, bindFor, bindForKey)`. -/
def selectProperty (m : Mod) (h : Heap) (state : Val) (selector : Val)
    (bindFor : Option BindFor) (bindForKey : String) : Except Err Val × Mod :=
  match bindFor with
  | none => selectPlain m h state selector
  | some bf =>
    match selector with
    | .str sel =>
      let redirected := startsWith bf.for_.data sel.data
      let originalSelector := if redirected then some sel else none
      let sel1 := if redirected then bf.in_ else sel
      let r := split m (stripNot sel1) (.char '.')
      let w := walk h r.1 r.1 state r.2.console
      match w.1 with
      | .error e => (.error e, { r.2 with console := w.2 })
      | .ok value =>
        if bf.key = "" then (getProp h value bindForKey, { r.2 with console := w.2 })
        else
          match lengthOf h value with
          | .error e => (.error e, { r.2 with console := w.2 })
          | .ok n =>
            match findItem { r.2 with console := w.2 } h bf bindForKey originalSelector value n 0 with
            | (.error e, m2) => (.error e, m2)
            | (.ok value1, m2) => (.ok (applyNot sel1 value1), m2)
    | _ => (.error typeError, m)

/-- The constant `COMPARISONS`. -/
def COMPARISONS : List String := ["==", "===", "!=", "!=="]

/-- The constant `AND`. -/
def AND : String := "&&"

/-- The constant `OR`. -/
def OR : String := "||"

/-- The call `tokenArray.push(v)`. -/
def pushToken (m : Mod) (v : Val) : Mod := { m with tokenArray := m.tokenArray ++ [v] }

/-- The call `tokenArray.pop()`: `undefined` on an empty array. -/
def popToken (m : Mod) : Val × Mod :=
  (m.tokenArray.getLast?.getD .undefined, { m with tokenArray := m.tokenArray.dropLast })

/-- The first loop of `select`, over the tokens of `tempTokenArray` that remain: a
comparison operator consumes the token before it and the token after it.  The result is
the error thrown, if any. -/
def comparisonPass (h : Heap) (state : Val) : List String → Mod → Option Err × Mod
  | [], m => (none, m)
  | [tok], m =>
    if indexOf COMPARISONS tok = -1 then (none, pushToken m (.str tok))
    else
      match selectProperty (popToken m).2 h state (popToken m).1 none "" with
      | (.error e, m1) => (some e, m1)
      | (.ok _, m1) => (some typeError, m1)
  | tok :: lit :: rest, m =>
    if indexOf COMPARISONS tok = -1 then
      comparisonPass h state (lit :: rest) (pushToken m (.str tok))
    else
      match selectProperty (popToken m).2 h state (popToken m).1 none "" with
      | (.error e, m1) => (some e, m1)
      | (.ok firstValue, m1) =>
        comparisonPass h state rest
          (pushToken m1 (.bool
            (if indexOf tok.data '!' = -1 then firstValue.beq (.str (removeQuotes lit))
             else !(firstValue.beq (.str (removeQuotes lit))))))

/-- The second loop of `select`, `for (i = 1; i < tokenArray.length; i += 2)`, over the
tokens from index `i` on, with the running value. -/
def booleanPass (h : Heap) (state : Val) : List Val → Nat → Val → Mod → Except Err Val × Mod
  | [], _, runningBool, m => (.ok runningBool, m)
  | [op], _, runningBool, m =>
    if !(op.beq (.str OR)) && !(op.beq (.str AND)) then (.ok runningBool, m)
    else (.error typeError, m)
  | op :: operand :: rest, i, runningBool, m =>
    if !(op.beq (.str OR)) && !(op.beq (.str AND)) then
      booleanPass h state rest (i + 2) runningBool m
    else
      match (if operand.isBoolean then (.ok operand, m)
             else selectProperty m h state operand none "") with
      | (.error e, m1) => (.error e, m1)
      | (.ok v, m1) =>
        booleanPass h state rest (i + 2)
          (if op.beq (.str OR) then (if runningBool.truthy then runningBool else v)
           else (if runningBool.truthy then v else runningBool))
          { m1 with tokenArray := m1.tokenArray.set (i + 1) v }

/-- The function `select(state, selector, bindFor, bindForKey)`. -/
def select (m : Mod) (h : Heap) (state : Val) (selector : String)
    (bindFor : Option BindFor) (bindForKey : String) : Except Err Val × Mod :=
  let r := split m selector .whitespace
  if r.1.length = 1 then selectProperty r.2 h state (.str selector) bindFor bindForKey
  else
    match comparisonPass h state r.1
        { r.2 with tokenArray := [], tempTokenArray := copyArray r.2.tempTokenArray (r.1.map Val.str) } with
    | (some e, m3) => (.error e, m3)
    | (none, m3) =>
      match m3.tokenArray with
      | [] => (.error typeError, m3)
      | [t] => (.ok t, m3)
      | t :: rest =>
        match (if t.isBoolean then (.ok t, m3)
               else selectProperty m3 h state t bindFor bindForKey) with
        | (.error e, m4) => (.error e, m4)
        | (.ok runningBool, m4) => booleanPass h state rest 1 runningBool m4

/-! ## Reference notions used to state the properties -/

/-- Successive key lookups `state[a1][a2]...[an]` through plain mappings: defined when
every prefix resolves to a mapping that contains the next segment. -/
def lookupPath : Val → List String → Option Val
  | v, [] => some v
  | .obj fs, k :: rest =>
    match lookupKey k fs with
    | some v => lookupPath v rest
    | none => none
  | _, _ :: _ => none

/-- The selector string `a1.a2.….an` for the segments `a1, …, an`. -/
def dotted : List String → List Char
  | [] => []
  | [a] => a.data
  | a :: b :: rest => a.data ++ '.' :: dotted (b :: rest)

/-- Reference notification pass, in the words of the spec: the observers of the given
list are visited in order, each one once; an observer is called when its test holds in the
store reached so far; a throw ends the pass. -/
def notifyInOrder (env : Env) : List Observer → World → Outcome World
  | [], w => .done w
  | sub :: rest, w =>
    match shouldNotify w.store sub with
    | .error e => .threw e w
    | .ok false => notifyInOrder env rest w
    | .ok true =>
      match env.onStateUpdate sub w.store with
      | .threw e s => .threw e { w with store := s, calls := w.calls ++ [sub] }
      | .done s => notifyInOrder env rest { w with store := s, calls := w.calls ++ [sub] }

/-- The notification predicate of an observer holds in a store. -/
def predicateHolds (s : Store) (sub : Observer) : Bool :=
  match shouldNotify s sub with
  | .ok true => true
  | _ => false

/-- Truthiness of `value.__dirty`, false where the read throws. -/
def dirtyOf (h : Heap) (value : Val) : Bool :=
  match getProp h value "__dirty" with
  | .ok flag => flag.truthy
  | .error _ => false

/-- The entries of the state that `copyState` and the diff track at top level. -/
def tracked (env : Env) (fs : Fields) : Fields :=
  fs.filter (fun e => decide (indexOf env.nonBindedStateKeys e.1 = -1))

mutual
/-- The snapshot value (second) holds everything the state value (first) holds: the keys
of the state at every nesting level of plain mappings, with equal scalar leaves and the
same array references. -/
def mirrors : Val → Val → Bool
  | .obj fs, .obj lf => mirrorsFields fs lf
  | .obj _, _ => false
  | v, l => l.beq v
/-- Every entry of the state mapping has a mirroring entry in the snapshot mapping. -/
def mirrorsFields : Fields → Fields → Bool
  | [], _ => true
  | (k, v) :: rest, lf =>
    (match lookupKey k lf with
      | some l => mirrors v l
      | none => false) && mirrorsFields rest lf
end

mutual
/-- Wherever the state value (first) holds a mapping, the snapshot value (second) holds a
mapping. -/
def shapeOK : Val → Val → Bool
  | .obj fs, .obj lf => shapeOKFields fs lf
  | .obj _, _ => false
  | _, _ => true
/-- Wherever the state mapping holds a mapping, the snapshot mapping holds a mapping or no
entry. -/
def shapeOKFields : Fields → Fields → Bool
  | [], _ => true
  | (k, v) :: rest, lf =>
    (match lookupKey k lf with
      | some l => shapeOK v l
      | none => true) && shapeOKFields rest lf
end

mutual
/-- No mapping inside the value lists a key twice. -/
def uniqueKeys : Val → Bool
  | .obj fs => uniqueKeysFields fs
  | _ => true
/-- The mapping lists no key twice, at any nesting level. -/
def uniqueKeysFields : Fields → Bool
  | [] => true
  | (k, v) :: rest => decide (k ∉ keysOf rest) && uniqueKeys v && uniqueKeysFields rest
end

/-- Every entry of the split cache is the uncached split of its string. -/
def CacheOk (m : Mod) : Prop :=
  ∀ (d : Delimiter) (sub : List (String × List String)),
    lookupKey d.key m.SPLIT_CACHE = some sub →
    ∀ (str : String) (tokens : List String),
      lookupKey str sub = some tokens → tokens = nativeSplit str d

/-! ## Example worlds -/

/-- An ordinary observer watching `count`. -/
def observerA : Observer := { id := 1, name := "bind", keysToWatch := ["count"] }

/-- A second ordinary observer watching `count`. -/
def observerB : Observer := { id := 2, name := "bind", keysToWatch := ["count"] }

/-- An ordinary observer watching `other`. -/
def observerC : Observer := { id := 3, name := "bind", keysToWatch := ["other"] }

/-- A list-bound observer watching the array `items`. -/
def observerL : Observer := { id := 4, name := "bind-for", keysToWatch := ["items"] }

/-- The handler `state.count += 1`. -/
def incrementHandler (s : Store) (_payload : Val) : Outcome Store :=
  match s.state with
  | .obj fs =>
    match lookupKey "count" fs with
    | some (.num n) => .done { s with state := .obj (setKey "count" (.num (n + 1)) fs) }
    | _ => .done s
  | _ => .done s

/-- The handler `delete state.count`. -/
def removeHandler (s : Store) (_payload : Val) : Outcome Store :=
  match s.state with
  | .obj fs => .done { s with state := .obj (fs.filter (fun e => decide (e.1 ≠ "count"))) }
  | _ => .done s

/-- A definition with the actions `increment`, `remove` and `noop`, whose observers only
touch the view, and a `clone` that copies mappings and keeps array references. -/
def counterEnv : Env :=
  { initialState := .obj [("count", .num 0), ("items", .arr 0)]
    nonBindedStateKeys := []
    handlers := fun actionName =>
      if actionName = "increment" then some incrementHandler
      else if actionName = "remove" then some removeHandler
      else if actionName = "noop" then some (fun s _ => .done s)
      else none
    computeState := fun s _ _ => .done s
    onStateUpdate := fun _ s => .done s
    clone := fun v => v }

/-- The same definition, with observer 1 removing itself from the store (its component is
detached) when it is notified. -/
def detachingEnv : Env :=
  { counterEnv with
    onStateUpdate := fun sub s => if sub.id = 1 then .done (unsubscribe s sub) else .done s }

/-- The counter world with observer C, which watches `other`, subscribed between A and
B. -/
def mixedWorld : World :=
  { store :=
      { state := .obj [("count", .num 0), ("items", .arr 0)]
        lastState := .obj [("count", .num 0), ("items", .arr 0)]
        diff := []
        subscriptions := [observerA, observerC, observerB]
        heap := [(0, { items := [], props := [("__dirty", .bool false)] })] }
    calls := []
    emitted := [] }

/-- A heap holding one empty array, not flagged. -/
def oneArrayHeap : Heap := [(0, { items := [], props := [] })]

/-- A world after earlier dispatches: `count` is 0 in state and snapshot, the array is
clean, observers A and B are subscribed. -/
def counterWorld : World :=
  { store :=
      { state := .obj [("count", .num 0), ("items", .arr 0)]
        lastState := .obj [("count", .num 0), ("items", .arr 0)]
        diff := []
        subscriptions := [observerA, observerB]
        heap := [(0, { items := [], props := [("__dirty", .bool false)] })] }
    calls := []
    emitted := [] }

/-- A world whose state holds an array one level down, `panel.items`, flagged dirty. -/
def nestedWorld : World :=
  { store :=
      { state := .obj [("panel", .obj [("items", .arr 0)])]
        lastState := .obj [("panel", .obj [("items", .arr 0)])]
        diff := []
        subscriptions := []
        heap := [(0, { items := [], props := [("__dirty", .bool true)] })] }
    calls := []
    emitted := [] }

/-- The world right after `init`, with the list-bound observer L subscribed. -/
def initialWorld : World :=
  { store := subscribe (init counterEnv oneArrayHeap) observerL, calls := [], emitted := [] }

/-- The value the walk of `selectProperty` ends with, or the error it throws, without the
diagnostics. -/
def walkValue (h : Heap) : List String → Val → Except Err Val
  | [], value => .ok value
  | [seg], value => getProp h value seg
  | seg :: next :: rest, value =>
    match hasProp h value seg with
    | .error e => .error e
    | .ok _ =>
      match getProp h value seg with
      | .error e => .error e
      | .ok v => walkValue h (next :: rest) v

/-- The value a path token resolves to: the walk over its dot-separated segments, after
`stripNot`, followed by the negation step. -/
def resolve (h : Heap) (state : Val) (path : String) : Except Err Val :=
  match walkValue h (nativeSplit (stripNot path) (.char '.')) state with
  | .error e => .error e
  | .ok value => .ok (applyNot path value)

/-- Successive property reads `value[a1][a2]…[ai]`. -/
def reach (h : Heap) : Val → List String → Except Err Val
  | value, [] => .ok value
  | value, seg :: rest =>
    match getProp h value seg with
    | .error e => .error e
    | .ok v => reach h v rest

/-- A state with a nested mapping, strings and arrays: `items` and `rows` are the same
array of objects, `names` is an array of strings. -/
def sampleState : Val :=
  .obj [("a", .obj [("b", .num 5), ("flag", .bool true)]), ("x", .str "red"),
    ("y", .bool true), ("title", .str "Hi"), ("items", .arr 0), ("names", .arr 1),
    ("rows", .arr 0)]

/-- The heap of `sampleState`. -/
def sampleHeap : Heap :=
  [(0, { items := [.obj [("id", .str "a"), ("name", .str "Ann")],
                   .obj [("id", .str "b"), ("name", .str "Bob")]], props := [] }),
   (1, { items := [.str "x", .str "y"], props := [] })]

/-- The iteration context `for: item; in: items; key: id`. -/
def keyedContext : BindFor := { for_ := "item", in_ := "items", key := "id" }

/-- The iteration context `for: item; in: names`, without key field. -/
def plainContext : BindFor := { for_ := "item", in_ := "names", key := "" }

/-- The boolean combinators of the selector grammar. -/
inductive Connective where
  | and
  | or

/-- The token of a combinator: `&&` or `||`. -/
def Connective.token : Connective → String
  | .and => AND
  | .or => OR

/-- The JavaScript operators `left || right` and `left && right`, which answer one of
their operands. -/
def Connective.apply : Connective → Val → Val → Val
  | .or, left, right => if left.truthy then left else right
  | .and, left, right => if left.truthy then right else left

/-- The comparison of a resolved value with a literal token: strict equality with the
literal stripped of its single quotes, negated when the operator holds a `!`. -/
def compareLiteral (op : String) (value : Val) (lit : String) : Bool :=
  if indexOf op.data '!' = -1 then value.beq (.str (removeQuotes lit))
  else !(value.beq (.str (removeQuotes lit)))

/-- An operand of a selector: a path, or a comparison triple `p op lit`. -/
inductive Operand where
  | path (p : String)
  | comparison (p op lit : String)

/-- The tokens of an operand. -/
def Operand.tokens : Operand → List String
  | .path p => [p]
  | .comparison p op lit => [p, op, lit]

/-- The value of an operand: the resolved value of a path, the boolean of a comparison. -/
def Operand.value (h : Heap) (state : Val) : Operand → Except Err Val
  | .path p => resolve h state p
  | .comparison p op lit =>
    match resolve h state p with
    | .error e => .error e
    | .ok v => .ok (.bool (compareLiteral op v lit))

/-- A token: not empty, no whitespace. -/
def IsToken (t : String) : Prop := t.data ≠ [] ∧ ∀ c ∈ t.data, isWhitespace c = false

/-- An operand is made of tokens, its path is no comparison operator and its operator
is one. -/
def Operand.WellFormed : Operand → Prop
  | .path p => IsToken p ∧ p ∉ COMPARISONS
  | .comparison p op lit => IsToken p ∧ p ∉ COMPARISONS ∧ op ∈ COMPARISONS ∧ IsToken lit

/-- The tokens of `c1 o2 c2 o3 …`. -/
def restTokens : List (Connective × Operand) → List String
  | [] => []
  | (c, o) :: rest => c.token :: (o.tokens ++ restTokens rest)

/-- The tokens of the selector `o1 c1 o2 c2 … on`. -/
def selectorTokens (first : Operand) (rest : List (Connective × Operand)) : List String :=
  first.tokens ++ restTokens rest

/-- Tokens written one after the other, separated by one space. -/
def joinSpaces : List String → List Char
  | [] => []
  | [t] => t.data
  | t :: u :: rest => t.data ++ ' ' :: joinSpaces (u :: rest)

/-- The strict left-to-right fold `((v1 c1 v2) c2 v3) …`: every operand is resolved, in
order, whatever the running value; an operand that fails to resolve fails the fold. -/
def foldOperands (h : Heap) (state : Val) : Val → List (Connective × Operand) → Except Err Val
  | running, [] => .ok running
  | running, (c, o) :: rest =>
    match o.value h state with
    | .error e => .error e
    | .ok v => foldOperands h state (c.apply running v) rest

/-- The value of the selector `o1 c1 o2 … on` read as a strict left-to-right fold. -/
def evalOperands (h : Heap) (state : Val) (first : Operand)
    (rest : List (Connective × Operand)) : Except Err Val :=
  match first.value h state with
  | .error e => .error e
  | .ok v => foldOperands h state v rest

/-- What the comparison pass leaves in `tokenArray` for an operand: the path itself, or
the boolean of the comparison. -/
def Operand.encode (h : Heap) (state : Val) : Operand → Except Err Val
  | .path p => .ok (.str p)
  | .comparison p op lit =>
    match resolve h state p with
    | .error e => .error e
    | .ok v => .ok (.bool (compareLiteral op v lit))

/-- What the comparison pass leaves in `tokenArray` for `c1 o2 c2 o3 …`. -/
def encodeRest (h : Heap) (state : Val) : List (Connective × Operand) → Except Err (List Val)
  | [] => .ok []
  | (c, o) :: rest =>
    match o.encode h state with
    | .error e => .error e
    | .ok t =>
      match encodeRest h state rest with
      | .error e => .error e
      | .ok ts => .ok (.str c.token :: t :: ts)

/-- The value is a plain mapping. -/
def Val.isMapping : Val → Bool
  | .obj _ => true
  | _ => false

/-- A definition whose key `cache` is not tracked. -/
def cachingEnv : Env := { counterEnv with nonBindedStateKeys := ["cache"] }

/-- A state for `cachingEnv`: an untracked top-level `cache`, a tracked mapping `ui` that
has a key `cache` of its own, and an array. -/
def cacheState : Fields :=
  [("cache", .num 2), ("ui", .obj [("cache", .num 5), ("open", .bool true)]), ("items", .arr 0)]

/-- A snapshot older than `cacheState`. -/
def cacheLast : Fields :=
  [("cache", .num 1), ("ui", .obj [("cache", .num 4), ("old", .str "kept")])]

/-! ## The list reconciler (`bind-for`) -/

/-- An element child of the container: its identity, its tag name and its attribute
`data-bind-for-key`, `none` while it has none. -/
structure Node where
  id : Nat
  tagName : String
  key : Option String
  deriving DecidableEq

/-- The platform code the reconciler calls into. -/
structure Dom where
  /-- The call `this.system.renderTemplate(template, item)`: for each element child of the
  returned fragment its tag name and the attribute `data-bind-for-key` the template gave
  it, or the error the call throws.  The entries the call adds to the split cache are not
  tracked. -/
  renderTemplate : String → Val → Except Err (List (String × Option String))
  /-- The string conversion of an array or a mapping that is stored as an attribute value,
  or the error the conversion throws. -/
  textOf : Heap → Val → Except Err String

/-- A `bind-for` component with its container element: the component data, the template
text, the attribute `id` of the element and the attribute name of the component (both
only used in an error message), `renderedKeys`, the element children of the container, the
number of elements created so far (the identity of the next one), the items handed to
`renderTemplate` so far and the names of the events emitted so far. -/
structure BindForComponent where
  data : BindFor
  template : String
  elId : Option String
  attrName : String
  renderedKeys : List Val
  children : List Node
  created : Nat
  rendered : List Val
  emitted : List String

/-- The method `xs.indexOf(x)` on an array of values, searching from position `i` on:
elements are compared with strict equality. -/
def indexOfValFrom : List Val → Val → Nat → Int
  | [], _, _ => -1
  | y :: ys, x, i => if y.beq x then (i : Int) else indexOfValFrom ys x (i + 1)

/-- The method `xs.indexOf(x)` on an array of values. -/
def indexOfVal (xs : List Val) (x : Val) : Int := indexOfValFrom xs x 0

/-- The string conversion of a scalar. -/
def scalarText : Val → Option String
  | .undefined => some "undefined"
  | .null => some "null"
  | .bool true => some "true"
  | .bool false => some "false"
  | .num n => some (toString n)
  | .str s => some s
  | .arr _ => none
  | .obj _ => none

/-- The string `setAttribute(name, value)` stores for `value`. -/
def attributeText (dom : Dom) (h : Heap) (value : Val) : Except Err String :=
  match scalarText value with
  | some s => .ok s
  | none => dom.textOf h value

/-- The call `node.getAttribute('data-bind-for-key')`: the stored string, or `null`. -/
def getAttribute (node : Node) : Val :=
  match node.key with
  | some s => .str s
  | none => .null

/-- The elements a rendered fragment adds to the container, with fresh identities counted
from `created`. -/
def fragmentNodes (created : Nat) : List (String × Option String) → List Node
  | [] => []
  | (tag, key) :: rest => { id := created, tagName := tag, key := key } :: fragmentNodes (created + 1) rest

/-- The statement `el.children[el.children.length - 1].setAttribute('data-bind-for-key',
keyValue)`: it throws when the container has no element child, and else stores the string
of `keyValue` on the last one. -/
def tagLastChild (dom : Dom) (h : Heap) (children : List Node) (keyValue : Val) :
    Except Err (List Node) :=
  match children.getLast? with
  | none => .error typeError
  | some last =>
    match attributeText dom h keyValue with
    | .error e => .error e
    | .ok text => .ok (children.dropLast ++ [{ last with key := some text }])

/-- The key of `item`, found at index `i`: `data.key ? item[data.key] : i.toString()`. -/
def itemKey (h : Heap) (data : BindFor) (item : Val) (i : Nat) : Except Err Val :=
  if data.key ≠ "" then getProp h item data.key else .ok (.str (toString i))

/-- The first loop of `onStateUpdate`, over `list`: `keys` collects the key of every item;
an item whose key is not in `renderedKeys` is rendered, the fragment is appended to the
container, its last element is tagged with the key and the key is pushed on `renderedKeys`.
The first number counts the iterations that remain, the second is `i`. -/
def addLoop (dom : Dom) (h : Heap) (list : Val) (keys : List Val) (c : BindForComponent) :
    Nat → Nat → Outcome (List Val × BindForComponent)
  | 0, _ => .done (keys, c)
  | n + 1, i =>
    match getProp h list (toString i) with
    | .error e => .threw e (keys, c)
    | .ok item =>
      match itemKey h c.data item i with
      | .error e => .threw e (keys, c)
      | .ok keyValue =>
        if indexOfVal c.renderedKeys keyValue = -1 then
          match dom.renderTemplate c.template item with
          | .error e => .threw e (keys ++ [keyValue], c)
          | .ok fragment =>
            let appended := c.children ++ fragmentNodes c.created fragment
            let c1 := { c with children := appended
                               created := c.created + fragment.length
                               rendered := c.rendered ++ [item] }
            match tagLastChild dom h appended keyValue with
            | .error e => .threw e (keys ++ [keyValue], c1)
            | .ok tagged =>
              addLoop dom h list (keys ++ [keyValue])
                { c1 with children := tagged
                          renderedKeys := c.renderedKeys ++ [keyValue] } n (i + 1)
        else addLoop dom h list (keys ++ [keyValue]) c n (i + 1)

/-- The second loop of `onStateUpdate`, over the element children: a child that is not a
`TEMPLATE` and whose key attribute is not in `keys` is pushed on `toRemove`, and
`renderedKeys.splice(renderedKeys.indexOf(key), 1)` runs.  The pair is `toRemove` and
`renderedKeys`. -/
def removeLoop (keys : List Val) : List Node → List Node × List Val → List Node × List Val
  | [], acc => acc
  | child :: rest, (toRemove, renderedKeys) =>
    if child.tagName = "TEMPLATE" then removeLoop keys rest (toRemove, renderedKeys)
    else if indexOfVal keys (getAttribute child) = -1 then
      removeLoop keys rest
        (toRemove ++ [child],
          splice renderedKeys (indexOfVal renderedKeys (getAttribute child)) 1)
    else removeLoop keys rest (toRemove, renderedKeys)

/-- The call `node.parentNode.removeChild(node)` on a child of the container. -/
def removeChild (children : List Node) (node : Node) : List Node :=
  children.filter (fun child => child.id != node.id)

/-- The body of `onStateUpdate` after the selection of `list`.  The arrays `keys` and
`toRemove`, shared by all components, are emptied before they are used. -/
def reconcile (dom : Dom) (h : Heap) (list : Val) (c : BindForComponent) :
    Outcome BindForComponent :=
  match lengthOf h list with
  | .error e => .threw e c
  | .ok n =>
    match addLoop dom h list [] c n 0 with
    | .threw e r => .threw e r.2
    | .done (keys, c1) =>
      let r := removeLoop keys c1.children ([], c1.renderedKeys)
      .done { c1 with renderedKeys := r.2
                      children := r.1.foldl removeChild c1.children
                      emitted := c1.emitted ++ ["bindforrender"] }

/-- The message of the error `onStateUpdate` throws when the selection fails. -/
def keyNotFound (c : BindForComponent) : Err :=
  "[aframe-state-component] Key '" ++ c.data.in_ ++ "' not found in state. #"
    ++ c.elId.getD "null" ++ "[" ++ c.attrName ++ "]"

/-- The method `onStateUpdate` of `bind-for`: one reconciliation pass against `state`. -/
def onStateUpdate (dom : Dom) (m : Mod) (h : Heap) (state : Val) (c : BindForComponent) :
    Outcome BindForComponent × Mod :=
  match select m h state c.data.in_ none "" with
  | (.error _, m1) => (.threw (keyNotFound c) c, m1)
  | (.ok list, m1) => (reconcile dom h list c, m1)

/-- The children that are not `TEMPLATE` elements, in order. -/
def keyedNodes (children : List Node) : List Node :=
  children.filter (fun child => child.tagName != "TEMPLATE")

/-- The keys of the items `list[i]`, `list[i + 1]`, ... of a collection, `n` of them:
`none` when reading one of them throws. -/
def collectionKeysFrom (h : Heap) (data : BindFor) (list : Val) : Nat → Nat → Option (List Val)
  | 0, _ => some []
  | n + 1, i =>
    match getProp h list (toString i) with
    | .error _ => none
    | .ok item =>
      match itemKey h data item i with
      | .error _ => none
      | .ok k => (collectionKeysFrom h data list n (i + 1)).map (fun ks => k :: ks)

/-- The key sequence of a collection: the keys of its `list.length` items, in order. -/
def collectionKeys (h : Heap) (data : BindFor) (list : Val) : Option (List Val) :=
  match lengthOf h list with
  | .error _ => none
  | .ok n => collectionKeysFrom h data list n 0

/-- An example platform: every template renders to one `A-ENTITY` element without a key
attribute; the examples store scalars only. -/
def entityDom : Dom :=
  { renderTemplate := fun _ _ => .ok [("A-ENTITY", none)]
    textOf := fun _ _ => .ok "[object Object]" }

/-- A state whose array `items` (reference 0 of `numberedHeap`) holds three mappings with
the numeric keys 1, 3 and 4. -/
def numberedState : Val := .obj [("items", .arr 0)]

/-- The heap of `numberedState`. -/
def numberedHeap : Heap :=
  [(0, { items := [.obj [("id", .num 1)], .obj [("id", .num 3)], .obj [("id", .num 4)]],
         props := [] })]

/-- A `bind-for` component right after `init`, keyed by `id`, on a container that holds
only its template element. -/
def freshComponent : BindForComponent :=
  { data := { for_ := "item", in_ := "items", key := "id" }
    template := "<a-entity></a-entity>"
    elId := some "list"
    attrName := "bind-for"
    renderedKeys := []
    children := [{ id := 0, tagName := "TEMPLATE", key := none }]
    created := 1
    rendered := []
    emitted := [] }

/-- The component of the example of the specification: the keys 1, 2 and 3 are rendered,
each by one node tagged with it. -/
def renderedComponent : BindForComponent :=
  { freshComponent with
    renderedKeys := [.num 1, .num 2, .num 3]
    children := [{ id := 0, tagName := "TEMPLATE", key := none },
                 { id := 1, tagName := "A-ENTITY", key := some "1" },
                 { id := 2, tagName := "A-ENTITY", key := some "2" },
                 { id := 3, tagName := "A-ENTITY", key := some "3" }]
    created := 4 }

/-- A component on `sampleState`, keyed by `id`, that has rendered the keys `b` and `a`, in
this order. -/
def permutedComponent : BindForComponent :=
  { freshComponent with
    renderedKeys := [.str "b", .str "a"]
    children := [{ id := 0, tagName := "TEMPLATE", key := none },
                 { id := 1, tagName := "A-ENTITY", key := some "b" },
                 { id := 2, tagName := "A-ENTITY", key := some "a" }]
    created := 3 }

/-! ## Composition of handler tables -/

/-- A handler `function (state, payload)`: its effect on what it is applied to. -/
abbrev Handler (σ : Type) := σ → Val → Outcome σ

/-- What `outputHandlers[actionName]` holds during the first loop of `composeHandlers`: a
function, or an array of functions. -/
inductive Slot (σ : Type) where
  | single (f : Handler σ)
  | array (fs : List (Handler σ))

/-- The function `composeFunctions(...functions)` returns: it applies the functions in
order to its own arguments; an exception thrown by one of them ends the call. -/
def composeFunctions {σ : Type} : List (Handler σ) → Handler σ
  | [], state, _ => .done state
  | f :: rest, state, payload =>
    match f state payload with
    | .done state1 => composeFunctions rest state1 payload
    | .threw e state1 => .threw e state1

/-- The body of the inner loop of `composeHandlers` for the entry `actionName` of an input
table. -/
def mergeEntry {σ : Type} (outputHandlers : List (String × Slot σ))
    (entry : String × Handler σ) : List (String × Slot σ) :=
  match lookupKey entry.1 outputHandlers with
  | some (.array fs) => setKey entry.1 (.array (fs ++ [entry.2])) outputHandlers
  | some (.single f) => setKey entry.1 (.array [f, entry.2]) outputHandlers
  | none => setKey entry.1 (.single entry.2) outputHandlers

/-- The second loop of `composeHandlers` on one entry: an array is replaced by the
composition of its functions. -/
def composeSlot {σ : Type} : Slot σ → Handler σ
  | .single f => f
  | .array fs => composeFunctions fs

/-- The function `composeHandlers(...inputHandlers)`, on tables that map action names to
functions. -/
def composeHandlers {σ : Type} (inputHandlers : List (List (String × Handler σ))) :
    List (String × Handler σ) :=
  let outputHandlers :=
    inputHandlers.foldl (fun out table => table.foldl mergeEntry out) []
  outputHandlers.map (fun entry => (entry.1, composeSlot entry.2))

/-- The slot that holds the handlers `fs` met so far for one action name. -/
def slotOf {σ : Type} : List (Handler σ) → Option (Slot σ)
  | [] => none
  | [f] => some (.single f)
  | fs => some (.array fs)

/-- The handlers a composed handler for `fs` stands for: none, the function itself, or the
composition. -/
def composedOf {σ : Type} : List (Handler σ) → Option (Handler σ)
  | [] => none
  | [f] => some f
  | fs => some (composeFunctions fs)

/-- A handler that records its own number and the payload it was called with. -/
def recorder (n : Nat) : Handler (List (Nat × Val)) :=
  fun calls payload => .done (calls ++ [(n, payload)])

/-- Two tables of recording handlers that share the action `add`. -/
def recorderTables : List (List (String × Handler (List (Nat × Val)))) :=
  [[("add", recorder 1), ("reset", recorder 2)], [("add", recorder 3)], [("tick", recorder 4)]]

/-- A child the second loop of `onStateUpdate` marks for removal when the collection has
the string keys `K`: it is not a `TEMPLATE` and its key attribute is none of them. -/
def isStale (K : List String) (node : Node) : Bool :=
  node.tagName != "TEMPLATE" && decide (node.key ∉ K.map some)

/-- The heap of `numberedState` with the keys written as strings: the array `items` holds
three mappings keyed `1`, `3` and `4`. -/
def labelledHeap : Heap :=
  [(0, { items := [.obj [("id", .str "1")], .obj [("id", .str "3")], .obj [("id", .str "4")]],
         props := [] })]

/-- The component of the example of the specification with string keys: `1`, `2` and `3`
are rendered, each by one node tagged with it. -/
def labelledComponent : BindForComponent :=
  { renderedComponent with renderedKeys := [.str "1", .str "2", .str "3"] }

/-! ## Watched keys -/

/-- The constant `NO_WATCH_TOKENS`. -/
def NO_WATCH_TOKENS : List String := ["||", "&&", "!=", "!==", "==", "==="]

/-- The method `str.trim()`: whitespace is removed at both ends. -/
def trim (str : String) : String :=
  String.mk ((str.data.dropWhile isWhitespace).reverse.dropWhile isWhitespace).reverse

/-- The function `parseKeyToWatch(str)`. -/
def parseKeyToWatch (str : String) : String :=
  let str1 := stripNot (trim str)
  let dotIndex := indexOf str1.data '.'
  if dotIndex = -1 then str1
  else String.mk (str1.data.take (indexOf str1.data '.').toNat)

/-- The loop of `parseKeysToWatch` over the tokens that remain, as the contents `keys`
ends with. -/
def parseKeysLoop (keys : List String) : List String → List String
  | [] => keys
  | token :: rest =>
    if indexOf NO_WATCH_TOKENS token = -1 && !(startsWith [quoteChar] token.data)
        && indexOf keys token = -1 then
      parseKeysLoop (keys ++ [parseKeyToWatch token]) rest
    else parseKeysLoop keys rest

/-- The function `parseKeysToWatch(keys, str)`, as the contents `keys` ends with.  The
tokens come from the uncached `str.split(/\s+/)`. -/
def parseKeysToWatch (keys : List String) (str : String) : List String :=
  parseKeysLoop keys (nativeSplit str .whitespace)

/-- A path token of a selector: a token that is neither an operator nor starts a quoted
literal. -/
def isPathToken (token : String) : Bool :=
  decide (indexOf NO_WATCH_TOKENS token = -1) && !(startsWith [quoteChar] token.data)

/-- The top-level state key of a path token: the first dotted segment, a leading `!!` or
`!` stripped; it is the first key `selectProperty` reads for the token. -/
def topLevelKey (token : String) : String :=
  (nativeSplit (stripNot token) (.char '.')).headD ""

/-! ## Earlier calls into the selector evaluator -/

/-- A call made earlier in the life of the module: of the cached split, or of `select`. -/
inductive Call where
  | split (str : String) (delimiter : Delimiter)
  | select (h : Heap) (state : Val) (selector : String) (bindFor : Option BindFor)
      (bindForKey : String)

/-- The module state a call leaves behind: the cache, the scratch token arrays. -/
def Call.run (m : Mod) : Call → Mod
  | .split str delimiter => (KFrame.split m str delimiter).2
  | .select h state selector bindFor bindForKey =>
    (KFrame.select m h state selector bindFor bindForKey).2

/-- The module state after a sequence of calls, the earliest first. -/
def runCalls (m : Mod) (calls : List Call) : Mod := calls.foldl Call.run m

/-- A component on `numberedState`, keyed by `id`, its collection being keyed 1, 3, 4: the
keys 3, 1 and 4 are rendered in this order, each by one node tagged with it. -/
def reorderedComponent : BindForComponent :=
  { freshComponent with
    renderedKeys := [.num 3, .num 1, .num 4]
    children := [{ id := 0, tagName := "TEMPLATE", key := none },
                 { id := 1, tagName := "A-ENTITY", key := some "3" },
                 { id := 2, tagName := "A-ENTITY", key := some "1" },
                 { id := 3, tagName := "A-ENTITY", key := some "4" }]
    created := 4 }

/-- The world right after `init`, with the ordinary observer A and then the list-bound
observer L subscribed: `init` has flagged the array `items` dirty. -/
def listWorld : World :=
  { store := subscribe (subscribe (init counterEnv oneArrayHeap) observerA) observerL
    calls := []
    emitted := [] }

/-- The own entries of the handler table `{increment: ...}`. -/
def plainTable : List (String × (Store → Val → Outcome Store)) :=
  [("increment", incrementHandler)]

/-- The definition `counterEnv` with the handler table `{increment: ...}`, an object
literal.  The read `State.handlers[actionName]` follows the prototype chain of the
literal: where the table has no entry of its own, the names `toString`, `valueOf` and
`constructor` find the functions of `Object.prototype`, which called with the state and
the payload return a value and touch nothing.  The environment is used at `increment` and
at these three names. -/
def plainTableEnv : Env :=
  { counterEnv with
    handlers := fun actionName =>
      match lookupKey actionName plainTable with
      | some handler => some handler
      | none =>
        if actionName = "toString" ∨ actionName = "valueOf" ∨ actionName = "constructor" then
          some (fun s _ => .done s)
        else none }

/-- The names of the members of `Object.prototype`.  A plain object that has no own
property of such a name still answers a read `object[name]` and a test `name in object`
with the inherited member (a function, for `__proto__` the prototype itself); the embedding
reads own properties only. -/
def objectPrototypeNames : List String :=
  ["constructor", "hasOwnProperty", "isPrototypeOf", "propertyIsEnumerable", "toLocaleString",
   "toString", "valueOf", "__proto__", "__defineGetter__", "__defineSetter__",
   "__lookupGetter__", "__lookupSetter__"]

/-- The names of the members that arrays, strings, numbers and booleans inherit from
`Array.prototype`, `String.prototype`, `Number.prototype` and `Boolean.prototype`, besides
those of `Object.prototype` (ECMAScript 2023, with the legacy string methods). -/
def builtinPrototypeNames : List String :=
  ["at", "concat", "copyWithin", "entries", "every", "fill", "filter", "find", "findIndex",
   "findLast", "findLastIndex", "flat", "flatMap", "forEach", "includes", "indexOf", "join",
   "keys", "lastIndexOf", "map", "pop", "push", "reduce", "reduceRight", "reverse", "shift",
   "slice", "some", "sort", "splice", "toReversed", "toSorted", "toSpliced", "unshift",
   "values", "with",
   "anchor", "big", "blink", "bold", "charAt", "charCodeAt", "codePointAt", "endsWith",
   "fixed", "fontcolor", "fontsize", "isWellFormed", "italics", "link", "localeCompare",
   "match", "matchAll", "normalize", "padEnd", "padStart", "repeat", "replace", "replaceAll",
   "search", "small", "split", "startsWith", "strike", "sub", "substr", "substring", "sup",
   "toLocaleLowerCase", "toLocaleUpperCase", "toLowerCase", "toUpperCase", "toWellFormed",
   "trim", "trimEnd", "trimLeft", "trimRight", "trimStart",
   "toExponential", "toFixed", "toPrecision"]

/-- The names a read `value[name]` or a test `name in value` may find on the prototype
chain of a value of the state tree. -/
def prototypeNames : List String := objectPrototypeNames ++ builtinPrototypeNames

/-! # Properties -/


/-! ## Array helpers -/

theorem indexOfFrom_spec {α : Type} [DecidableEq α] (xs : List α) (x : α) (i : Nat) :
    (x ∈ xs ∧ (i : Int) ≤ indexOfFrom xs x i) ∨ (x ∉ xs ∧ indexOfFrom xs x i = -1) := by
  induction xs generalizing i with
  | nil => right; simp [indexOfFrom]
  | cons y ys ih =>
    by_cases hyx : y = x
    · left
      subst hyx
      simp [indexOfFrom]
    · rcases ih (i + 1) with ⟨hm, hlo⟩ | ⟨hm, heq⟩
      · left
        refine ⟨List.mem_cons_of_mem _ hm, ?_⟩
        simp only [indexOfFrom, hyx, if_false]
        omega
      · right
        refine ⟨?_, ?_⟩
        · simp only [List.mem_cons, not_or]
          exact ⟨fun h => hyx h.symm, hm⟩
        · simp only [indexOfFrom, hyx, if_false]
          exact heq

theorem indexOf_eq_neg_one_iff {α : Type} [DecidableEq α] (xs : List α) (x : α) :
    indexOf xs x = -1 ↔ x ∉ xs := by
  unfold indexOf
  rcases indexOfFrom_spec xs x 0 with ⟨hm, hlo⟩ | ⟨hm, heq⟩
  · constructor
    · intro h; rw [h] at hlo; simp at hlo
    · intro h; exact absurd hm h
  · exact ⟨fun _ => hm, fun _ => heq⟩

theorem indexOf_ne_neg_one_iff {α : Type} [DecidableEq α] (xs : List α) (x : α) :
    indexOf xs x ≠ -1 ↔ x ∈ xs := by
  rw [Ne, indexOf_eq_neg_one_iff]; exact not_not

theorem splice_neg_one {α : Type} (xs : List α) : splice xs (-1) 1 = xs.dropLast := by
  unfold splice
  simp only [show ((-1 : Int) < 0) from by decide, if_true]
  rcases Nat.eq_zero_or_pos xs.length with h0 | hpos
  · have hnil : xs = [] := List.length_eq_zero.mp h0
    subst hnil
    simp
  · have h1 : (max ((xs.length : Int) + -1) 0).toNat = xs.length - 1 := by omega
    rw [h1, List.dropLast_eq_take]
    have h2 : xs.length - 1 + 1 = xs.length := by omega
    rw [h2, List.drop_length, List.append_nil]

/-- Unsubscribing an observer that is not registered removes the observer registered
last. -/
theorem unsubscribe_absent (s : Store) (component : Observer)
    (h : component ∉ s.subscriptions) :
    (unsubscribe s component).subscriptions = s.subscriptions.dropLast := by
  unfold unsubscribe
  simp only
  rw [(indexOf_eq_neg_one_iff _ _).2 h, splice_neg_one]

theorem shouldUpdate_eq_true_iff (keysToWatch : List String) (diff : Fields) :
    shouldUpdate keysToWatch diff = true ↔ ∃ k, k ∈ keysOf diff ∧ k ∈ keysToWatch := by
  induction diff with
  | nil => simp [shouldUpdate, keysOf]
  | cons e rest ih =>
    obtain ⟨k, v⟩ := e
    by_cases hk : k ∈ keysToWatch
    · have : indexOf keysToWatch k ≠ -1 := (indexOf_ne_neg_one_iff _ _).2 hk
      simp only [shouldUpdate, this, ne_eq, not_false_eq_true, if_true, true_iff]
      exact ⟨k, by simp [keysOf], hk⟩
    · have : ¬ indexOf keysToWatch k ≠ -1 := fun h => hk ((indexOf_ne_neg_one_iff _ _).1 h)
      simp only [shouldUpdate, this, if_false, ih]
      constructor
      · rintro ⟨k', hk', hw⟩
        exact ⟨k', by simp only [keysOf, List.map_cons, List.mem_cons]; right; exact hk', hw⟩
      · rintro ⟨k', hk', hw⟩
        simp only [keysOf, List.map_cons, List.mem_cons] at hk'
        rcases hk' with rfl | hk'
        · exact absurd hw hk
        · exact ⟨k', hk', hw⟩

/-! ## C1: unsubscribe of an observer that is not registered -/

/-- C1 (defect of the code): with observers 1 and 2 registered, `unsubscribe` of
observer 3, which was never registered, neither leaves the list unchanged nor fails: it
removes observer 2, because `indexOf` answers `-1` and `splice(-1, 1)` deletes the last
element. -/
theorem unsubscribe_unregistered_removes_last_registered :
    (unsubscribe
      { state := .obj [], lastState := .obj [], diff := [], heap := [],
        subscriptions := [⟨1, "bind", ["a"]⟩, ⟨2, "bind", ["b"]⟩] }
      ⟨3, "bind", ["c"]⟩).subscriptions = [⟨1, "bind", ["a"]⟩] := by
  decide

/-! ## C5: the predicate for ordinary observers -/

/-- C5: `shouldUpdate(keysToWatch, diff)` is true exactly when some key of the changed-key
set occurs in `keysToWatch`; with the changed-key set `count` it is true for the watch list
`["count"]` and false for `["other"]`, and it is false for an empty changed-key set. -/
theorem shouldUpdate_iff_watched_key_changed :
    (∀ (keysToWatch : List String) (diff : Fields),
      shouldUpdate keysToWatch diff = true ↔ ∃ k, k ∈ keysOf diff ∧ k ∈ keysToWatch) ∧
    shouldUpdate ["count"] [("count", .num 1)] = true ∧
    shouldUpdate ["other"] [("count", .num 1)] = false ∧
    (∀ keysToWatch : List String, shouldUpdate keysToWatch [] = false) :=
  ⟨shouldUpdate_eq_true_iff, by decide, by decide, fun _ => rfl⟩

/-! ## C8: dispatch of an unknown action -/

/-- C8 (amended): when `State.handlers[actionName]` is undefined (the table has no entry of
that name, neither its own nor an inherited one), `dispatch` throws, and the world it
leaves is the world it was called in: state, snapshot and subscription list are unchanged,
no observer was called and no event was emitted. -/
theorem dispatch_unknown_action_throws_unchanged (env : Env) (fuel : Nat) (w : World)
    (actionName : String) (payload : Val) (h : env.handlers actionName = none) :
    dispatch env fuel w actionName payload = some (.threw typeError w) := by
  simp [dispatch, beforeNotify, h]

/-! ## The notification loop -/

theorem get_append_length_cons {α : Type} (pre : List α) (x : α) (rest : List α) :
    (pre ++ x :: rest).get? pre.length = some x := by
  induction pre with
  | nil => rfl
  | cons _ _ ih => simpa using ih

/-- When no callback changes the subscription list, the loop that re-reads the list in
every iteration is the in-order pass over the list as it stood at the start. -/
theorem notifyLoop_eq_notifyInOrder (env : Env)
    (hcallback : ∀ o s, (env.onStateUpdate o s).result.subscriptions = s.subscriptions)
    (rest : List Observer) :
    ∀ (pre : List Observer) (w : World) (fuel : Nat),
      w.store.subscriptions = pre ++ rest → rest.length < fuel →
      notifyLoop env fuel pre.length w = some (notifyInOrder env rest w) := by
  induction rest with
  | nil =>
    intro pre w fuel hsubs hfuel
    obtain ⟨f, rfl⟩ : ∃ f, fuel = f + 1 := ⟨fuel - 1, by simp at hfuel; omega⟩
    simp [notifyLoop, notifyInOrder, hsubs]
  | cons o r ih =>
    intro pre w fuel hsubs hfuel
    obtain ⟨f, rfl⟩ : ∃ f, fuel = f + 1 := ⟨fuel - 1, by simp at hfuel; omega⟩
    have hf : r.length < f := by simp at hfuel; omega
    have hget : w.store.subscriptions.get? pre.length = some o := by
      rw [hsubs]; exact get_append_length_cons pre o r
    have hsubs' : w.store.subscriptions = (pre ++ [o]) ++ r := by simp [hsubs]
    have hlen : pre.length + 1 = (pre ++ [o]).length := by simp
    simp only [notifyLoop, notifyInOrder, hget]
    cases hg : shouldNotify w.store o with
    | error e => rfl
    | ok b =>
      cases b with
      | false =>
        simp only
        rw [hlen]
        exact ih (pre ++ [o]) w f hsubs' hf
      | true =>
        simp only
        have hcb := hcallback o w.store
        cases hc : env.onStateUpdate o w.store with
        | threw e s => rfl
        | done s =>
          simp only
          rw [hc] at hcb
          rw [hlen]
          exact ih (pre ++ [o]) _ f (by simpa [Outcome.result, hsubs] using hcb) hf

/-- With callbacks that only touch the view, the in-order pass calls exactly the observers
whose test holds. -/
theorem notifyInOrder_view_only (env : Env)
    (hview : ∀ o s, env.onStateUpdate o s = .done s) (subs : List Observer) :
    ∀ (w : World), (∀ o ∈ subs, ∃ b, shouldNotify w.store o = .ok b) →
      notifyInOrder env subs w =
        .done { w with calls := w.calls ++ subs.filter (predicateHolds w.store) } := by
  induction subs with
  | nil => intro w _; simp [notifyInOrder]
  | cons o r ih =>
    intro w hpred
    obtain ⟨b, hb⟩ := hpred o (List.mem_cons_self _ _)
    have hr : ∀ o' ∈ r, ∃ b, shouldNotify w.store o' = .ok b :=
      fun o' ho' => hpred o' (List.mem_cons_of_mem _ ho')
    cases b with
    | false =>
      simp only [notifyInOrder, hb]
      rw [ih w hr]
      simp [predicateHolds, hb]
    | true =>
      simp only [notifyInOrder, hb, hview]
      have := ih { w with store := w.store, calls := w.calls ++ [o] } hr
      rw [this]
      simp [predicateHolds, hb]

theorem beforeNotify_frame (env : Env) (w w1 : World) (actionName : String) (payload : Val)
    (hhandler : ∀ handler, env.handlers actionName = some handler →
      ∀ s q, (handler s q).result.subscriptions = s.subscriptions)
    (hcompute : ∀ s b q, (env.computeState s b q).result.subscriptions = s.subscriptions)
    (hpre : beforeNotify env w actionName payload = .done w1) :
    w1.store.subscriptions = w.store.subscriptions ∧ w1.calls = w.calls ∧
      w1.emitted = w.emitted := by
  unfold beforeNotify at hpre
  cases hh : env.handlers actionName with
  | none => simp [hh] at hpre
  | some handler =>
    simp only [hh] at hpre
    have h1 := hhandler handler hh w.store payload
    cases hr : handler w.store payload with
    | threw e s => simp [hr] at hpre
    | done s1 =>
      simp only [hr] at hpre
      rw [hr] at h1
      have h2 := hcompute s1 actionName payload
      cases hc : env.computeState s1 actionName payload with
      | threw e s => simp [hc] at hpre
      | done s2 =>
        simp only [hc, Outcome.done.injEq] at hpre
        rw [hc] at h2
        subst hpre
        simp only [Outcome.result] at h1 h2
        simp [h1, h2]

theorem afterNotify_calls (env : Env) (w : World) (actionName : String) (payload : Val) :
    (afterNotify env w actionName payload).result.calls = w.calls := by
  unfold afterNotify
  simp only
  split <;> rfl

/-! ## C3: notification order -/

/-- C3: in a dispatch in which neither the handler, nor the hook, nor any observer callback
changes the subscription list, and whose handler phase completes, the dispatch ends (the
loop needs no more iterations than there are subscriptions) and the `onStateUpdate` calls
it made are those of the in-order pass over the subscription list: every observer visited
once, in subscription order, and called when its predicate holds.  When in addition the
callbacks only touch the view, the calls are exactly the subscription list filtered by the
predicate. -/
theorem dispatch_notifies_in_subscription_order (env : Env) (fuel : Nat) (w w1 : World)
    (actionName : String) (payload : Val)
    (hhandler : ∀ handler, env.handlers actionName = some handler →
      ∀ s q, (handler s q).result.subscriptions = s.subscriptions)
    (hcompute : ∀ s b q, (env.computeState s b q).result.subscriptions = s.subscriptions)
    (hcallback : ∀ o s, (env.onStateUpdate o s).result.subscriptions = s.subscriptions)
    (hfuel : w.store.subscriptions.length < fuel)
    (hpre : beforeNotify env w actionName payload = .done w1) :
    ∃ out, dispatch env fuel w actionName payload = some out ∧
      out.result.calls = (notifyInOrder env w.store.subscriptions w1).result.calls ∧
      ((∀ o s, env.onStateUpdate o s = .done s) →
        (∀ o ∈ w.store.subscriptions, ∃ b, shouldNotify w1.store o = .ok b) →
        out.result.calls = w.calls ++ w.store.subscriptions.filter (predicateHolds w1.store)) := by
  obtain ⟨hsubs, hcalls, _⟩ := beforeNotify_frame env w w1 actionName payload hhandler hcompute hpre
  have hloop : notifyLoop env fuel 0 w1 = some (notifyInOrder env w.store.subscriptions w1) :=
    notifyLoop_eq_notifyInOrder env hcallback w.store.subscriptions [] w1 fuel
      (by simpa using hsubs) hfuel
  have hfilter : (∀ o s, env.onStateUpdate o s = .done s) →
      (∀ o ∈ w.store.subscriptions, ∃ b, shouldNotify w1.store o = .ok b) →
      (notifyInOrder env w.store.subscriptions w1).result.calls =
        w.calls ++ w.store.subscriptions.filter (predicateHolds w1.store) := by
    intro hview hpred
    rw [notifyInOrder_view_only env hview _ w1 hpred]
    simp [Outcome.result, hcalls]
  cases hn : notifyInOrder env w.store.subscriptions w1 with
  | threw e w2 =>
    refine ⟨.threw e w2, ?_, rfl, ?_⟩
    · simp [dispatch, hpre, hloop, hn]
    · intro hview hpred
      rw [← hfilter hview hpred, hn]
  | done w2 =>
    refine ⟨afterNotify env w2 actionName payload, ?_, ?_, ?_⟩
    · simp [dispatch, hpre, hloop, hn]
    · rw [afterNotify_calls]; rfl
    · intro hview hpred
      rw [afterNotify_calls, ← hfilter hview hpred, hn]
      rfl

/-- Witness for C3: observers A, C and B are subscribed in this order; `increment` changes
`count`, which A and B watch and C does not: the calls are A, then B. -/
theorem dispatch_notifies_in_subscription_order_witness :
    ∃ out, dispatch counterEnv 4 mixedWorld "increment" .null = some out ∧
      out.result.calls = [observerA, observerB] := by
  obtain ⟨out, hrun, _, hfilter⟩ :=
    dispatch_notifies_in_subscription_order counterEnv 4 mixedWorld
      (beforeNotify counterEnv mixedWorld "increment" .null).result "increment" .null
      (by
        intro handler hh s q
        have : handler = incrementHandler := by
          simp [counterEnv] at hh; exact hh.symm
        subst this
        unfold incrementHandler
        split
        · split <;> rfl
        · rfl)
      (fun _ _ _ => rfl) (fun _ _ => rfl) (by decide) rfl
  refine ⟨out, hrun, (hfilter (fun _ _ => rfl) ?_).trans (by decide)⟩
  intro o ho
  have hcases : o = observerA ∨ o = observerC ∨ o = observerB := by
    simpa [mixedWorld] using ho
  rcases hcases with rfl | rfl | rfl
  · exact ⟨true, rfl⟩
  · exact ⟨false, rfl⟩
  · exact ⟨true, rfl⟩

/-- Witness for C8: `counterEnv` has no handler named `reset`. -/
theorem dispatch_unknown_action_throws_unchanged_witness :
    counterEnv.handlers "reset" = none ∧
      dispatch counterEnv 3 counterWorld "reset" .null = some (.threw typeError counterWorld) :=
  ⟨rfl, dispatch_unknown_action_throws_unchanged counterEnv 3 counterWorld "reset" .null rfl⟩

/-! ## C4: unsubscribing during notification -/

/-- C4 (defect of the code): observers A and B are subscribed in this order, both watch
`count`, and `increment` changes `count`.  The callback of A unsubscribes A.  The loop then
finds the list one shorter at the next index and ends: B, still subscribed and with its
predicate true, is not called in this dispatch. -/
theorem dispatch_skips_observer_after_unsubscribe :
    (dispatch detachingEnv 3 counterWorld "increment" .null).map
        (fun out => (out.returned, out.result.calls, out.result.store.subscriptions,
          predicateHolds out.result.store observerB)) =
      some (true, [observerA], [observerB], true) := by
  decide

/-! ## The predicate for list-bound observers -/

theorem getProp_dirty_arr (h : Heap) (r : Nat) :
    getProp h (.arr r) "__dirty" = .ok ((lookupKey "__dirty" (h.get r).props).getD .undefined) := by
  have h1 : parseIndex "__dirty" = none := by decide
  have h2 : ("__dirty" : String) ≠ "length" := by decide
  simp [getProp, h1, h2]

/-- The test of the notification loop for a subscribed `bind-for` observer whose first
watched key holds an array is the `__dirty` flag of that array, whatever the changed-key
set holds; so the iteration of the loop that reaches the observer calls it when the flag is
set and passes on without calling it when the flag is not set. -/
theorem bindfor_notified_iff_array_dirty (env : Env) (fuel i : Nat) (w : World)
    (sub : Observer) (key : String) (r : Nat)
    (hsub : w.store.subscriptions.get? i = some sub)
    (hname : sub.name = "bind-for")
    (hkey : sub.keysToWatch.head? = some key)
    (harr : getProp w.store.heap w.store.state key = .ok (.arr r)) :
    (∀ diff : Fields,
      shouldNotify { w.store with diff := diff } sub = .ok (isDirty w.store.heap r)) ∧
    notifyLoop env (fuel + 1) i w =
      (if isDirty w.store.heap r = true then
        (match env.onStateUpdate sub w.store with
          | .threw e s => some (.threw e { w with store := s, calls := w.calls ++ [sub] })
          | .done s =>
            notifyLoop env fuel (i + 1) { w with store := s, calls := w.calls ++ [sub] })
      else notifyLoop env fuel (i + 1) w) := by
  have hpred : ∀ diff : Fields,
      shouldNotify { w.store with diff := diff } sub = .ok (isDirty w.store.heap r) := by
    intro diff
    simp [shouldNotify, hname, hkey, harr, getProp_dirty_arr, isDirty]
  refine ⟨hpred, ?_⟩
  have hg : shouldNotify w.store sub = .ok (isDirty w.store.heap r) := hpred w.store.diff
  simp only [notifyLoop, hsub, hg]
  cases hd : isDirty w.store.heap r <;> simp

/-- Witness of `bindfor_notified_iff_array_dirty`: observer L watches the array `items`,
which is flagged dirty, while the changed-key set is empty. -/
theorem bindfor_notified_iff_array_dirty_witness :
    (∀ diff : Fields,
      shouldNotify { (subscribe (init counterEnv oneArrayHeap) observerL) with diff := diff }
        observerL = .ok true) ∧
    notifyLoop counterEnv 2 0
        { store := subscribe (init counterEnv oneArrayHeap) observerL, calls := [], emitted := [] } =
      some (.done
        { store := subscribe (init counterEnv oneArrayHeap) observerL, calls := [observerL],
          emitted := [] }) := by
  have h := bindfor_notified_iff_array_dirty counterEnv 1 0
    { store := subscribe (init counterEnv oneArrayHeap) observerL, calls := [], emitted := [] }
    observerL "items" 0 rfl rfl rfl rfl
  exact ⟨h.1, h.2.trans rfl⟩

/-! ## Property lists and the heap -/

theorem lookupKey_setKey_same {β : Type} (key : String) (v : β) (l : List (String × β)) :
    lookupKey key (setKey key v l) = some v := by
  induction l with
  | nil => simp [setKey, lookupKey]
  | cons e rest ih =>
    obtain ⟨k, w⟩ := e
    by_cases hk : k = key
    · simp [setKey, lookupKey, hk]
    · simp [setKey, lookupKey, hk, ih]

theorem lookupKey_setKey_ne {β : Type} (key other : String) (v : β) (l : List (String × β))
    (hne : other ≠ key) : lookupKey other (setKey key v l) = lookupKey other l := by
  induction l with
  | nil =>
    simp only [setKey, lookupKey]
    rw [if_neg (fun h => hne h.symm)]
  | cons e rest ih =>
    obtain ⟨k, w⟩ := e
    by_cases hk : k = key
    · subst hk
      simp only [setKey, if_true, lookupKey]
      rw [if_neg (fun h => hne h.symm), if_neg (fun h => hne h.symm)]
    · simp only [setKey, hk, if_false, lookupKey, ih]

theorem lookupKey_of_mem_unique {β : Type} (key : String) (v : β) (l : List (String × β))
    (hmem : (key, v) ∈ l) (hnodup : (keysOf l).Nodup) : lookupKey key l = some v := by
  induction l with
  | nil => cases hmem
  | cons e rest ih =>
    obtain ⟨k, w⟩ := e
    simp only [keysOf, List.map_cons, List.nodup_cons] at hnodup
    rcases List.mem_cons.1 hmem with heq | hrest
    · cases heq
      simp [lookupKey]
    · have hk : k ≠ key := by
        intro h
        subst h
        exact hnodup.1 (List.mem_map.2 ⟨(k, v), hrest, rfl⟩)
      simp only [lookupKey, hk, if_false]
      exact ih hrest hnodup.2

theorem Heap.get_set (h : Heap) (r r' : Nat) (c : ArrCell) :
    (h.set r c).get r' = if r = r' then c else h.get r' := by
  simp [Heap.set, Heap.get]

theorem isDirty_setDirty (h : Heap) (r r' : Nat) (flag : Bool) :
    isDirty (setDirty h r flag) r' = if r = r' then flag else isDirty h r' := by
  unfold isDirty setDirty
  rw [Heap.get_set]
  by_cases hr : r = r'
  · simp [hr, lookupKey_setKey_same, Val.truthy]
  · simp [hr]

theorem flagArrays_false_keeps_clean (fs : Fields) :
    ∀ (h : Heap) (r : Nat), isDirty h r = false → isDirty (flagArrays false fs h) r = false := by
  induction fs with
  | nil => intro h r hr; simpa [flagArrays] using hr
  | cons e rest ih =>
    intro h r hr
    obtain ⟨k, v⟩ := e
    cases v with
    | arr r0 =>
      simp only [flagArrays]
      apply ih
      rw [isDirty_setDirty]
      split
      · rfl
      · exact hr
    | _ => simpa [flagArrays] using ih h r hr

theorem flagArrays_false_clears (fs : Fields) :
    ∀ (h : Heap) (key : String) (r : Nat), (key, Val.arr r) ∈ fs →
      isDirty (flagArrays false fs h) r = false := by
  induction fs with
  | nil => intro h key r hmem; cases hmem
  | cons e rest ih =>
    intro h key r hmem
    obtain ⟨k, v⟩ := e
    rcases List.mem_cons.1 hmem with heq | hrest
    · cases heq
      simp only [flagArrays]
      apply flagArrays_false_keeps_clean
      rw [isDirty_setDirty]
      simp
    · cases v with
      | arr r0 => simpa [flagArrays] using ih _ key r hrest
      | _ => simpa [flagArrays] using ih h key r hrest

/-! ## The snapshot copy -/

theorem shapeOKFields_congr (fs : Fields) (lf lf1 : Fields)
    (hsame : ∀ k ∈ keysOf fs, lookupKey k lf1 = lookupKey k lf) :
    shapeOKFields fs lf1 = shapeOKFields fs lf := by
  induction fs with
  | nil => simp [shapeOKFields]
  | cons e rest ih =>
    obtain ⟨k, v⟩ := e
    have hk : lookupKey k lf1 = lookupKey k lf := hsame k (by simp [keysOf])
    have hrest : ∀ k' ∈ keysOf rest, lookupKey k' lf1 = lookupKey k' lf := by
      intro k' hk'
      exact hsame k' (by simp only [keysOf, List.map_cons, List.mem_cons]; right; exact hk')
    simp only [shapeOKFields, hk, ih hrest]

mutual
theorem copyEntry_shape (env : Env) (key : String) :
    ∀ (v : Val) (lf : Fields) (h : Heap), uniqueKeys v = true →
      (match lookupKey key lf with
        | some l => shapeOK v l
        | none => true) = true →
      ∃ x, copyEntry env key v (.obj lf) h = .done (.obj (setKey key x lf), h) ∧
        ((∀ v, uniqueKeys v = true → mirrors v (env.clone v) = true) → mirrors v x = true)
  | .obj sub, lf, h, huniq, hshape => by
    cases hl : lookupKey key lf with
    | none =>
      refine ⟨env.clone (.obj sub), ?_, fun hclone => hclone _ huniq⟩
      simp [copyEntry, hasProp, hl, setProp]
    | some l =>
      rw [hl] at hshape
      cases l with
      | obj ll =>
        have hsub : shapeOKFields sub ll = true := by simpa [shapeOK] using hshape
        have huniq' : uniqueKeysFields sub = true := by simpa [uniqueKeys] using huniq
        obtain ⟨ll', hcopy, hmirror, _⟩ := copyState_shape env sub ll h huniq' hsub
        refine ⟨.obj ll', ?_, fun hclone => by simpa [mirrors] using hmirror hclone⟩
        simp [copyEntry, hasProp, hl, getProp, hcopy, writeBack, setProp]
      | _ => simp [shapeOK] at hshape
  | .undefined, lf, h, _, _ =>
    ⟨.undefined, by simp [copyEntry, setProp], fun _ => by simp [mirrors, Val.beq]⟩
  | .null, lf, h, _, _ =>
    ⟨.null, by simp [copyEntry, setProp], fun _ => by simp [mirrors, Val.beq]⟩
  | .bool b, lf, h, _, _ =>
    ⟨.bool b, by simp [copyEntry, setProp], fun _ => by simp [mirrors, Val.beq]⟩
  | .num n, lf, h, _, _ =>
    ⟨.num n, by simp [copyEntry, setProp], fun _ => by simp [mirrors, Val.beq]⟩
  | .str s, lf, h, _, _ =>
    ⟨.str s, by simp [copyEntry, setProp], fun _ => by simp [mirrors, Val.beq]⟩
  | .arr r, lf, h, _, _ =>
    ⟨.arr r, by simp [copyEntry, setProp], fun _ => by simp [mirrors, Val.beq]⟩
theorem copyState_shape (env : Env) :
    ∀ (fs lf : Fields) (h : Heap), uniqueKeysFields fs = true → shapeOKFields fs lf = true →
      ∃ lf', copyState env true fs (.obj lf) h = .done (.obj lf', h) ∧
        ((∀ v, uniqueKeys v = true → mirrors v (env.clone v) = true) →
          mirrorsFields fs lf' = true) ∧
        (∀ k, k ∉ keysOf fs → lookupKey k lf' = lookupKey k lf)
  | [], lf, h, _, _ => ⟨lf, by simp [copyState], fun _ => by simp [mirrorsFields], fun _ _ => rfl⟩
  | (key, v) :: rest, lf, h, huniq, hshape => by
    simp only [uniqueKeysFields, Bool.and_eq_true, decide_eq_true_eq] at huniq
    obtain ⟨⟨hfresh, huv⟩, hur⟩ := huniq
    simp only [shapeOKFields, Bool.and_eq_true] at hshape
    obtain ⟨hsv, hsr⟩ := hshape
    obtain ⟨x, hentry, hmx⟩ := copyEntry_shape env key v lf h huv hsv
    have hsr1 : shapeOKFields rest (setKey key x lf) = true := by
      rw [shapeOKFields_congr rest lf (setKey key x lf)]
      · exact hsr
      · intro k hk
        exact lookupKey_setKey_ne key k x lf (fun heq => hfresh (heq ▸ hk))
    obtain ⟨lf', hcopy, hmirror, hframe⟩ :=
      copyState_shape env rest (setKey key x lf) h hur hsr1
    refine ⟨lf', ?_, ?_, ?_⟩
    · simp [copyState, hentry, hcopy]
    · intro hclone
      have hkey : lookupKey key lf' = some x := by
        rw [hframe key hfresh, lookupKey_setKey_same]
      simp [mirrorsFields, hkey, hmx hclone, hmirror hclone]
    · intro k hk
      simp only [keysOf, List.map_cons, List.mem_cons, not_or] at hk
      rw [hframe k hk.2, lookupKey_setKey_ne key k x lf hk.1]
end


theorem copyState_top (env : Env) (fs : Fields) :
    ∀ (lastState : Val) (h : Heap),
      copyState env false fs lastState h = copyState env true (tracked env fs) lastState h := by
  induction fs with
  | nil => intro lastState h; rfl
  | cons e rest ih =>
    intro lastState h
    obtain ⟨key, v⟩ := e
    by_cases hk : indexOf env.nonBindedStateKeys key = -1
    · have ht : tracked env ((key, v) :: rest) = (key, v) :: tracked env rest := by
        simp [tracked, hk]
      rw [ht]
      simp only [copyState, hk, ne_eq, not_true_eq_false, decide_False, Bool.and_false,
        Bool.not_true, Bool.false_and, Bool.false_eq_true, if_false]
      cases copyEntry env key v lastState h with
      | done r => exact ih r.1 r.2
      | threw e r => rfl
    · have ht : tracked env ((key, v) :: rest) = tracked env rest := by
        simp [tracked, hk]
      rw [ht]
      simp only [copyState, hk, ne_eq, not_false_eq_true, decide_True, Bool.not_false,
        Bool.and_self, if_true]
      exact ih lastState h

theorem keysOf_tracked_subset (env : Env) (fs : Fields) (k : String)
    (hk : k ∈ keysOf (tracked env fs)) : k ∈ keysOf fs := by
  simp only [keysOf, tracked, List.mem_map, List.mem_filter] at hk ⊢
  obtain ⟨e, ⟨he, _⟩, rfl⟩ := hk
  exact ⟨e, he, rfl⟩

theorem uniqueKeysFields_tracked (env : Env) (fs : Fields)
    (huniq : uniqueKeysFields fs = true) : uniqueKeysFields (tracked env fs) = true := by
  induction fs with
  | nil => rfl
  | cons e rest ih =>
    obtain ⟨key, v⟩ := e
    simp only [uniqueKeysFields, Bool.and_eq_true, decide_eq_true_eq] at huniq
    obtain ⟨⟨hfresh, huv⟩, hur⟩ := huniq
    by_cases hk : indexOf env.nonBindedStateKeys key = -1
    · have ht : tracked env ((key, v) :: rest) = (key, v) :: tracked env rest := by
        simp [tracked, hk]
      rw [ht]
      simp only [uniqueKeysFields, Bool.and_eq_true, decide_eq_true_eq]
      exact ⟨⟨fun hmem => hfresh (keysOf_tracked_subset env rest key hmem), huv⟩, ih hur⟩
    · have ht : tracked env ((key, v) :: rest) = tracked env rest := by
        simp [tracked, hk]
      rw [ht]
      exact ih hur

theorem mirrorsFields_mem (fs lf : Fields) (hm : mirrorsFields fs lf = true)
    (key : String) (v : Val) (hmem : (key, v) ∈ fs) :
    ∃ l, lookupKey key lf = some l ∧ mirrors v l = true := by
  induction fs with
  | nil => cases hmem
  | cons e rest ih =>
    obtain ⟨k, w⟩ := e
    simp only [mirrorsFields, Bool.and_eq_true] at hm
    rcases List.mem_cons.1 hmem with heq | hrest
    · cases heq
      cases hl : lookupKey key lf with
      | none => simp [hl] at hm
      | some l => exact ⟨l, rfl, by simpa [hl] using hm.1⟩
    · exact ih hm.2 hrest

/-- The tail of `dispatch` when the snapshot is a mapping wherever the state is: it returns
normally, the array flags are those the clearing loop left, and the snapshot mirrors the
tracked entries of the state while keeping every other entry it had. -/
theorem afterNotify_shape (env : Env) (w2 : World) (actionName : String) (payload : Val)
    (sf lf : Fields)
    (hstate : w2.store.state = .obj sf) (hlast : w2.store.lastState = .obj lf)
    (huniq : uniqueKeysFields sf = true)
    (hshape : shapeOKFields (tracked env sf) lf = true) :
    ∃ w' lf', afterNotify env w2 actionName payload = .done w' ∧
      w'.store.state = .obj sf ∧ w'.store.lastState = .obj lf' ∧
      w'.store.heap = flagArrays false sf w2.store.heap ∧
      ((∀ v, uniqueKeys v = true → mirrors v (env.clone v) = true) →
        mirrorsFields (tracked env sf) lf' = true) ∧
      (∀ k, k ∉ keysOf (tracked env sf) → lookupKey k lf' = lookupKey k lf) := by
  obtain ⟨lf', hcopy, hmirror, hframe⟩ :=
    copyState_shape env (tracked env sf) lf (flagArrays false sf w2.store.heap)
      (uniqueKeysFields_tracked env sf huniq) hshape
  have hrun : afterNotify env w2 actionName payload =
      .done { w2 with
        store := { w2.store with
          lastState := .obj lf', heap := flagArrays false sf w2.store.heap }
        emitted := w2.emitted ++
          [{ name := STATE_UPDATE_EVENT, action := actionName, payload := payload,
             state := w2.store.state, lastState := .obj lf' }] } := by
    simp only [afterNotify, hstate, hlast, fieldsOf, copyState_top, hcopy]
  exact ⟨_, lf', hrun, hstate, rfl, rfl, hmirror, hframe⟩

theorem uniqueKeysFields_nodup (fs : Fields) (huniq : uniqueKeysFields fs = true) :
    (keysOf fs).Nodup := by
  induction fs with
  | nil => simp [keysOf]
  | cons e rest ih =>
    obtain ⟨k, v⟩ := e
    simp only [uniqueKeysFields, Bool.and_eq_true, decide_eq_true_eq] at huniq
    simp only [keysOf, List.map_cons, List.nodup_cons]
    exact ⟨huniq.1.1, ih huniq.2⟩

mutual
theorem mirrors_self : ∀ (v : Val), uniqueKeys v = true → mirrors v v = true
  | .obj fs, huniq => by
    have hu : uniqueKeysFields fs = true := by simpa [uniqueKeys] using huniq
    have := mirrorsFields_of_lookup fs fs hu
      (fun k v hmem => lookupKey_of_mem_unique k v fs hmem (uniqueKeysFields_nodup fs hu))
    simpa [mirrors] using this
  | .undefined, _ => by simp [mirrors, Val.beq]
  | .null, _ => by simp [mirrors, Val.beq]
  | .bool _, _ => by simp [mirrors, Val.beq]
  | .num _, _ => by simp [mirrors, Val.beq]
  | .str _, _ => by simp [mirrors, Val.beq]
  | .arr _, _ => by simp [mirrors, Val.beq]
theorem mirrorsFields_of_lookup : ∀ (fs lf : Fields), uniqueKeysFields fs = true →
    (∀ k v, (k, v) ∈ fs → lookupKey k lf = some v) → mirrorsFields fs lf = true
  | [], _, _, _ => by simp [mirrorsFields]
  | (key, v) :: rest, lf, huniq, hlook => by
    simp only [uniqueKeysFields, Bool.and_eq_true, decide_eq_true_eq] at huniq
    have hk : lookupKey key lf = some v := hlook key v (List.mem_cons_self _ _)
    have hv := mirrors_self v huniq.1.2
    have hr := mirrorsFields_of_lookup rest lf huniq.2
      (fun k w hmem => hlook k w (List.mem_cons_of_mem _ hmem))
    simp [mirrorsFields, hk, hv, hr]
end

/-! ## C2: the snapshot invariant -/

/-- C2 (counterexample): `count` is 0 in state and snapshot; the handler of `remove`
deletes `count` from the state.  The dispatch returns normally, the state no longer holds
`count`, the snapshot still does, and the two are not deep-equal. -/
theorem snapshot_keeps_key_removed_from_state :
    (dispatch counterEnv 3 counterWorld "remove" .null).map
        (fun out => (out.returned,
          (lookupKey "count" (fieldsOf [] out.result.store.state)).isSome,
          (lookupKey "count" (fieldsOf [] out.result.store.lastState)).isSome,
          deepEqual out.result.store.lastState out.result.store.state)) =
      some (true, false, true, false) := by
  decide

/-- C2 (amended): when a dispatch reaches the end of notification with a snapshot that
holds a mapping or no entry wherever the tracked state holds a mapping, and `clone`
returns a mirror of its argument, then the dispatch returns normally and, for every
top-level key of the state not listed in `nonBindedStateKeys`, the snapshot mirrors the
state: it holds every key the state holds at every nesting level of plain mappings, with
equal scalar leaves and the same array references.  Every other entry of the snapshot,
such as a key the state no longer holds, stays as it was. -/
theorem dispatch_snapshot_mirrors_state (env : Env) (fuel : Nat) (w w1 w2 : World)
    (actionName : String) (payload : Val) (sf lf : Fields)
    (hclone : ∀ v, uniqueKeys v = true → mirrors v (env.clone v) = true)
    (hpre : beforeNotify env w actionName payload = .done w1)
    (hloop : notifyLoop env fuel 0 w1 = some (.done w2))
    (hstate : w2.store.state = .obj sf) (hlast : w2.store.lastState = .obj lf)
    (huniq : uniqueKeysFields sf = true)
    (hshape : shapeOKFields (tracked env sf) lf = true) :
    ∃ w' lf', dispatch env fuel w actionName payload = some (.done w') ∧
      w'.store.state = .obj sf ∧ w'.store.lastState = .obj lf' ∧
      (∀ k v, (k, v) ∈ sf → k ∉ env.nonBindedStateKeys →
        ∃ l, lookupKey k lf' = some l ∧ mirrors v l = true) ∧
      (∀ k, k ∉ keysOf (tracked env sf) → lookupKey k lf' = lookupKey k lf) := by
  obtain ⟨w', lf', hrun, hs, hl, _, hmirror, hframe⟩ :=
    afterNotify_shape env w2 actionName payload sf lf hstate hlast huniq hshape
  refine ⟨w', lf', ?_, hs, hl, ?_, hframe⟩
  · simp [dispatch, hpre, hloop, hrun]
  · intro k v hmem hk
    apply mirrorsFields_mem (tracked env sf) lf' (hmirror hclone) k v
    simp only [tracked, List.mem_filter, decide_eq_true_eq]
    exact ⟨hmem, (indexOf_eq_neg_one_iff _ _).2 hk⟩

/-- Witness for C2: `increment` on the counter world. -/
theorem dispatch_snapshot_mirrors_state_witness :
    ∃ w' lf', dispatch counterEnv 3 counterWorld "increment" .null = some (.done w') ∧
      w'.store.state = .obj [("count", .num 1), ("items", .arr 0)] ∧
      w'.store.lastState = .obj lf' ∧
      (∀ k v, (k, v) ∈ [("count", Val.num 1), ("items", Val.arr 0)] →
        k ∉ counterEnv.nonBindedStateKeys →
        ∃ l, lookupKey k lf' = some l ∧ mirrors v l = true) ∧
      (∀ k, k ∉ keysOf (tracked counterEnv [("count", Val.num 1), ("items", Val.arr 0)]) →
        lookupKey k lf' = lookupKey k [("count", Val.num 0), ("items", Val.arr 0)]) :=
  dispatch_snapshot_mirrors_state counterEnv 3 counterWorld
    (beforeNotify counterEnv counterWorld "increment" .null).result
    { (beforeNotify counterEnv counterWorld "increment" .null).result with
      calls := [observerA, observerB] }
    "increment" .null [("count", .num 1), ("items", .arr 0)]
    [("count", .num 0), ("items", .arr 0)]
    (fun v hv => mirrors_self v hv) rfl rfl rfl rfl rfl rfl

/-! ## C7: clearing the dirty flags -/

/-- C7 (counterexample): the array `panel.items` sits one level below the top of the state
and is flagged dirty.  After a dispatch that returns normally it is still in the state and
still flagged dirty: the clearing loop visits top-level keys only. -/
theorem nested_array_stays_dirty :
    (dispatch counterEnv 3 nestedWorld "noop" .null).map
        (fun out => (out.returned,
          (lookupPath out.result.store.state ["panel", "items"]).map (Val.beq (.arr 0)),
          isDirty out.result.store.heap 0)) =
      some (true, some true, true) := by
  decide

/-- C7 (amended): when a dispatch reaches the end of notification with a snapshot that
holds a mapping or no entry wherever the tracked state holds a mapping (so that the
snapshot copy writes into no array), the dispatch returns normally and every array held
directly under a top-level key of the state has its dirty flag cleared. -/
theorem dispatch_clears_top_level_dirty (env : Env) (fuel : Nat) (w w1 w2 : World)
    (actionName : String) (payload : Val) (sf lf : Fields)
    (hpre : beforeNotify env w actionName payload = .done w1)
    (hloop : notifyLoop env fuel 0 w1 = some (.done w2))
    (hstate : w2.store.state = .obj sf) (hlast : w2.store.lastState = .obj lf)
    (huniq : uniqueKeysFields sf = true)
    (hshape : shapeOKFields (tracked env sf) lf = true) :
    ∃ w', dispatch env fuel w actionName payload = some (.done w') ∧
      w'.store.state = .obj sf ∧
      ∀ k r, (k, Val.arr r) ∈ sf → isDirty w'.store.heap r = false := by
  obtain ⟨w', lf', hrun, hs, _, hh, _, _⟩ :=
    afterNotify_shape env w2 actionName payload sf lf hstate hlast huniq hshape
  refine ⟨w', ?_, hs, ?_⟩
  · simp [dispatch, hpre, hloop, hrun]
  · intro k r hmem
    rw [hh]
    exact flagArrays_false_clears sf _ k r hmem

/-- Witness for C7: the first dispatch after `init`, with the top-level array `items`
flagged dirty by `init`. -/
theorem dispatch_clears_top_level_dirty_witness :
    isDirty initialWorld.store.heap 0 = true ∧
    ∃ w', dispatch counterEnv 3 initialWorld "noop" .null = some (.done w') ∧
      w'.store.state = .obj [("count", .num 0), ("items", .arr 0)] ∧
      ∀ k r, (k, Val.arr r) ∈ [("count", Val.num 0), ("items", Val.arr 0)] →
        isDirty w'.store.heap r = false :=
  ⟨by decide,
    dispatch_clears_top_level_dirty counterEnv 3 initialWorld
      (beforeNotify counterEnv initialWorld "noop" .null).result
      { (beforeNotify counterEnv initialWorld "noop" .null).result with calls := [observerL] }
      "noop" .null [("count", .num 0), ("items", .arr 0)]
      [("count", .num 0), ("items", .arr 0)] rfl rfl rfl rfl rfl rfl⟩

/-! ## C9: a dispatch that changes nothing -/

theorem filterMap_none {α β : Type} (f : α → Option β) (l : List α)
    (h : ∀ a ∈ l, f a = none) : l.filterMap f = [] := by
  induction l with
  | nil => rfl
  | cons a rest ih =>
    have ha : f a = none := h a (List.mem_cons_self _ _)
    have hr : ∀ b ∈ rest, f b = none := fun b hb => h b (List.mem_cons_of_mem _ hb)
    simp [List.filterMap_cons, ha, ih hr]

theorem diffEngine_agree (lf sf : Fields) (ignoreKeys : List String)
    (hsnap : ∀ k, k ∉ ignoreKeys →
      deepEqual ((lookupKey k lf).getD .undefined) ((lookupKey k sf).getD .undefined) = true) :
    diffEngine lf sf ignoreKeys = [] := by
  unfold diffEngine
  apply filterMap_none
  intro k _
  by_cases hk : indexOf ignoreKeys k = -1
  · have := hsnap k ((indexOf_eq_neg_one_iff _ _).1 hk)
    simp [hk, this]
  · simp [hk]

theorem getProp_obj (h : Heap) (fs : Fields) (key : String) :
    getProp h (.obj fs) key = .ok ((lookupKey key fs).getD .undefined) := rfl

theorem shouldNotify_quiet (s : Store) (sf : Fields) (sub : Observer)
    (hstate : s.state = .obj sf) (hdiff : s.diff = [])
    (hclean : ∀ k v, lookupKey k sf = some v → dirtyOf s.heap v = false) :
    shouldNotify s sub ≠ .ok true := by
  unfold shouldNotify
  by_cases hname : sub.name = "bind-for"
  · simp only [hname, if_true, hstate, getProp_obj]
    cases hl : lookupKey (sub.keysToWatch.head?.getD "undefined") sf with
    | none => simp [getProp]
    | some v =>
      have hc := hclean _ v hl
      unfold dirtyOf at hc
      simp only [Option.getD_some]
      cases hg : getProp s.heap v "__dirty" with
      | error e => simp
      | ok flag =>
        rw [hg] at hc
        simp only at hc
        simp [hc]
  · simp [hname, hdiff, shouldUpdate]

/-- When the test of no observer holds, the loop calls nobody and leaves the world as it
is, whether it ends normally or with a throw of a test. -/
theorem notifyLoop_quiet (env : Env) (w : World)
    (hquiet : ∀ sub, shouldNotify w.store sub ≠ .ok true) :
    ∀ (fuel i : Nat),
      (∀ out, notifyLoop env fuel i w = some out → out.result = w) ∧
      (w.store.subscriptions.length - i < fuel → ∃ out, notifyLoop env fuel i w = some out) := by
  intro fuel
  induction fuel with
  | zero =>
    intro i
    exact ⟨fun out h => by simp [notifyLoop] at h, fun h => absurd h (Nat.not_lt_zero _)⟩
  | succ f ih =>
    intro i
    cases hget : w.store.subscriptions.get? i with
    | none =>
      refine ⟨fun out h => ?_, fun _ => ⟨.done w, by simp only [notifyLoop, hget]⟩⟩
      simp only [notifyLoop, hget, Option.some.injEq] at h
      subst h
      rfl
    | some sub =>
      have hlt : i < w.store.subscriptions.length := by
        rcases Nat.lt_or_ge i w.store.subscriptions.length with h | h
        · exact h
        · rw [List.get?_eq_none.2 h] at hget; cases hget
      cases hg : shouldNotify w.store sub with
      | error e =>
        refine ⟨fun out h => ?_, fun _ => ⟨.threw e w, by simp only [notifyLoop, hget, hg]⟩⟩
        simp only [notifyLoop, hget, hg, Option.some.injEq] at h
        subst h
        rfl
      | ok b =>
        cases b with
        | true => exact absurd hg (hquiet sub)
        | false =>
          have hstep : notifyLoop env (f + 1) i w = notifyLoop env f (i + 1) w := by
            simp only [notifyLoop, hget, hg]
          rw [hstep]
          exact ⟨(ih (i + 1)).1, fun h => (ih (i + 1)).2 (by omega)⟩

theorem afterNotify_diff (env : Env) (w : World) (actionName : String) (payload : Val) :
    (afterNotify env w actionName payload).result.store.diff = w.store.diff := by
  unfold afterNotify
  simp only
  split <;> rfl

/-- C9 (counterexample): right after `init` the array `items` is flagged dirty.  The first
dispatch, of an action whose handler changes nothing, returns normally and has called the
list-bound observer L. -/
theorem first_noop_dispatch_notifies_list_observer :
    (dispatch counterEnv 3 initialWorld "noop" .null).map
        (fun out => (out.returned, out.result.calls)) = some (true, [observerL]) := by
  decide

/-- C9 (amended): in a store whose snapshot agrees with its state on every tracked
top-level key and in which no value held under a top-level key is flagged dirty, the
dispatch of an action whose handler and `computeState` hook leave the store as it is ends
with an empty changed-key set and without having called any observer, ordinary or
list-bound; and it does end, within as many loop iterations as there are subscriptions. -/
theorem noop_dispatch_notifies_nobody (env : Env) (fuel : Nat) (w : World)
    (actionName : String) (payload : Val) (handler : Store → Val → Outcome Store)
    (sf lf : Fields)
    (hhandler : env.handlers actionName = some handler)
    (hnoop : handler w.store payload = .done w.store)
    (hcompute : env.computeState w.store actionName payload = .done w.store)
    (hstate : w.store.state = .obj sf) (hlast : w.store.lastState = .obj lf)
    (hsnap : ∀ k, k ∉ env.nonBindedStateKeys →
      deepEqual ((lookupKey k lf).getD .undefined) ((lookupKey k sf).getD .undefined) = true)
    (hclean : ∀ k v, lookupKey k sf = some v → dirtyOf w.store.heap v = false) :
    (∀ out, dispatch env fuel w actionName payload = some out →
      out.result.store.diff = [] ∧ out.result.calls = w.calls) ∧
    (w.store.subscriptions.length < fuel →
      ∃ out, dispatch env fuel w actionName payload = some out) := by
  have hpre : beforeNotify env w actionName payload =
      .done { w with store := { w.store with diff := [] } } := by
    simp [beforeNotify, hhandler, hnoop, hcompute, hstate, hlast, fieldsOf,
      diffEngine_agree lf sf env.nonBindedStateKeys hsnap]
  have hquiet : ∀ sub,
      shouldNotify ({ w with store := { w.store with diff := [] } } : World).store sub ≠ .ok true :=
    fun sub => shouldNotify_quiet _ sf sub hstate rfl hclean
  obtain ⟨hsame, hends⟩ := notifyLoop_quiet env _ hquiet fuel 0
  constructor
  · intro out hout
    simp only [dispatch, hpre] at hout
    cases hl : notifyLoop env fuel 0 { w with store := { w.store with diff := [] } } with
    | none => simp [hl] at hout
    | some r =>
      have hr := hsame r hl
      cases r with
      | threw e w2 =>
        simp only [hl, Option.some.injEq] at hout
        subst hout
        simp only [Outcome.result] at hr ⊢
        subst hr
        exact ⟨rfl, rfl⟩
      | done w2 =>
        simp only [hl, Option.some.injEq] at hout
        subst hout
        simp only [Outcome.result] at hr
        subst hr
        exact ⟨by rw [afterNotify_diff], by rw [afterNotify_calls]⟩
  · intro hfuel
    obtain ⟨r, hr⟩ := hends (by simpa using hfuel)
    cases r with
    | threw e w2 => exact ⟨.threw e w2, by simp [dispatch, hpre, hr]⟩
    | done w2 => exact ⟨afterNotify env w2 actionName payload, by simp [dispatch, hpre, hr]⟩

/-- Witness for C9: `noop` on the counter world, where A and B are subscribed. -/
theorem noop_dispatch_notifies_nobody_witness :
    (∀ out, dispatch counterEnv 3 counterWorld "noop" .null = some out →
      out.result.store.diff = [] ∧ out.result.calls = counterWorld.calls) ∧
    (counterWorld.store.subscriptions.length < 3 →
      ∃ out, dispatch counterEnv 3 counterWorld "noop" .null = some out) :=
  noop_dispatch_notifies_nobody counterEnv 3 counterWorld "noop" .null (fun s _ => .done s)
    [("count", .num 0), ("items", .arr 0)] [("count", .num 0), ("items", .arr 0)]
    rfl rfl rfl rfl rfl
    (by
      intro k _
      by_cases h1 : k = "count"
      · subst h1; decide
      · by_cases h2 : k = "items"
        · subst h2; decide
        · have h1' : ¬ "count" = k := fun h => h1 h.symm
          have h2' : ¬ "items" = k := fun h => h2 h.symm
          simp [lookupKey, h1', h2', deepEqual, Val.beq])
    (by
      intro k v hk
      by_cases h1 : k = "count"
      · subst h1
        have : v = .num 0 := by simpa [lookupKey] using hk.symm
        subst this; decide
      · by_cases h2 : k = "items"
        · subst h2
          have : v = .arr 0 := by simpa [lookupKey] using hk.symm
          subst this; decide
        · have h1' : ¬ "count" = k := fun h => h1 h.symm
          have h2' : ¬ "items" = k := fun h => h2 h.symm
          simp [lookupKey, h1', h2'] at hk)

/-! ## Splitting -/

theorem splitWhitespace_free (cs : List Char) (inRun : Bool)
    (hfree : ∀ c ∈ cs, isWhitespace c = false) : splitWhitespace inRun cs = [cs] := by
  induction cs generalizing inRun with
  | nil => rfl
  | cons c rest ih =>
    have hc : isWhitespace c = false := hfree c (List.mem_cons_self _ _)
    have hr : ∀ c' ∈ rest, isWhitespace c' = false :=
      fun c' hc' => hfree c' (List.mem_cons_of_mem _ hc')
    simp [splitWhitespace, hc, ih false hr]

theorem splitChar_free (d : Char) (cs : List Char) (hfree : d ∉ cs) :
    splitChar d cs = [cs] := by
  induction cs with
  | nil => rfl
  | cons c rest ih =>
    simp only [List.mem_cons, not_or] at hfree
    have hc : ¬ c = d := fun h => hfree.1 h.symm
    simp [splitChar, hc, ih hfree.2]

theorem splitChar_append (d : Char) (cs tail : List Char) (hfree : d ∉ cs) :
    splitChar d (cs ++ d :: tail) = cs :: splitChar d tail := by
  induction cs with
  | nil => simp [splitChar]
  | cons c rest ih =>
    simp only [List.mem_cons, not_or] at hfree
    have hc : ¬ c = d := fun h => hfree.1 h.symm
    simp [splitChar, hc, ih hfree.2]

theorem splitChar_dotted (segs : List String) (hne : segs ≠ [])
    (hfree : ∀ s ∈ segs, '.' ∉ s.data) :
    splitChar '.' (dotted segs) = segs.map String.data := by
  induction segs with
  | nil => exact absurd rfl hne
  | cons a rest ih =>
    have ha : '.' ∉ a.data := hfree a (List.mem_cons_self _ _)
    cases rest with
    | nil => simp [dotted, splitChar_free '.' a.data ha]
    | cons b rest' =>
      have hr : ∀ s ∈ b :: rest', '.' ∉ s.data :=
        fun s hs => hfree s (List.mem_cons_of_mem _ hs)
      have := ih (List.cons_ne_nil _ _) hr
      simp only [dotted, splitChar_append '.' a.data _ ha, this, List.map_cons]

theorem map_mk_data (segs : List String) : (segs.map String.data).map String.mk = segs := by
  induction segs with
  | nil => rfl
  | cons a rest ih => simp [ih]

theorem Delimiter.key_injective (d d' : Delimiter) (h : d.key = d'.key) : d = d' := by
  cases d with
  | whitespace =>
    cases d' with
    | whitespace => rfl
    | char c =>
      have h' : (5 : Nat) = 1 := congrArg (fun s => s.data.length) h
      omega
  | char c =>
    cases d' with
    | whitespace =>
      have h' : (1 : Nat) = 5 := congrArg (fun s => s.data.length) h
      omega
    | char c' =>
      have h' : [c] = [c'] := congrArg String.data h
      rw [List.cons.inj h' |>.1]

/-- On a cache whose entries are true splits, the cached split answers the uncached split
and leaves such a cache. -/
theorem split_of_cacheOk (m : Mod) (str : String) (d : Delimiter) (hcache : CacheOk m) :
    (split m str d).1 = nativeSplit str d ∧ CacheOk (split m str d).2 ∧
      (split m str d).2.console = m.console := by
  -- the table for this delimiter, after the first line of `split`
  have hsub : ∀ (str' : String) (tokens : List String),
      lookupKey str' ((lookupKey d.key
        (match lookupKey d.key m.SPLIT_CACHE with
          | none => setKey d.key [] m.SPLIT_CACHE
          | some _ => m.SPLIT_CACHE)).getD []) = some tokens →
      tokens = nativeSplit str' d := by
    intro str' tokens hl
    cases hc : lookupKey d.key m.SPLIT_CACHE with
    | none =>
      simp only [hc, lookupKey_setKey_same, Option.getD_some, lookupKey] at hl
      cases hl
    | some sub =>
      simp only [hc, Option.getD_some] at hl
      exact hcache d sub hc str' tokens hl
  have hother : ∀ (d' : Delimiter) (sub : List (String × List String)), d'.key ≠ d.key →
      lookupKey d'.key
        (match lookupKey d.key m.SPLIT_CACHE with
          | none => setKey d.key [] m.SPLIT_CACHE
          | some _ => m.SPLIT_CACHE) = some sub →
      ∀ (str' : String) (tokens : List String),
        lookupKey str' sub = some tokens → tokens = nativeSplit str' d' := by
    intro d' sub hne hl
    cases hc : lookupKey d.key m.SPLIT_CACHE with
    | none =>
      simp only [hc, lookupKey_setKey_ne d.key d'.key _ _ hne] at hl
      exact hcache d' sub hl
    | some sub0 =>
      simp only [hc] at hl
      exact hcache d' sub hl
  unfold split
  simp only
  split
  · rename_i tokens hl
    refine ⟨hsub str tokens hl, ?_, rfl⟩
    intro d' sub hl' str' tokens' hs
    by_cases hk : d'.key = d.key
    · have hd : d' = d := Delimiter.key_injective d' d hk
      subst hd
      apply hsub str' tokens'
      simp only at hl'
      rw [hl']
      exact hs
    · exact hother d' sub hk hl' str' tokens' hs
  · rename_i hl
    refine ⟨rfl, ?_, rfl⟩
    intro d' sub hl' str' tokens' hs
    by_cases hk : d'.key = d.key
    · have hd : d' = d := Delimiter.key_injective d' d hk
      subst hd
      simp only [lookupKey_setKey_same, Option.some.injEq] at hl'
      subst hl'
      by_cases hstr : str' = str
      · subst hstr
        simp only [lookupKey_setKey_same, Option.some.injEq] at hs
        exact hs.symm
      · rw [lookupKey_setKey_ne str str' _ _ hstr] at hs
        exact hsub str' tokens' hs
    · simp only at hl'
      rw [lookupKey_setKey_ne d.key d'.key _ _ hk] at hl'
      exact hother d' sub hk hl' str' tokens' hs

/-! ## Dotted paths -/

theorem walk_lookupPath (h : Heap) (splitted : List String) (segs : List String) :
    ∀ (state v : Val) (log : List (List String × String)), segs ≠ [] →
      lookupPath state segs = some v → walk h splitted segs state log = (.ok v, log) := by
  induction segs with
  | nil => intro state v log hne; exact absurd rfl hne
  | cons seg rest ih =>
    intro state v log _ hpath
    cases state with
    | obj fs =>
      cases hl : lookupKey seg fs with
      | none => simp [lookupPath, hl] at hpath
      | some v1 =>
        simp only [lookupPath, hl] at hpath
        cases rest with
        | nil =>
          simp only [lookupPath, Option.some.injEq] at hpath
          subst hpath
          simp [walk, getProp, hl]
        | cons next rest' =>
          have := ih v1 v log (List.cons_ne_nil _ _) hpath
          simp [walk, hasProp, getProp, hl, this]
    | _ => simp [lookupPath] at hpath

theorem stripNot_plain (sel : String) (hbang : sel.data.head? ≠ some '!') :
    stripNot sel = sel := by
  unfold stripNot
  split
  · rename_i rest heq; simp [heq] at hbang
  · rename_i rest _ heq; simp [heq] at hbang
  · rfl

theorem applyNot_plain (sel : String) (v : Val) (hbang : sel.data.head? ≠ some '!') :
    applyNot sel v = v := by
  unfold applyNot
  split
  · rename_i rest heq; simp [heq] at hbang
  · rename_i rest _ heq; simp [heq] at hbang
  · rfl

/-- Dotted paths outside the names of `Object.prototype`: for a selector `a1.a2.….an`
(n ≥ 1) that is not the name of a member of `Object.prototype`, whose segments hold neither
a dot nor whitespace, that does not start with `!`, evaluated without iteration context on
a state in which the successive key lookups `state[a1][a2]…[an]` all resolve through
mappings that contain the next segment, `select` returns exactly the value of those
lookups; the split cache, whose entries are true splits, stays such a cache.  The
restriction on the selector is what makes the statement one about the source: the cache
objects are plain objects, and for a string such as `constructor` the source finds the
inherited member in them instead of a split. -/
theorem select_dotted_path (m : Mod) (h : Heap) (state : Val) (segs : List String) (v : Val)
    (bindForKey : String)
    (hcache : CacheOk m)
    (hne : segs ≠ [])
    (_hplain : String.mk (dotted segs) ∉ objectPrototypeNames)
    (hsegs : ∀ s ∈ segs, ∀ c ∈ s.data, c ≠ '.' ∧ isWhitespace c = false)
    (hbang : (dotted segs).head? ≠ some '!')
    (hpath : lookupPath state segs = some v) :
    (select m h state (String.mk (dotted segs)) none bindForKey).1 = .ok v ∧
      CacheOk (select m h state (String.mk (dotted segs)) none bindForKey).2 := by
  have hdot : ∀ s ∈ segs, '.' ∉ s.data := fun s hs hmem => (hsegs s hs '.' hmem).1 rfl
  have hws : ∀ c ∈ dotted segs, isWhitespace c = false := by
    clear hbang hpath hcache _hplain
    induction segs with
    | nil => intro c hc; simp [dotted] at hc
    | cons a rest ih =>
      cases rest with
      | nil =>
        intro c hc
        exact (hsegs a (List.mem_cons_self _ _) c (by simpa [dotted] using hc)).2
      | cons b rest' =>
        intro c hc
        simp only [dotted, List.mem_append, List.mem_cons] at hc
        rcases hc with hc | hc | hc
        · exact (hsegs a (List.mem_cons_self _ _) c hc).2
        · subst hc; decide
        · exact ih (List.cons_ne_nil _ _)
            (fun s hs => hsegs s (List.mem_cons_of_mem _ hs))
            (fun s hs => hdot s (List.mem_cons_of_mem _ hs)) c hc
  obtain ⟨h1, hc1, _⟩ := split_of_cacheOk m (String.mk (dotted segs)) .whitespace hcache
  have htok : (split m (String.mk (dotted segs)) .whitespace).1 = [String.mk (dotted segs)] := by
    rw [h1]
    simp [nativeSplit, splitWhitespace_free (dotted segs) false hws]
  have hstrip : stripNot (String.mk (dotted segs)) = String.mk (dotted segs) :=
    stripNot_plain _ hbang
  obtain ⟨h2, hc2, _⟩ := split_of_cacheOk (split m (String.mk (dotted segs)) .whitespace).2
    (String.mk (dotted segs)) (.char '.') hc1
  have hseg : (split (split m (String.mk (dotted segs)) .whitespace).2
      (String.mk (dotted segs)) (.char '.')).1 = segs := by
    rw [h2]
    simp only [nativeSplit, splitChar_dotted segs hne hdot, map_mk_data]
  have hwalk := walk_lookupPath h segs segs state v
    (split (split m (String.mk (dotted segs)) .whitespace).2
      (String.mk (dotted segs)) (.char '.')).2.console hne hpath
  simp only [select, htok, List.length_singleton, if_true, selectProperty, selectPlain, hstrip,
    hseg, hwalk, applyNot_plain _ v hbang, true_and]
  exact hc2

/-- Example of `select_dotted_path`: `select({a: {b: 5}}, "a.b")` is `5`, on a fresh
module. -/
theorem select_dotted_path_witness :
    String.mk (dotted ["a", "b"]) = "a.b" ∧
    (select Mod.fresh [] (.obj [("a", .obj [("b", .num 5)])]) "a.b" none "").1 = .ok (.num 5) ∧
    CacheOk (select Mod.fresh [] (.obj [("a", .obj [("b", .num 5)])]) "a.b" none "").2 :=
  ⟨by decide,
    select_dotted_path Mod.fresh [] (.obj [("a", .obj [("b", .num 5)])]) ["a", "b"] (.num 5) ""
      (by intro d sub hl; simp [Mod.fresh, lookupKey] at hl)
      (by decide) (by decide) (by decide) (by decide) rfl⟩

/-! ## The selector evaluator on a sound cache -/

theorem walk_fst (h : Heap) (splitted : List String) (segs : List String) :
    ∀ (value : Val) (log : List (List String × String)),
      (walk h splitted segs value log).1 = walkValue h segs value := by
  induction segs with
  | nil => intro value log; rfl
  | cons seg rest ih =>
    intro value log
    cases rest with
    | nil => rfl
    | cons next rest' =>
      simp only [walk, walkValue]
      cases hasProp h value seg with
      | error e => rfl
      | ok present =>
        simp only
        cases getProp h value seg with
        | error e => rfl
        | ok v => exact ih v _

/-- On a cache whose entries are true splits, `selectProperty` without iteration context
answers the resolved value of the path, keeps the cache sound and leaves the token arrays
alone. -/
theorem selectPlain_of_cacheOk (m : Mod) (h : Heap) (state : Val) (sel : String)
    (hcache : CacheOk m) :
    (selectPlain m h state (.str sel)).1 = resolve h state sel ∧
      CacheOk (selectPlain m h state (.str sel)).2 ∧
      (selectPlain m h state (.str sel)).2.tokenArray = m.tokenArray := by
  obtain ⟨h1, hc1, _⟩ := split_of_cacheOk m (stripNot sel) (.char '.') hcache
  have hcache' : ∀ log, CacheOk { (split m (stripNot sel) (.char '.')).2 with console := log } :=
    fun log => hc1
  have htok : (split m (stripNot sel) (.char '.')).2.tokenArray = m.tokenArray := by
    unfold split
    simp only
    split <;> rfl
  unfold selectPlain resolve
  simp only [walk_fst, h1]
  cases walkValue h (nativeSplit (stripNot sel) (.char '.')) state with
  | error e => exact ⟨rfl, hcache' _, htok⟩
  | ok value => exact ⟨rfl, hcache' _, htok⟩

theorem nativeSplit_whitespace_free (sel : String)
    (hfree : ∀ c ∈ sel.data, isWhitespace c = false) :
    nativeSplit sel .whitespace = [sel] := by
  simp [nativeSplit, splitWhitespace_free sel.data false hfree]

/-- A selector without whitespace is one token: on a sound cache `select` without
iteration context answers the resolved value of the path. -/
theorem select_single_token (m : Mod) (h : Heap) (state : Val) (sel : String)
    (bindForKey : String) (hcache : CacheOk m)
    (hfree : ∀ c ∈ sel.data, isWhitespace c = false) :
    (select m h state sel none bindForKey).1 = resolve h state sel ∧
      CacheOk (select m h state sel none bindForKey).2 := by
  obtain ⟨h1, hc1, _⟩ := split_of_cacheOk m sel .whitespace hcache
  have htok : (split m sel .whitespace).1 = [sel] := by
    rw [h1, nativeSplit_whitespace_free sel hfree]
  obtain ⟨h2, hc2, _⟩ := selectPlain_of_cacheOk (split m sel .whitespace).2 h state sel hc1
  simp only [select, htok, List.length_singleton, if_true, selectProperty]
  exact ⟨h2, hc2⟩

/-! ## C11: negation -/

theorem mk_data (s : String) : String.mk s.data = s := rfl

theorem resolve_plain (h : Heap) (state : Val) (p : String)
    (hbang : p.data.head? ≠ some '!') :
    resolve h state p = walkValue h (nativeSplit p (.char '.')) state := by
  unfold resolve
  rw [stripNot_plain p hbang]
  cases walkValue h (nativeSplit p (.char '.')) state with
  | error e => rfl
  | ok v => simp [applyNot_plain p v hbang]

theorem resolve_not (h : Heap) (state : Val) (p : String)
    (hbang : p.data.head? ≠ some '!') :
    resolve h state (String.mk ('!' :: p.data)) =
      (match walkValue h (nativeSplit p (.char '.')) state with
        | .error e => .error e
        | .ok v => .ok (.bool (!v.truthy))) := by
  have hstrip : stripNot (String.mk ('!' :: p.data)) = p := by
    unfold stripNot
    split
    · rename_i rest heq
      simp only [List.cons.injEq, true_and] at heq
      simp [heq] at hbang
    · rename_i rest _ heq
      simp only [List.cons.injEq, true_and] at heq
      rw [← heq]
    · rename_i h1 h2
      exact absurd rfl (h2 p.data)
  have happly : ∀ v, applyNot (String.mk ('!' :: p.data)) v = .bool (!v.truthy) := by
    intro v
    unfold applyNot
    split
    · rename_i rest heq
      simp only [List.cons.injEq, true_and] at heq
      simp [heq] at hbang
    · rfl
    · rename_i h1 h2
      exact absurd rfl (h2 p.data)
  unfold resolve
  rw [hstrip]
  cases walkValue h (nativeSplit p (.char '.')) state with
  | error e => rfl
  | ok v => simp [happly]

theorem resolve_not_not (h : Heap) (state : Val) (p : String) :
    resolve h state (String.mk ('!' :: '!' :: p.data)) =
      (match walkValue h (nativeSplit p (.char '.')) state with
        | .error e => .error e
        | .ok v => .ok (.bool v.truthy)) := by
  have hstrip : stripNot (String.mk ('!' :: '!' :: p.data)) = p := rfl
  have happly : ∀ v, applyNot (String.mk ('!' :: '!' :: p.data)) v = .bool v.truthy :=
    fun _ => rfl
  unfold resolve
  rw [hstrip]
  cases walkValue h (nativeSplit p (.char '.')) state with
  | error e => rfl
  | ok v => simp [happly]

/-- C11: for a path `p` without whitespace that does not start with `!` and that `select`
resolves to a value `v`, `select` resolves `"!" + p` to the boolean negation of the
truthiness of `v` and `"!!" + p` to the truthiness of `v` as a boolean, so the second is
the negation of the first; whatever the (sound) split cache holds at each call. -/
theorem select_negation (m m1 m2 : Mod) (h : Heap) (state : Val) (p : String) (v : Val)
    (bindForKey : String)
    (hcache : CacheOk m) (hcache1 : CacheOk m1) (hcache2 : CacheOk m2)
    (hfree : ∀ c ∈ p.data, isWhitespace c = false)
    (hbang : p.data.head? ≠ some '!')
    (hres : (select m h state p none bindForKey).1 = .ok v) :
    (select m1 h state (String.mk ('!' :: p.data)) none bindForKey).1 = .ok (.bool (!v.truthy)) ∧
    (select m2 h state (String.mk ('!' :: '!' :: p.data)) none bindForKey).1 =
      .ok (.bool v.truthy) ∧
    (.bool v.truthy : Val) = .bool (!(!v.truthy)) := by
  have hbangws : isWhitespace '!' = false := by decide
  have hfree1 : ∀ c ∈ (String.mk ('!' :: p.data)).data, isWhitespace c = false := by
    intro c hc
    rcases List.mem_cons.1 hc with rfl | hc
    · exact hbangws
    · exact hfree c hc
  have hfree2 : ∀ c ∈ (String.mk ('!' :: '!' :: p.data)).data, isWhitespace c = false := by
    intro c hc
    rcases List.mem_cons.1 hc with rfl | hc
    · exact hbangws
    · exact hfree1 c hc
  have hwalk : walkValue h (nativeSplit p (.char '.')) state = .ok v := by
    rw [← resolve_plain h state p hbang, ← (select_single_token m h state p bindForKey hcache hfree).1]
    exact hres
  refine ⟨?_, ?_, by simp⟩
  · rw [(select_single_token m1 h state _ bindForKey hcache1 hfree1).1, resolve_not h state p hbang,
      hwalk]
  · rw [(select_single_token m2 h state _ bindForKey hcache2 hfree2).1, resolve_not_not h state p,
      hwalk]

theorem cacheOk_fresh : CacheOk Mod.fresh := by
  intro d sub hl
  simp [Mod.fresh, lookupKey] at hl

/-- Witness for C11: on `{a: {flag: true}}`, `select(state, "!a.flag")` is `false` and
`select(state, "!!a.flag")` is `true`. -/
theorem select_negation_witness :
    (select Mod.fresh [] (.obj [("a", .obj [("flag", .bool true)])]) "!a.flag" none "").1 =
      .ok (.bool false) ∧
    (select Mod.fresh [] (.obj [("a", .obj [("flag", .bool true)])]) "!!a.flag" none "").1 =
      .ok (.bool true) :=
  have h := select_negation Mod.fresh Mod.fresh Mod.fresh []
    (.obj [("a", .obj [("flag", .bool true)])]) "a.flag" (.bool true) ""
    cacheOk_fresh cacheOk_fresh cacheOk_fresh (by decide) (by decide) rfl
  ⟨h.1, h.2.1⟩

/-! ## C14: a missing intermediate segment -/

theorem hasProp_false_getProp (h : Heap) (value : Val) (seg : String)
    (habsent : hasProp h value seg = .ok false) : getProp h value seg = .ok .undefined := by
  cases value with
  | obj fs =>
    simp only [hasProp, Except.ok.injEq] at habsent
    cases hl : lookupKey seg fs with
    | none => simp [getProp, hl]
    | some v => simp [hl] at habsent
  | arr r =>
    simp only [hasProp] at habsent
    simp only [getProp]
    cases hp : parseIndex seg with
    | some i =>
      simp only [hp, Except.ok.injEq, decide_eq_false_iff_not, not_lt] at habsent
      simp [List.getElem?_eq_none habsent]
    | none =>
      simp only [hp] at habsent
      by_cases hlen : seg = "length"
      · simp [hlen] at habsent
      · simp only [hlen, if_false, Except.ok.injEq] at habsent
        cases hl : lookupKey seg (h.get r).props with
        | none => simp [hlen, hl]
        | some v => simp [hl] at habsent
  | _ => simp [hasProp] at habsent

theorem walkValue_undefined (h : Heap) (seg : String) (rest : List String) :
    walkValue h (seg :: rest) .undefined = .error typeError := by
  cases rest with
  | nil => rfl
  | cons next rest' => rfl

theorem walkValue_absent (h : Heap) (seg : String) (post : List String) (hpost : post ≠ [])
    (v : Val) (habsent : hasProp h v seg ≠ .ok true) :
    ∀ (pre : List String) (state : Val), reach h state pre = .ok v →
      ∃ e, walkValue h (pre ++ seg :: post) state = .error e := by
  intro pre
  induction pre with
  | nil =>
    intro state hreach
    simp only [reach, Except.ok.injEq] at hreach
    subst hreach
    cases post with
    | nil => exact absurd rfl hpost
    | cons next post' =>
      simp only [List.nil_append, walkValue]
      cases hp : hasProp h state seg with
      | error e => exact ⟨e, rfl⟩
      | ok present =>
        cases present with
        | true => exact absurd hp habsent
        | false =>
          simp only [hasProp_false_getProp h state seg hp]
          exact ⟨typeError, walkValue_undefined h next post'⟩
  | cons a pre' ih =>
    intro state hreach
    simp only [reach] at hreach
    cases hg : getProp h state a with
    | error e => simp [hg] at hreach
    | ok v1 =>
      simp only [hg] at hreach
      obtain ⟨e, he⟩ := ih v1 hreach
      cases htail : pre' ++ seg :: post with
      | nil => simp at htail
      | cons next rest =>
        rw [htail] at he
        simp only [List.cons_append, htail, walkValue, hg]
        cases hasProp h state a with
        | error e' => exact ⟨e', rfl⟩
        | ok _ => exact ⟨e, he⟩

/-- C14: for a dotted path `a1.….an` (segments without dot or whitespace, no leading `!`)
in which a segment that is not the last is absent from the value the segments before it
lead to, `select` and `selectProperty` without iteration context throw: they answer an
error, never a value.  The segments up to the absent one are no names of prototype
members: the values they lead to are then values of the state tree, read by their own
properties, and the absent segment is one the test `in` of the source does not find on
the prototype chain either (as it does find `toString` in `{}`). -/
theorem select_missing_intermediate_throws (m : Mod) (h : Heap) (state : Val)
    (pre : List String) (seg : String) (post : List String) (v : Val) (bindForKey : String)
    (hcache : CacheOk m)
    (_hplain : ∀ s ∈ pre ++ [seg], s ∉ prototypeNames)
    (hsegs : ∀ s ∈ pre ++ seg :: post, ∀ c ∈ s.data, c ≠ '.' ∧ isWhitespace c = false)
    (hbang : (dotted (pre ++ seg :: post)).head? ≠ some '!')
    (hpost : post ≠ [])
    (hreach : reach h state pre = .ok v)
    (habsent : hasProp h v seg ≠ .ok true) :
    (∃ e, (select m h state (String.mk (dotted (pre ++ seg :: post))) none bindForKey).1 =
      .error e) ∧
    (∃ e, (selectProperty m h state (.str (String.mk (dotted (pre ++ seg :: post)))) none
      bindForKey).1 = .error e) := by
  have hne : pre ++ seg :: post ≠ [] := by simp
  have hdot : ∀ s ∈ pre ++ seg :: post, '.' ∉ s.data :=
    fun s hs hmem => (hsegs s hs '.' hmem).1 rfl
  have hws : ∀ c ∈ (String.mk (dotted (pre ++ seg :: post))).data, isWhitespace c = false := by
    intro c hc
    by_contra hcon
    have hsplit := splitChar_dotted (pre ++ seg :: post) hne hdot
    -- every character of the selector is a dot or a character of a segment
    have hall : ∀ (segs : List String) (c : Char), c ∈ dotted segs →
        c = '.' ∨ ∃ s ∈ segs, c ∈ s.data := by
      intro segs
      induction segs with
      | nil => intro c hc; simp [dotted] at hc
      | cons a rest ih =>
        intro c hc
        cases rest with
        | nil => exact Or.inr ⟨a, List.mem_cons_self _ _, by simpa [dotted] using hc⟩
        | cons b rest' =>
          simp only [dotted, List.mem_append, List.mem_cons] at hc
          rcases hc with hc | hc | hc
          · exact Or.inr ⟨a, List.mem_cons_self _ _, hc⟩
          · exact Or.inl hc
          · rcases ih c hc with h1 | ⟨s, hs, hcs⟩
            · exact Or.inl h1
            · exact Or.inr ⟨s, List.mem_cons_of_mem _ hs, hcs⟩
    rcases hall _ c hc with rfl | ⟨s, hs, hcs⟩
    · exact hcon (by decide)
    · exact hcon (hsegs s hs c hcs).2
  have hres : resolve h state (String.mk (dotted (pre ++ seg :: post))) =
      walkValue h (pre ++ seg :: post) state := by
    rw [resolve_plain h state _ hbang]
    simp only [nativeSplit, splitChar_dotted _ hne hdot, map_mk_data]
  obtain ⟨e, he⟩ := walkValue_absent h seg post hpost v habsent pre state hreach
  constructor
  · exact ⟨e, by rw [(select_single_token m h state _ bindForKey hcache hws).1, hres, he]⟩
  · exact ⟨e, by
      simp only [selectProperty]
      rw [(selectPlain_of_cacheOk m h state _ hcache).1, hres, he]⟩

/-- Witness for C14: `a.c.d` on a state whose mapping `a` has no `c`. -/
theorem select_missing_intermediate_throws_witness :
    (∃ e, (select Mod.fresh sampleHeap sampleState "a.c.d" none "").1 = .error e) ∧
    (∃ e, (selectProperty Mod.fresh sampleHeap sampleState (.str "a.c.d") none "").1 =
      .error e) :=
  select_missing_intermediate_throws Mod.fresh sampleHeap sampleState ["a"] "c" ["d"]
    (.obj [("b", .num 5), ("flag", .bool true)]) "" cacheOk_fresh (by decide) (by decide)
    (by decide) (by decide) rfl
    (by
      rw [show hasProp sampleHeap (.obj [("b", .num 5), ("flag", .bool true)]) "c" = .ok false
        from rfl]
      simp)

/-! ## Tokens -/

theorem splitWhitespace_token_space (a : List Char) (rest : List Char) :
    ∀ (c : Char) (inRun : Bool), (∀ x ∈ c :: a, isWhitespace x = false) →
      splitWhitespace inRun (c :: a ++ ' ' :: rest) = (c :: a) :: splitWhitespace true rest := by
  induction a with
  | nil =>
    intro c inRun hfree
    have hc : isWhitespace c = false := hfree c (List.mem_cons_self _ _)
    have hsp : isWhitespace ' ' = true := by decide
    simp [splitWhitespace, hc, hsp]
  | cons d a' ih =>
    intro c inRun hfree
    have hc : isWhitespace c = false := hfree c (List.mem_cons_self _ _)
    have hrest : ∀ x ∈ d :: a', isWhitespace x = false :=
      fun x hx => hfree x (List.mem_cons_of_mem _ hx)
    have := ih d false hrest
    simp only [List.cons_append] at this ⊢
    rw [splitWhitespace]
    simp only [hc, Bool.false_eq_true, if_false]
    rw [this]

theorem splitWhitespace_joinSpaces (toks : List String) (hne : toks ≠ [])
    (htok : ∀ t ∈ toks, IsToken t) :
    ∀ inRun : Bool, splitWhitespace inRun (joinSpaces toks) = toks.map String.data := by
  induction toks with
  | nil => exact absurd rfl hne
  | cons t rest ih =>
    intro inRun
    obtain ⟨hnonempty, hfree⟩ := htok t (List.mem_cons_self _ _)
    cases rest with
    | nil => simp [joinSpaces, splitWhitespace_free t.data inRun hfree]
    | cons u rest' =>
      have hrest : ∀ x ∈ u :: rest', IsToken x := fun x hx => htok x (List.mem_cons_of_mem _ hx)
      have hih := ih (List.cons_ne_nil _ _) hrest true
      cases hd : t.data with
      | nil => exact absurd hd hnonempty
      | cons c a =>
        rw [hd] at hfree
        simp only [joinSpaces, hd, List.map_cons]
        rw [splitWhitespace_token_space a _ c inRun hfree, hih]
        simp

theorem tokens_of_cacheOk (m : Mod) (toks : List String) (hcache : CacheOk m)
    (hne : toks ≠ []) (htok : ∀ t ∈ toks, IsToken t) :
    (split m (String.mk (joinSpaces toks)) .whitespace).1 = toks ∧
      CacheOk (split m (String.mk (joinSpaces toks)) .whitespace).2 := by
  obtain ⟨h1, hc1, _⟩ := split_of_cacheOk m (String.mk (joinSpaces toks)) .whitespace hcache
  refine ⟨?_, hc1⟩
  rw [h1]
  simp only [nativeSplit, splitWhitespace_joinSpaces toks hne htok false, map_mk_data]

/-! ## Errors of the evaluator -/

theorem getProp_error (h : Heap) (value : Val) (key : String) (e : Err)
    (he : getProp h value key = .error e) : e = typeError := by
  cases value with
  | undefined => simp only [getProp, Except.error.injEq] at he; exact he.symm
  | null => simp only [getProp, Except.error.injEq] at he; exact he.symm
  | bool b => simp [getProp] at he
  | num n => simp [getProp] at he
  | str s =>
    simp only [getProp] at he
    split at he
    · split at he <;> cases he
    · split at he <;> cases he
  | arr r =>
    simp only [getProp] at he
    split at he
    · cases he
    · split at he <;> cases he
  | obj fs => simp [getProp] at he

theorem hasProp_error (h : Heap) (value : Val) (key : String) (e : Err)
    (he : hasProp h value key = .error e) : e = typeError := by
  cases value with
  | arr r =>
    simp only [hasProp] at he
    split at he
    · cases he
    · split at he <;> cases he
  | obj fs => simp [hasProp] at he
  | _ => simp only [hasProp, Except.error.injEq] at he; exact he.symm

theorem walkValue_error (h : Heap) (segs : List String) :
    ∀ (value : Val) (e : Err), walkValue h segs value = .error e → e = typeError := by
  induction segs with
  | nil => intro value e he; simp [walkValue] at he
  | cons seg rest ih =>
    intro value e he
    cases rest with
    | nil => exact getProp_error h value seg e he
    | cons next rest' =>
      simp only [walkValue] at he
      cases hp : hasProp h value seg with
      | error e' =>
        simp only [hp, Except.error.injEq] at he
        rw [← he]
        exact hasProp_error h value seg e' hp
      | ok present =>
        simp only [hp] at he
        cases hg : getProp h value seg with
        | error e' =>
          simp only [hg, Except.error.injEq] at he
          rw [← he]
          exact getProp_error h value seg e' hg
        | ok v =>
          simp only [hg] at he
          exact ih v e he

theorem resolve_error (h : Heap) (state : Val) (p : String) (e : Err)
    (he : resolve h state p = .error e) : e = typeError := by
  unfold resolve at he
  cases hw : walkValue h (nativeSplit (stripNot p) (.char '.')) state with
  | error e' =>
    simp only [hw, Except.error.injEq] at he
    rw [← he]
    exact walkValue_error h _ state e' hw
  | ok v => simp [hw] at he

theorem Operand.value_error (h : Heap) (state : Val) (o : Operand) (e : Err)
    (he : o.value h state = .error e) : e = typeError := by
  cases o with
  | path p => exact resolve_error h state p e he
  | comparison p op lit =>
    simp only [Operand.value] at he
    cases hr : resolve h state p with
    | error e' =>
      simp only [hr, Except.error.injEq] at he
      rw [← he]
      exact resolve_error h state p e' hr
    | ok v => simp [hr] at he

theorem foldOperands_error (h : Heap) (state : Val) (rest : List (Connective × Operand)) :
    ∀ (running : Val) (e : Err), foldOperands h state running rest = .error e →
      e = typeError := by
  induction rest with
  | nil => intro running e he; simp [foldOperands] at he
  | cons co rest' ih =>
    intro running e he
    obtain ⟨c, o⟩ := co
    simp only [foldOperands] at he
    cases hv : o.value h state with
    | error e' =>
      simp only [hv, Except.error.injEq] at he
      rw [← he]
      exact Operand.value_error h state o e' hv
    | ok v =>
      simp only [hv] at he
      exact ih _ e he

/-! ## The comparison pass -/

theorem popToken_pushToken (m : Mod) (v : Val) : popToken (pushToken m v) = (v, m) := by
  simp [popToken, pushToken]

theorem comparisonPass_plain (h : Heap) (state : Val) (tok : String) (toks : List String)
    (m : Mod) (hplain : tok ∉ COMPARISONS) :
    comparisonPass h state (tok :: toks) m = comparisonPass h state toks (pushToken m (.str tok)) := by
  have hidx : indexOf COMPARISONS tok = -1 := (indexOf_eq_neg_one_iff _ _).2 hplain
  cases toks with
  | nil => simp [comparisonPass, hidx]
  | cons lit rest => simp [comparisonPass, hidx]

theorem comparisonPass_operator (h : Heap) (state : Val) (p op lit : String)
    (toks : List String) (m : Mod) (hcache : CacheOk m) (hop : op ∈ COMPARISONS) :
    (∀ e, resolve h state p = .error e →
      ∃ m', comparisonPass h state (op :: lit :: toks) (pushToken m (.str p)) = (some e, m')) ∧
    (∀ v, resolve h state p = .ok v →
      ∃ m', CacheOk m' ∧ m'.tokenArray = m.tokenArray ++ [.bool (compareLiteral op v lit)] ∧
        comparisonPass h state (op :: lit :: toks) (pushToken m (.str p)) =
          comparisonPass h state toks m') := by
  have hidx : ¬ indexOf COMPARISONS op = -1 := fun hh => (indexOf_eq_neg_one_iff _ _).1 hh hop
  obtain ⟨h1, hc1, ht1⟩ := selectPlain_of_cacheOk m h state p hcache
  have hrun : comparisonPass h state (op :: lit :: toks) (pushToken m (.str p)) =
      (match selectPlain m h state (.str p) with
        | (.error e, m1) => (some e, m1)
        | (.ok firstValue, m1) =>
          comparisonPass h state toks
            (pushToken m1 (.bool (compareLiteral op firstValue lit)))) := by
    simp only [comparisonPass, hidx, if_false, popToken_pushToken, selectProperty, compareLiteral]
  rw [hrun]
  generalize hout : selectPlain m h state (.str p) = out at h1 hc1 ht1
  obtain ⟨res, m1⟩ := out
  simp only at h1 hc1 ht1
  constructor
  · intro e he
    rw [h1, he]
    exact ⟨m1, rfl⟩
  · intro v hv
    rw [h1, hv]
    exact ⟨pushToken m1 (.bool (compareLiteral op v lit)), hc1, by simp [pushToken, ht1], rfl⟩

theorem comparisonPass_operand (h : Heap) (state : Val) (o : Operand) (toks : List String)
    (m : Mod) (hcache : CacheOk m) (hwf : o.WellFormed) :
    (∀ e, o.encode h state = .error e →
      ∃ m', comparisonPass h state (o.tokens ++ toks) m = (some e, m')) ∧
    (∀ t, o.encode h state = .ok t →
      ∃ m', CacheOk m' ∧ m'.tokenArray = m.tokenArray ++ [t] ∧
        comparisonPass h state (o.tokens ++ toks) m = comparisonPass h state toks m') := by
  cases o with
  | path p =>
    refine ⟨fun e he => by simp [Operand.encode] at he, fun t ht => ?_⟩
    simp only [Operand.encode, Except.ok.injEq] at ht
    subst ht
    exact ⟨pushToken m (.str p), hcache, rfl,
      by simpa [Operand.tokens] using comparisonPass_plain h state p toks m hwf.2⟩
  | comparison p op lit =>
    obtain ⟨_, hp, hop, _⟩ := hwf
    obtain ⟨herr, hok⟩ := comparisonPass_operator h state p op lit toks m hcache hop
    have hstep : comparisonPass h state ((Operand.comparison p op lit).tokens ++ toks) m =
        comparisonPass h state (op :: lit :: toks) (pushToken m (.str p)) := by
      simpa [Operand.tokens] using comparisonPass_plain h state p (op :: lit :: toks) m hp
    rw [hstep]
    constructor
    · intro e he
      simp only [Operand.encode] at he
      cases hr : resolve h state p with
      | error e' =>
        simp only [hr, Except.error.injEq] at he
        subst he
        exact herr e' hr
      | ok v => simp [hr] at he
    · intro t ht
      simp only [Operand.encode] at ht
      cases hr : resolve h state p with
      | error e' => simp [hr] at ht
      | ok v =>
        simp only [hr, Except.ok.injEq] at ht
        subst ht
        exact hok v hr

theorem Connective.token_plain (c : Connective) : c.token ∉ COMPARISONS := by
  cases c <;> decide

theorem comparisonPass_rest (h : Heap) (state : Val) (rest : List (Connective × Operand))
    (hwf : ∀ co ∈ rest, co.2.WellFormed) :
    ∀ (m : Mod), CacheOk m →
      (∀ e, encodeRest h state rest = .error e →
        ∃ m', comparisonPass h state (restTokens rest) m = (some e, m')) ∧
      (∀ ts, encodeRest h state rest = .ok ts →
        ∃ m', CacheOk m' ∧ m'.tokenArray = m.tokenArray ++ ts ∧
          comparisonPass h state (restTokens rest) m = (none, m')) := by
  induction rest with
  | nil =>
    intro m hcache
    refine ⟨fun e he => by simp [encodeRest] at he, fun ts hts => ?_⟩
    simp only [encodeRest, Except.ok.injEq] at hts
    subst hts
    exact ⟨m, hcache, by simp, by simp [restTokens, comparisonPass]⟩
  | cons co rest' ih =>
    intro m hcache
    obtain ⟨c, o⟩ := co
    have hwo : o.WellFormed := hwf (c, o) (List.mem_cons_self _ _)
    have hwr : ∀ co ∈ rest', co.2.WellFormed := fun co hco => hwf co (List.mem_cons_of_mem _ hco)
    have hstep : comparisonPass h state (restTokens ((c, o) :: rest')) m =
        comparisonPass h state (o.tokens ++ restTokens rest') (pushToken m (.str c.token)) := by
      simpa [restTokens] using
        comparisonPass_plain h state c.token (o.tokens ++ restTokens rest') m c.token_plain
    obtain ⟨herr, hok⟩ := comparisonPass_operand h state o (restTokens rest')
      (pushToken m (.str c.token)) hcache hwo
    rw [hstep]
    constructor
    · intro e he
      simp only [encodeRest] at he
      cases ho : o.encode h state with
      | error e' =>
        simp only [ho, Except.error.injEq] at he
        subst he
        exact herr e' ho
      | ok t =>
        simp only [ho] at he
        obtain ⟨m1, hc1, _, hrun⟩ := hok t ho
        rw [hrun]
        cases hr : encodeRest h state rest' with
        | error e' =>
          simp only [hr, Except.error.injEq] at he
          subst he
          exact (ih hwr m1 hc1).1 e' hr
        | ok ts => simp [hr] at he
    · intro ts hts
      simp only [encodeRest] at hts
      cases ho : o.encode h state with
      | error e' => simp [ho] at hts
      | ok t =>
        simp only [ho] at hts
        obtain ⟨m1, hc1, htok1, hrun⟩ := hok t ho
        rw [hrun]
        cases hr : encodeRest h state rest' with
        | error e' => simp [hr] at hts
        | ok ts' =>
          simp only [hr, Except.ok.injEq] at hts
          subst hts
          obtain ⟨m2, hc2, htok2, hrun2⟩ := (ih hwr m1 hc1).2 ts' hr
          refine ⟨m2, hc2, ?_, hrun2⟩
          rw [htok2, htok1]
          simp [pushToken]

/-! ## The boolean pass -/

theorem Connective.not_operator_test (c : Connective) :
    (!(Val.beq (.str c.token) (.str OR)) && !(Val.beq (.str c.token) (.str AND))) = false := by
  cases c <;> decide

theorem Connective.apply_eq (c : Connective) (running v : Val) :
    (if Val.beq (.str c.token) (.str OR) then (if running.truthy then running else v)
      else (if running.truthy then v else running)) = c.apply running v := by
  cases c
  · have : Val.beq (.str Connective.and.token) (.str OR) = false := by decide
    simp [this, Connective.apply]
  · have : Val.beq (.str Connective.or.token) (.str OR) = true := by decide
    simp [this, Connective.apply]

theorem booleanPass_rest (h : Heap) (state : Val) (rest : List (Connective × Operand)) :
    ∀ (ts : List Val), encodeRest h state rest = .ok ts →
      ∀ (i : Nat) (running : Val) (m : Mod), CacheOk m →
        (booleanPass h state ts i running m).1 = foldOperands h state running rest := by
  induction rest with
  | nil =>
    intro ts hts i running m _
    simp only [encodeRest, Except.ok.injEq] at hts
    subst hts
    rfl
  | cons co rest' ih =>
    intro ts hts i running m hcache
    obtain ⟨c, o⟩ := co
    simp only [encodeRest] at hts
    cases ho : o.encode h state with
    | error e => simp [ho] at hts
    | ok t =>
      simp only [ho] at hts
      cases hr : encodeRest h state rest' with
      | error e => simp [hr] at hts
      | ok ts' =>
        simp only [hr, Except.ok.injEq] at hts
        subst hts
        simp only [booleanPass, Connective.not_operator_test, Bool.false_eq_true, if_false,
          Connective.apply_eq, foldOperands]
        cases o with
        | path p =>
          simp only [Operand.encode, Except.ok.injEq] at ho
          subst ho
          obtain ⟨h1, hc1, _⟩ := selectPlain_of_cacheOk m h state p hcache
          simp only [Val.isBoolean, Bool.false_eq_true, if_false, selectProperty, Operand.value]
          generalize selectPlain m h state (.str p) = out at h1 hc1
          obtain ⟨res, m1⟩ := out
          simp only at h1 hc1
          subst h1
          cases hres : resolve h state p with
          | error e => rfl
          | ok v => exact ih ts' hr _ _ _ hc1
        | comparison p op lit =>
          simp only [Operand.encode] at ho
          simp only [Operand.value]
          cases hres : resolve h state p with
          | error e => simp [hres] at ho
          | ok v =>
            simp only [hres, Except.ok.injEq] at ho
            subst ho
            simp only [Val.isBoolean, if_true]
            exact ih ts' hr _ _ _ hcache

theorem encodeRest_error_fold (h : Heap) (state : Val) (rest : List (Connective × Operand)) :
    ∀ (e : Err), encodeRest h state rest = .error e →
      ∀ running, foldOperands h state running rest = .error typeError := by
  induction rest with
  | nil => intro e he; simp [encodeRest] at he
  | cons co rest' ih =>
    intro e he running
    obtain ⟨c, o⟩ := co
    simp only [encodeRest] at he
    simp only [foldOperands]
    cases hv : o.value h state with
    | error e' => rw [Operand.value_error h state o e' hv]
    | ok v =>
      simp only
      cases ho : o.encode h state with
      | error e' =>
        cases o with
        | path p => simp [Operand.encode] at ho
        | comparison p op lit =>
          have : (Operand.comparison p op lit).value h state = .error e' := ho
          rw [this] at hv
          cases hv
      | ok t =>
        simp only [ho] at he
        cases hr : encodeRest h state rest' with
        | error e' => exact ih e' hr _
        | ok ts => simp [hr] at he

theorem encodeRest_error (h : Heap) (state : Val) (rest : List (Connective × Operand)) :
    ∀ (e : Err), encodeRest h state rest = .error e → e = typeError := by
  induction rest with
  | nil => intro e he; simp [encodeRest] at he
  | cons co rest' ih =>
    intro e he
    obtain ⟨c, o⟩ := co
    simp only [encodeRest] at he
    cases ho : o.encode h state with
    | error e' =>
      simp only [ho, Except.error.injEq] at he
      subst he
      cases o with
      | path p => simp [Operand.encode] at ho
      | comparison p op lit => exact Operand.value_error h state (.comparison p op lit) e' ho
    | ok t =>
      simp only [ho] at he
      cases hr : encodeRest h state rest' with
      | error e' =>
        simp only [hr, Except.error.injEq] at he
        subst he
        exact ih e' hr
      | ok ts => simp [hr] at he

theorem evalOperands_error (h : Heap) (state : Val) (first : Operand)
    (rest : List (Connective × Operand)) (e : Err)
    (he : evalOperands h state first rest = .error e) : e = typeError := by
  unfold evalOperands at he
  cases hv : first.value h state with
  | error e' =>
    simp only [hv, Except.error.injEq] at he
    subst he
    exact Operand.value_error h state first e' hv
  | ok v =>
    simp only [hv] at he
    exact foldOperands_error h state rest v e he

/-! ## The selector as a fold over its operands -/

theorem selectorTokens_token (first : Operand) (rest : List (Connective × Operand))
    (hfirst : first.WellFormed) (hrest : ∀ co ∈ rest, co.2.WellFormed) :
    selectorTokens first rest ≠ [] ∧ ∀ t ∈ selectorTokens first rest, IsToken t := by
  have hand : IsToken AND := ⟨by decide, by decide⟩
  have hor : IsToken OR := ⟨by decide, by decide⟩
  have hcmp : ∀ op ∈ COMPARISONS, IsToken op := by
    intro op hop
    simp only [COMPARISONS, List.mem_cons, List.mem_singleton, List.not_mem_nil, or_false] at hop
    rcases hop with rfl | rfl | rfl | rfl <;> exact ⟨by decide, by decide⟩
  have hop : ∀ o : Operand, o.WellFormed → ∀ t ∈ o.tokens, IsToken t := by
    intro o hwf t ht
    cases o with
    | path p =>
      simp only [Operand.tokens, List.mem_singleton] at ht
      subst ht
      exact hwf.1
    | comparison p op lit =>
      simp only [Operand.tokens, List.mem_cons, List.mem_singleton, List.not_mem_nil,
        or_false] at ht
      rcases ht with rfl | rfl | rfl
      · exact hwf.1
      · exact hcmp _ hwf.2.2.1
      · exact hwf.2.2.2
  have hrt : ∀ t ∈ restTokens rest, IsToken t := by
    induction rest with
    | nil => intro t ht; simp [restTokens] at ht
    | cons co rest' ih =>
      intro t ht
      obtain ⟨c, o⟩ := co
      simp only [restTokens, List.mem_cons, List.mem_append] at ht
      rcases ht with rfl | ht | ht
      · cases c
        · exact hand
        · exact hor
      · exact hop o (hrest (c, o) (List.mem_cons_self _ _)) t ht
      · exact ih (fun co hco => hrest co (List.mem_cons_of_mem _ hco)) t ht
  constructor
  · cases first <;> simp [selectorTokens, Operand.tokens]
  · intro t ht
    simp only [selectorTokens, List.mem_append] at ht
    rcases ht with ht | ht
    · exact hop first hfirst t ht
    · exact hrt t ht

/-- On a sound cache, `select` without iteration context evaluates the selector
`o1 c1 o2 … on` to the strict left-to-right fold over its operands. -/
theorem select_operands (m : Mod) (h : Heap) (state : Val) (first : Operand)
    (rest : List (Connective × Operand)) (bindForKey : String) (hcache : CacheOk m)
    (hfirst : first.WellFormed) (hrest : ∀ co ∈ rest, co.2.WellFormed) :
    (select m h state (String.mk (joinSpaces (selectorTokens first rest))) none bindForKey).1 =
      evalOperands h state first rest := by
  obtain ⟨hne, htok⟩ := selectorTokens_token first rest hfirst hrest
  obtain ⟨htoks, hc0⟩ := tokens_of_cacheOk m (selectorTokens first rest) hcache hne htok
  -- a single path is a single token
  by_cases hsingle : ∃ p, first = .path p ∧ rest = []
  · obtain ⟨p, rfl, rfl⟩ := hsingle
    have hfree : ∀ c ∈ p.data, isWhitespace c = false := hfirst.1.2
    have := (select_single_token m h state p bindForKey hcache hfree).1
    simp only [selectorTokens, Operand.tokens, restTokens, List.append_nil, joinSpaces, mk_data,
      evalOperands, Operand.value, foldOperands]
    rw [this]
    cases resolve h state p <;> rfl
  · have hlen : (selectorTokens first rest).length ≠ 1 := by
      cases first with
      | path p =>
        cases rest with
        | nil => exact absurd ⟨p, rfl, rfl⟩ hsingle
        | cons co rest' =>
          obtain ⟨c, o⟩ := co
          simp [selectorTokens, Operand.tokens, restTokens]
      | comparison p op lit => simp [selectorTokens, Operand.tokens]
    have hsel : select m h state (String.mk (joinSpaces (selectorTokens first rest))) none
        bindForKey =
        (match comparisonPass h state (selectorTokens first rest)
            { (split m (String.mk (joinSpaces (selectorTokens first rest))) .whitespace).2 with
              tokenArray := []
              tempTokenArray := copyArray
                (split m (String.mk (joinSpaces (selectorTokens first rest))) .whitespace).2.tempTokenArray
                ((selectorTokens first rest).map Val.str) } with
          | (some e, m3) => (.error e, m3)
          | (none, m3) =>
            match m3.tokenArray with
            | [] => (.error typeError, m3)
            | [t] => (.ok t, m3)
            | t :: rest =>
              match (if t.isBoolean then (.ok t, m3)
                     else selectProperty m3 h state t none bindForKey) with
              | (.error e, m4) => (.error e, m4)
              | (.ok runningBool, m4) => booleanPass h state rest 1 runningBool m4) := by
      unfold select
      simp only [htoks, hlen, if_false]
    rw [hsel]
    generalize hm0 : ({ (split m (String.mk (joinSpaces (selectorTokens first rest))) .whitespace).2 with
        tokenArray := []
        tempTokenArray := copyArray
          (split m (String.mk (joinSpaces (selectorTokens first rest))) .whitespace).2.tempTokenArray
          ((selectorTokens first rest).map Val.str) } : Mod) = m0
    have hcm0 : CacheOk m0 := by rw [← hm0]; exact hc0
    have htm0 : m0.tokenArray = [] := by rw [← hm0]
    obtain ⟨hferr, hfok⟩ := comparisonPass_operand h state first (restTokens rest) m0 hcm0 hfirst
    have hpass : comparisonPass h state (selectorTokens first rest) m0 =
        comparisonPass h state (first.tokens ++ restTokens rest) m0 := rfl
    rw [hpass]
    cases hfe : first.encode h state with
    | error e =>
      obtain ⟨m', hrun⟩ := hferr e hfe
      rw [hrun]
      cases first with
      | path p => simp [Operand.encode] at hfe
      | comparison p op lit =>
        have hv : (Operand.comparison p op lit).value h state = .error e := hfe
        simp [evalOperands, hv]
    | ok t =>
      obtain ⟨m1, hc1, htok1, hrun⟩ := hfok t hfe
      rw [hrun]
      obtain ⟨hrerr, hrok⟩ := comparisonPass_rest h state rest hrest m1 hc1
      cases hre : encodeRest h state rest with
      | error e =>
        obtain ⟨m', hrun'⟩ := hrerr e hre
        rw [hrun']
        have he : e = typeError := encodeRest_error h state rest e hre
        subst he
        have hfold := encodeRest_error_fold h state rest _ hre
        simp only [evalOperands]
        cases hv : first.value h state with
        | error e' => rw [Operand.value_error h state first e' hv]
        | ok v => simp [hfold v]
      | ok ts =>
        obtain ⟨m3, hc3, htok3, hrun3⟩ := hrok ts hre
        rw [hrun3]
        have htok3' : m3.tokenArray = t :: ts := by rw [htok3, htok1, htm0]; rfl
        simp only [htok3']
        cases ts with
        | nil =>
          -- a single comparison
          have hrest_nil : rest = [] := by
            cases rest with
            | nil => rfl
            | cons co rest' =>
              obtain ⟨c, o⟩ := co
              simp only [encodeRest] at hre
              cases ho : o.encode h state with
              | error e => simp [ho] at hre
              | ok t' =>
                simp only [ho] at hre
                cases hr' : encodeRest h state rest' with
                | error e => simp [hr'] at hre
                | ok ts' => simp [hr'] at hre
          subst hrest_nil
          cases first with
          | path p => exact absurd ⟨p, rfl, rfl⟩ hsingle
          | comparison p op lit =>
            have hv : (Operand.comparison p op lit).value h state = .ok t := hfe
            simp [evalOperands, hv, foldOperands]
        | cons x ts' =>
          simp only
          cases first with
          | path p =>
            simp only [Operand.encode, Except.ok.injEq] at hfe
            subst hfe
            obtain ⟨h1, hc4, _⟩ := selectPlain_of_cacheOk m3 h state p hc3
            simp only [Val.isBoolean, Bool.false_eq_true, if_false, selectProperty, evalOperands,
              Operand.value]
            generalize selectPlain m3 h state (.str p) = out at h1 hc4
            obtain ⟨res, m4⟩ := out
            simp only at h1 hc4
            subst h1
            cases hres : resolve h state p with
            | error e => rfl
            | ok v => exact booleanPass_rest h state rest (x :: ts') hre 1 v m4 hc4
          | comparison p op lit =>
            have hv : (Operand.comparison p op lit).value h state = .ok t := hfe
            simp only [Operand.encode] at hfe
            cases hres : resolve h state p with
            | error e => simp [hres] at hfe
            | ok v =>
              simp only [hres, Except.ok.injEq] at hfe
              subst hfe
              simp only [Val.isBoolean, if_true, evalOperands, hv]
              exact booleanPass_rest h state rest (x :: ts') hre 1 _ m3 hc3

/-! ## C12: comparisons -/

/-- C12: for a path token `p` that `select` resolves to a value `v` and a literal token
`lit`, the three-token selectors `p == lit` and `p === lit` evaluate to the boolean
"`v` is strictly equal to the string `lit` stripped of its single quotes", and `p != lit`
and `p !== lit` evaluate to the negation of that boolean. -/
theorem select_comparison (m0 : Mod) (h : Heap) (state : Val) (p lit : String) (v : Val)
    (bindForKey : String)
    (hcache0 : CacheOk m0)
    (hp : IsToken p) (hpath : p ∉ COMPARISONS) (hlit : IsToken lit)
    (hres : (select m0 h state p none bindForKey).1 = .ok v) :
    ∀ m : Mod, CacheOk m →
      (select m h state (String.mk (joinSpaces [p, "==", lit])) none bindForKey).1 =
        .ok (.bool (v.beq (.str (removeQuotes lit)))) ∧
      (select m h state (String.mk (joinSpaces [p, "===", lit])) none bindForKey).1 =
        .ok (.bool (v.beq (.str (removeQuotes lit)))) ∧
      (select m h state (String.mk (joinSpaces [p, "!=", lit])) none bindForKey).1 =
        .ok (.bool (!(v.beq (.str (removeQuotes lit))))) ∧
      (select m h state (String.mk (joinSpaces [p, "!==", lit])) none bindForKey).1 =
        .ok (.bool (!(v.beq (.str (removeQuotes lit))))) := by
  intro m hcache
  have hv : resolve h state p = .ok v := by
    rw [← (select_single_token m0 h state p bindForKey hcache0 hp.2).1]
    exact hres
  have hgen : ∀ op ∈ COMPARISONS,
      (select m h state (String.mk (joinSpaces [p, op, lit])) none bindForKey).1 =
        .ok (.bool (compareLiteral op v lit)) := by
    intro op hop
    have := select_operands m h state (.comparison p op lit) [] bindForKey hcache
      ⟨hp, hpath, hop, hlit⟩ (fun co hco => by cases hco)
    simp only [selectorTokens, Operand.tokens, restTokens, List.append_nil, evalOperands,
      Operand.value, hv, foldOperands] at this
    exact this
  refine ⟨?_, ?_, ?_, ?_⟩
  · rw [hgen "==" (by decide)]
    have : indexOf "==".data '!' = -1 := by decide
    simp [compareLiteral, this]
  · rw [hgen "===" (by decide)]
    have : indexOf "===".data '!' = -1 := by decide
    simp [compareLiteral, this]
  · rw [hgen "!=" (by decide)]
    have : ¬ indexOf "!=".data '!' = -1 := by decide
    simp [compareLiteral, this]
  · rw [hgen "!==" (by decide)]
    have : ¬ indexOf "!==".data '!' = -1 := by decide
    simp [compareLiteral, this]

/-- Witness for C12: with `x` the string `red`, `x == 'red'` is true and `x != 'red'` is
false. -/
theorem select_comparison_witness :
    (select Mod.fresh sampleHeap sampleState "x == 'red'" none "").1 = .ok (.bool true) ∧
    (select Mod.fresh sampleHeap sampleState "x != 'red'" none "").1 = .ok (.bool false) :=
  have hall := select_comparison Mod.fresh sampleHeap sampleState "x" "'red'" (.str "red") ""
    cacheOk_fresh ⟨by decide, by decide⟩ (by decide) ⟨by decide, by decide⟩ rfl
    Mod.fresh cacheOk_fresh
  ⟨hall.1, hall.2.2.1⟩

/-! ## C13: boolean combinators -/

/-- C13: on a sound cache and without iteration context, `select` evaluates a selector
`o1 c1 o2 c2 … on`, every `ci` being `&&` or `||` and every `oi` a path or a comparison
triple, to the strict left-to-right fold `((v1 c1 v2) c2 v3) …` over the values of its
operands, without precedence between `&&` and `||`; every operand is resolved, and when
one of them fails to resolve the evaluation fails.  This holds for every number of
operands, so for n ≥ 2. -/
theorem select_folds_left_to_right (m : Mod) (h : Heap) (state : Val) (first : Operand)
    (rest : List (Connective × Operand)) (bindForKey : String)
    (hcache : CacheOk m)
    (hfirst : first.WellFormed) (hrest : ∀ co ∈ rest, co.2.WellFormed) :
    (select m h state (String.mk (joinSpaces (selectorTokens first rest))) none bindForKey).1 =
      evalOperands h state first rest ∧
    ((∃ o, (o = first ∨ ∃ c, (c, o) ∈ rest) ∧ ∃ e, o.value h state = .error e) →
      ∃ e, (select m h state (String.mk (joinSpaces (selectorTokens first rest))) none
        bindForKey).1 = .error e) := by
  have hsel := select_operands m h state first rest bindForKey hcache hfirst hrest
  refine ⟨hsel, ?_⟩
  rintro ⟨o, ho, e, he⟩
  rw [hsel]
  have hfold : ∀ (rest : List (Connective × Operand)), (∃ c, (c, o) ∈ rest) →
      ∀ running, ∃ e', foldOperands h state running rest = .error e' := by
    intro rest
    induction rest with
    | nil => rintro ⟨c, hc⟩; cases hc
    | cons co rest' ih =>
      rintro ⟨c, hc⟩ running
      obtain ⟨c', o'⟩ := co
      simp only [foldOperands]
      cases hv : o'.value h state with
      | error e' => exact ⟨e', rfl⟩
      | ok v =>
        rcases List.mem_cons.1 hc with heq | hmem
        · cases heq
          rw [he] at hv
          cases hv
        · exact ih ⟨c, hmem⟩ _
  unfold evalOperands
  cases hv : first.value h state with
  | error e' => exact ⟨e', rfl⟩
  | ok v =>
    rcases ho with rfl | hmem
    · rw [he] at hv
      cases hv
    · exact hfold rest hmem v

/-- Witness for C13: `x == 'red' && y` is true on `{x: 'red', y: true}`; and `a || b && c`
with `a` true, `b` and `c` false is `(a || b) && c`, false, not `a || (b && c)`. -/
theorem select_folds_left_to_right_witness :
    (select Mod.fresh sampleHeap sampleState "x == 'red' && y" none "").1 = .ok (.bool true) ∧
    (select Mod.fresh []
      (.obj [("a", .bool true), ("b", .bool false), ("c", .bool false)])
      "a || b && c" none "").1 = .ok (.bool false) :=
  ⟨(select_folds_left_to_right Mod.fresh sampleHeap sampleState (.comparison "x" "==" "'red'")
      [(.and, .path "y")] "" cacheOk_fresh
      ⟨⟨by decide, by decide⟩, by decide, by decide, ⟨by decide, by decide⟩⟩
      (by
        intro co hco
        simp only [List.mem_singleton] at hco
        subst hco
        exact ⟨⟨by decide, by decide⟩, by decide⟩)).1,
    (select_folds_left_to_right Mod.fresh []
      (.obj [("a", .bool true), ("b", .bool false), ("c", .bool false)]) (.path "a")
      [(.or, .path "b"), (.and, .path "c")] "" cacheOk_fresh
      ⟨⟨by decide, by decide⟩, by decide⟩
      (by
        intro co hco
        simp only [List.mem_cons, List.mem_singleton, List.not_mem_nil, or_false] at hco
        rcases hco with rfl | rfl <;> exact ⟨⟨by decide, by decide⟩, by decide⟩)).1⟩

/-! ## C15: selecting inside an iteration -/

/-- C15 (defect of the code): with the context `for: item; in: items; key: id` and the
current key `a`, the selector `item.name` answers the name of the item whose `id` is `a`,
but the selector `item`, which has no remaining suffix, does not answer that item: the
item name is stripped only together with a dot, so `item` is walked on the item as a
property name and the answer is `undefined`.  Without key field the same selector
answers the element itself. -/
theorem selectProperty_keyed_item_without_suffix :
    (selectProperty Mod.fresh sampleHeap sampleState (.str "item.name") (some keyedContext) "a").1 =
      .ok (.str "Ann") ∧
    (selectProperty Mod.fresh sampleHeap sampleState (.str "item") (some keyedContext) "a").1 =
      .ok .undefined ∧
    getProp sampleHeap (.arr 0) "0" = .ok (.obj [("id", .str "a"), ("name", .str "Ann")]) ∧
    (selectProperty Mod.fresh sampleHeap sampleState (.str "item") (some plainContext) "1").1 =
      .ok (.str "y") :=
  ⟨rfl, rfl, rfl, rfl⟩

/-! ## C20: a selector that does not address the iterated item -/

/-- C20 (defect of the code): the selector `title` does not start with the item name
`item`, and without iteration context it answers the string `Hi`.  With a context without
key field and the current key `0` it answers `H`, the character of that string at the
key; with a context with key field, the selector `rows`, which answers an array without
context, throws as soon as an item of that array has the current key. -/
theorem selectProperty_context_changes_unrelated_selector :
    startsWith plainContext.for_.data "title".data = false ∧
    (selectProperty Mod.fresh sampleHeap sampleState (.str "title") none "0").1 =
      .ok (.str "Hi") ∧
    (selectProperty Mod.fresh sampleHeap sampleState (.str "title") (some plainContext) "0").1 =
      .ok (.str "H") ∧
    startsWith keyedContext.for_.data "rows".data = false ∧
    (selectProperty Mod.fresh sampleHeap sampleState (.str "rows") none "a").1 =
      .ok (.arr 0) ∧
    (selectProperty Mod.fresh sampleHeap sampleState (.str "rows") (some keyedContext) "a").1 =
      .error typeError :=
  ⟨rfl, rfl, rfl, rfl, rfl, rfl⟩

/-! ## C19: what the snapshot copy touches -/

theorem copyEntry_frame (env : Env) (key : String) (v : Val) (lf : Fields) (h : Heap) :
    ∃ lf1, (copyEntry env key v (.obj lf) h).result.1 = .obj lf1 ∧
      ∀ k, k ≠ key → lookupKey k lf1 = lookupKey k lf := by
  have hset : ∀ x : Val, ∃ lf1, (Val.obj (setKey key x lf)) = .obj lf1 ∧
      ∀ k, k ≠ key → lookupKey k lf1 = lookupKey k lf :=
    fun x => ⟨_, rfl, fun k hk => lookupKey_setKey_ne key k x lf hk⟩
  have hsame : ∃ lf1, (Val.obj lf) = .obj lf1 ∧ ∀ k, k ≠ key → lookupKey k lf1 = lookupKey k lf :=
    ⟨lf, rfl, fun _ _ => rfl⟩
  cases v with
  | obj sub =>
    simp only [copyEntry, hasProp]
    cases (lookupKey key lf).isSome with
    | false => simpa [setProp, Outcome.result] using hset _
    | true =>
      simp only [getProp]
      cases hcopy : copyState env true sub ((lookupKey key lf).getD .undefined) h with
      | done r =>
        simp only [Outcome.result, writeBack]
        split
        · simpa [setProp] using hset _
        · exact hsame
      | threw e r =>
        simp only [Outcome.result, writeBack]
        split
        · simpa [setProp] using hset _
        · exact hsame
  | undefined => simpa [copyEntry, setProp, Outcome.result] using hset _
  | null => simpa [copyEntry, setProp, Outcome.result] using hset _
  | bool b => simpa [copyEntry, setProp, Outcome.result] using hset _
  | num n => simpa [copyEntry, setProp, Outcome.result] using hset _
  | str s => simpa [copyEntry, setProp, Outcome.result] using hset _
  | arr r => simpa [copyEntry, setProp, Outcome.result] using hset _

/-- Whatever its outcome, a copy into a mapping leaves a mapping, and leaves alone every
entry whose key the copied entries do not list. -/
theorem copyState_frame (env : Env) (fs : Fields) :
    ∀ (lf : Fields) (h : Heap),
      ∃ lf', (copyState env true fs (.obj lf) h).result.1 = .obj lf' ∧
        ∀ k, k ∉ keysOf fs → lookupKey k lf' = lookupKey k lf := by
  induction fs with
  | nil => intro lf h; exact ⟨lf, rfl, fun _ _ => rfl⟩
  | cons e rest ih =>
    intro lf h
    obtain ⟨key, v⟩ := e
    obtain ⟨lf1, h1, hframe1⟩ := copyEntry_frame env key v lf h
    have hnot : ∀ k, k ∉ keysOf ((key, v) :: rest) → k ≠ key ∧ k ∉ keysOf rest := by
      intro k hk
      simp only [keysOf, List.map_cons, List.mem_cons, not_or] at hk
      exact hk
    simp only [copyState, Bool.not_true, Bool.false_and, Bool.false_eq_true, if_false]
    cases hentry : copyEntry env key v (.obj lf) h with
    | threw e r =>
      rw [hentry] at h1
      exact ⟨lf1, h1, fun k hk => hframe1 k (hnot k hk).1⟩
    | done r =>
      rw [hentry] at h1
      simp only [Outcome.result] at h1
      simp only [h1]
      obtain ⟨lf', h2, hframe2⟩ := ih lf1 r.2
      exact ⟨lf', h2, fun k hk => (hframe2 k (hnot k hk).2).trans (hframe1 k (hnot k hk).1)⟩

theorem uniqueKeysFields_mem (fs : Fields) (huniq : uniqueKeysFields fs = true)
    (key : String) (v : Val) (hmem : (key, v) ∈ fs) : uniqueKeys v = true := by
  induction fs with
  | nil => cases hmem
  | cons e rest ih =>
    obtain ⟨k, w⟩ := e
    simp only [uniqueKeysFields, Bool.and_eq_true, decide_eq_true_eq] at huniq
    rcases List.mem_cons.1 hmem with heq | hrest
    · cases heq; exact huniq.1.2
    · exact ih huniq.2 hrest

theorem shapeOKFields_mem (fs lf : Fields) (hshape : shapeOKFields fs lf = true)
    (key : String) (v l : Val) (hmem : (key, v) ∈ fs) (hl : lookupKey key lf = some l) :
    shapeOK v l = true := by
  induction fs with
  | nil => cases hmem
  | cons e rest ih =>
    obtain ⟨k, w⟩ := e
    simp only [shapeOKFields, Bool.and_eq_true] at hshape
    rcases List.mem_cons.1 hmem with heq | hrest
    · cases heq
      simpa [hl] using hshape.1
    · exact ih hshape.2 hrest

theorem copyEntry_scalar (env : Env) (key : String) (v : Val) (lf : Fields) (h : Heap)
    (hv : v.isMapping = false) :
    copyEntry env key v (.obj lf) h = .done (.obj (setKey key v lf), h) := by
  cases v <;> first | rfl | simp [Val.isMapping] at hv

theorem copyEntry_existing (env : Env) (key : String) (sub lf ll ll' : Fields) (h : Heap)
    (hl : lookupKey key lf = some (.obj ll))
    (hcopy : copyState env true sub (.obj ll) h = .done (.obj ll', h)) :
    copyEntry env key (.obj sub) (.obj lf) h = .done (.obj (setKey key (.obj ll') lf), h) := by
  simp [copyEntry, hasProp, getProp, hl, hcopy, writeBack, setProp]

/-- Under uniqueness and shape, what a copy into a mapping leaves under each copied key:
a scalar or an array reference as it is in the state, an existing mapping updated by the
nested copy. -/
theorem copyState_entries (env : Env) (fs : Fields) :
    ∀ (lf : Fields) (h : Heap), uniqueKeysFields fs = true → shapeOKFields fs lf = true →
      ∃ lf', copyState env true fs (.obj lf) h = .done (.obj lf', h) ∧
        (∀ k, k ∉ keysOf fs → lookupKey k lf' = lookupKey k lf) ∧
        (∀ k v, (k, v) ∈ fs → v.isMapping = false → lookupKey k lf' = some v) ∧
        (∀ k sub ll, (k, Val.obj sub) ∈ fs → lookupKey k lf = some (.obj ll) →
          ∃ ll', copyState env true sub (.obj ll) h = .done (.obj ll', h) ∧
            lookupKey k lf' = some (.obj ll')) := by
  induction fs with
  | nil =>
    intro lf h _ _
    exact ⟨lf, rfl, fun _ _ => rfl, fun _ _ hm _ => absurd hm (List.not_mem_nil _),
      fun _ _ _ hm _ => absurd hm (List.not_mem_nil _)⟩
  | cons e rest ih =>
    intro lf h huniq hshape
    obtain ⟨key, v⟩ := e
    have huniq' := huniq
    simp only [uniqueKeysFields, Bool.and_eq_true, decide_eq_true_eq] at huniq'
    obtain ⟨⟨hfresh, huv⟩, hur⟩ := huniq'
    have hshape' := hshape
    simp only [shapeOKFields, Bool.and_eq_true] at hshape'
    obtain ⟨hsv, hsr⟩ := hshape'
    obtain ⟨x, hentry, _⟩ := copyEntry_shape env key v lf h huv hsv
    have hsr1 : shapeOKFields rest (setKey key x lf) = true := by
      rw [shapeOKFields_congr rest lf (setKey key x lf)]
      · exact hsr
      · intro k hk
        exact lookupKey_setKey_ne key k x lf (fun heq => hfresh (heq ▸ hk))
    obtain ⟨lf', hcopy, hframe, hscalar, hnested⟩ := ih (setKey key x lf) h hur hsr1
    have hrun : copyState env true ((key, v) :: rest) (.obj lf) h = .done (.obj lf', h) := by
      simp [copyState, hentry, hcopy]
    have hkey : lookupKey key lf' = some x := by
      rw [hframe key hfresh, lookupKey_setKey_same]
    have hrestkey : ∀ k w, (k, w) ∈ rest → k ≠ key := by
      intro k w hm heq
      exact hfresh (heq ▸ List.mem_map.2 ⟨(k, w), hm, rfl⟩)
    refine ⟨lf', hrun, ?_, ?_, ?_⟩
    · intro k hk
      simp only [keysOf, List.map_cons, List.mem_cons, not_or] at hk
      rw [hframe k hk.2, lookupKey_setKey_ne key k x lf hk.1]
    · intro k w hm hw
      rcases List.mem_cons.1 hm with heq | hr
      · obtain ⟨hk, hv⟩ := Prod.mk.inj heq
        subst hk; subst hv
        have h2 := copyEntry_scalar env k w lf h hw
        rw [hentry] at h2
        simp only [Outcome.done.injEq, Prod.mk.injEq, Val.obj.injEq, and_true] at h2
        have h3 : lookupKey k (setKey k x lf) = lookupKey k (setKey k w lf) := by rw [h2]
        rw [lookupKey_setKey_same, lookupKey_setKey_same] at h3
        rw [hkey, h3]
      · exact hscalar k w hr hw
    · intro k sub ll hm hl
      rcases List.mem_cons.1 hm with heq | hr
      · obtain ⟨hk, hv⟩ := Prod.mk.inj heq
        subst hk; subst hv
        have hsub : shapeOKFields sub ll = true := by
          have := hsv
          simp only [hl] at this
          simpa [shapeOK] using this
        have husub : uniqueKeysFields sub = true := by simpa [uniqueKeys] using huv
        obtain ⟨ll', hc, _, _⟩ := copyState_shape env sub ll h husub hsub
        have h2 := copyEntry_existing env k sub lf ll ll' h hl hc
        rw [hentry] at h2
        simp only [Outcome.done.injEq, Prod.mk.injEq, Val.obj.injEq, and_true] at h2
        have h3 : lookupKey k (setKey k x lf) = lookupKey k (setKey k (.obj ll') lf) := by rw [h2]
        rw [lookupKey_setKey_same, lookupKey_setKey_same] at h3
        exact ⟨ll', hc, by rw [hkey, h3]⟩
      · have hne : k ≠ key := hrestkey k _ hr
        have hl1 : lookupKey k (setKey key x lf) = some (.obj ll) := by
          rw [lookupKey_setKey_ne key k x lf hne]; exact hl
        exact hnested k sub ll hr hl1

theorem mem_tracked (env : Env) (fs : Fields) (k : String) (v : Val)
    (hmem : (k, v) ∈ fs) (hk : k ∉ env.nonBindedStateKeys) : (k, v) ∈ tracked env fs := by
  simp only [tracked, List.mem_filter, decide_eq_true_eq]
  exact ⟨hmem, (indexOf_eq_neg_one_iff _ _).2 hk⟩

theorem not_mem_keysOf_tracked (env : Env) (fs : Fields) (k : String)
    (hk : k ∈ env.nonBindedStateKeys) : k ∉ keysOf (tracked env fs) := by
  intro hmem
  simp only [keysOf, tracked, List.mem_map, List.mem_filter, decide_eq_true_eq] at hmem
  obtain ⟨e, ⟨_, he⟩, rfl⟩ := hmem
  exact (indexOf_eq_neg_one_iff _ _).1 he hk

/-- C19: `copyState(lastState, state)` called at top level on a snapshot that is a mapping
leaves `lastState[k]` as it was for every key `k` of `nonBindedStateKeys`, whatever the
outcome of the call.  When no mapping lists a key twice and the snapshot holds a mapping
or no entry wherever the tracked state holds a mapping, the call returns normally without
writing to the heap; a tracked array is copied by reference; and a tracked mapping that
the snapshot already holds is updated in place: every scalar or array entry of the state
mapping is copied into it, also an entry whose key is listed in `nonBindedStateKeys`, and
the entries it held under other keys stay. -/
theorem copyState_excludes_top_level_only (env : Env) (sf lf : Fields) (h : Heap) :
    (∃ lf', (copyState env false sf (.obj lf) h).result.1 = .obj lf' ∧
      ∀ k ∈ env.nonBindedStateKeys, lookupKey k lf' = lookupKey k lf) ∧
    (uniqueKeysFields sf = true → shapeOKFields (tracked env sf) lf = true →
      ∃ lf', copyState env false sf (.obj lf) h = .done (.obj lf', h) ∧
        (∀ k r, (k, Val.arr r) ∈ sf → k ∉ env.nonBindedStateKeys →
          lookupKey k lf' = some (.arr r)) ∧
        (∀ t sub ll, (t, Val.obj sub) ∈ sf → t ∉ env.nonBindedStateKeys →
          lookupKey t lf = some (.obj ll) →
          ∃ ll', lookupKey t lf' = some (.obj ll') ∧
            (∀ k v, (k, v) ∈ sub → v.isMapping = false → lookupKey k ll' = some v) ∧
            (∀ k, k ∉ keysOf sub → lookupKey k ll' = lookupKey k ll))) := by
  constructor
  · obtain ⟨lf', h1, hframe⟩ := copyState_frame env (tracked env sf) lf h
    refine ⟨lf', by rw [copyState_top]; exact h1, ?_⟩
    intro k hk
    exact hframe k (not_mem_keysOf_tracked env sf k hk)
  · intro huniq hshape
    have hut := uniqueKeysFields_tracked env sf huniq
    obtain ⟨lf', hcopy, _, hscalar, hnested⟩ :=
      copyState_entries env (tracked env sf) lf h hut hshape
    refine ⟨lf', by rw [copyState_top]; exact hcopy, ?_, ?_⟩
    · intro k r hm hk
      exact hscalar k (.arr r) (mem_tracked env sf k _ hm hk) rfl
    · intro t sub ll hm ht hl
      have hmt := mem_tracked env sf t _ hm ht
      obtain ⟨ll', hc, hlt⟩ := hnested t sub ll hmt hl
      have husub : uniqueKeysFields sub = true := by
        simpa [uniqueKeys] using uniqueKeysFields_mem sf huniq t _ hm
      have hssub : shapeOKFields sub ll = true := by
        simpa [shapeOK] using shapeOKFields_mem (tracked env sf) lf hshape t _ _ hmt hl
      obtain ⟨ll2, hc2, hframe2, hscalar2, _⟩ := copyState_entries env sub ll h husub hssub
      rw [hc] at hc2
      simp only [Outcome.done.injEq, Prod.mk.injEq, Val.obj.injEq, and_true] at hc2
      subst hc2
      exact ⟨ll', hlt, hscalar2, hframe2⟩

/-- Witness of `copyState_excludes_top_level_only`: with `cache` untracked, the copy of
`cacheState` into `cacheLast` keeps the top-level `cache` at 1, stores the array reference
itself, and updates the existing mapping `ui` in place, nested `cache` included. -/
theorem copyState_excludes_top_level_only_witness :
    ∃ lf', copyState cachingEnv false cacheState (.obj cacheLast) oneArrayHeap
        = .done (.obj lf', oneArrayHeap) ∧
      lookupKey "items" lf' = some (.arr 0) ∧
      ∃ ll', lookupKey "ui" lf' = some (.obj ll') ∧
        lookupKey "cache" ll' = some (.num 5) ∧
        lookupKey "old" ll' = some (.str "kept") := by
  obtain ⟨lf', hrun, harr, hnested⟩ :=
    (copyState_excludes_top_level_only cachingEnv cacheState cacheLast oneArrayHeap).2 rfl rfl
  obtain ⟨ll', hui, hscalar, hframe⟩ :=
    hnested "ui" [("cache", .num 5), ("open", .bool true)] [("cache", .num 4), ("old", .str "kept")]
      (by simp [cacheState]) (by decide) rfl
  exact ⟨lf', hrun, harr "items" 0 (by simp [cacheState]) (by decide), ll', hui,
    hscalar "cache" (.num 5) (by simp) rfl,
    (hframe "old" (by decide)).trans rfl⟩

/-! ## Reconciliation passes -/

/-- A value strictly equal to itself that is in the array is found by `indexOf`. -/
theorem indexOfValFrom_mem (xs : List Val) (x : Val) (hrefl : x.beq x = true) :
    ∀ i : Nat, x ∈ xs → indexOfValFrom xs x i ≠ -1 := by
  induction xs with
  | nil => intro i hmem; cases hmem
  | cons y ys ih =>
    intro i hmem
    simp only [indexOfValFrom]
    by_cases hy : y.beq x = true
    · simp only [hy, if_true]
      omega
    · simp only [hy, Bool.false_eq_true, if_false]
      rcases List.mem_cons.1 hmem with heq | htail
      · subst heq; exact absurd hrefl hy
      · exact ih (i + 1) htail

/-- What `getAttribute` returns is strictly equal to itself. -/
theorem getAttribute_beq (node : Node) : (getAttribute node).beq (getAttribute node) = true := by
  unfold getAttribute
  cases node.key <;> simp [Val.beq]

/-- When every key of the collection is in `renderedKeys`, the first loop renders nothing
and leaves the component as it is. -/
theorem addLoop_all_rendered (dom : Dom) (h : Heap) (list : Val) (c : BindForComponent) :
    ∀ (n i : Nat) (keys K : List Val), collectionKeysFrom h c.data list n i = some K →
      (∀ k ∈ K, indexOfVal c.renderedKeys k ≠ -1) →
      addLoop dom h list keys c n i = .done (keys ++ K, c) := by
  intro n
  induction n with
  | zero =>
    intro i keys K hK _
    simp only [collectionKeysFrom, Option.some.injEq] at hK
    subst hK
    simp [addLoop]
  | succ n ih =>
    intro i keys K hK hin
    simp only [collectionKeysFrom] at hK
    simp only [addLoop]
    cases hitem : getProp h list (toString i) with
    | error e => simp [hitem] at hK
    | ok item =>
      simp only [hitem] at hK ⊢
      cases hkey : itemKey h c.data item i with
      | error e => simp [hkey] at hK
      | ok k =>
        simp only [hkey] at hK ⊢
        cases hrest : collectionKeysFrom h c.data list n (i + 1) with
        | none => simp [hrest] at hK
        | some ks =>
          simp only [hrest, Option.map_some', Option.some.injEq] at hK
          subst hK
          have hk := hin k (List.mem_cons_self _ _)
          simp only [hk, if_false]
          rw [ih (i + 1) (keys ++ [k]) ks hrest (fun x hx => hin x (List.mem_cons_of_mem _ hx))]
          simp

/-- When the key attribute of every child that is not a `TEMPLATE` is in `keys`, the second
loop marks no child and leaves `renderedKeys` alone. -/
theorem removeLoop_all_kept (keys : List Val) :
    ∀ (children : List Node) (acc : List Node × List Val),
      (∀ child ∈ children, child.tagName ≠ "TEMPLATE" →
        indexOfVal keys (getAttribute child) ≠ -1) →
      removeLoop keys children acc = acc := by
  intro children
  induction children with
  | nil => intro acc _; rfl
  | cons child rest ih =>
    intro acc hin
    obtain ⟨toRemove, renderedKeys⟩ := acc
    have hrest := ih (toRemove, renderedKeys) (fun x hx => hin x (List.mem_cons_of_mem _ hx))
    simp only [removeLoop]
    by_cases htag : child.tagName = "TEMPLATE"
    · simp only [htag, if_true]; exact hrest
    · simp only [htag, if_false, hin child (List.mem_cons_self _ _) htag]
      exact hrest

/-- Reconciliation of string keys is not reorder-aware.  Let the key attributes of the
children that are not `TEMPLATE` elements, read in order, be `renderedKeys` (attributes
are strings, so the rendered keys are strings) and let the key sequence `K` of the selected
collection be a permutation of `renderedKeys`.  Then a pass returns normally, renders no
item, removes no node, and leaves `renderedKeys`, the children and their order as they
were: all it does is emit `bindforrender`. -/
theorem onStateUpdate_permuted_collection_changes_nothing (dom : Dom) (m : Mod) (h : Heap)
    (state list : Val) (c : BindForComponent) (K : List Val)
    (hsel : (select m h state c.data.in_ none "").1 = .ok list)
    (hK : collectionKeys h c.data list = some K)
    (hmirror : (keyedNodes c.children).map getAttribute = c.renderedKeys)
    (hperm : K.Perm c.renderedKeys) :
    (onStateUpdate dom m h state c).1
      = .done { c with emitted := c.emitted ++ ["bindforrender"] } := by
  have hattr : ∀ child ∈ c.children, child.tagName ≠ "TEMPLATE" →
      getAttribute child ∈ c.renderedKeys := by
    intro child hmem htag
    rw [← hmirror]
    refine List.mem_map.2 ⟨child, ?_, rfl⟩
    simp only [keyedNodes, List.mem_filter, bne_iff_ne, ne_eq]
    exact ⟨hmem, htag⟩
  have hrefl : ∀ k ∈ c.renderedKeys, k.beq k = true := by
    intro k hk
    rw [← hmirror] at hk
    obtain ⟨child, _, rfl⟩ := List.mem_map.1 hk
    exact getAttribute_beq child
  have hadd : ∀ k ∈ K, indexOfVal c.renderedKeys k ≠ -1 := by
    intro k hk
    have hmem := hperm.subset hk
    exact indexOfValFrom_mem _ k (hrefl k hmem) 0 hmem
  have hkeep : ∀ child ∈ c.children, child.tagName ≠ "TEMPLATE" →
      indexOfVal K (getAttribute child) ≠ -1 := by
    intro child hmem htag
    exact indexOfValFrom_mem _ _ (getAttribute_beq child) 0
      (hperm.symm.subset (hattr child hmem htag))
  unfold collectionKeys at hK
  cases hlen : lengthOf h list with
  | error e => simp [hlen] at hK
  | ok n =>
    simp only [hlen] at hK
    have hloop := addLoop_all_rendered dom h list c n 0 [] K hK hadd
    simp only [List.nil_append] at hloop
    unfold onStateUpdate
    cases hs : select m h state c.data.in_ none "" with
    | mk r m1 =>
      rw [hs] at hsel
      simp only at hsel
      subst hsel
      simp only [reconcile, hlen, hloop, removeLoop_all_kept K c.children _ hkeep, List.foldl_nil]

/-- Witness of `onStateUpdate_permuted_collection_changes_nothing`: the collection `items`
of `sampleState` has the keys `a`, `b`, the component has rendered `b`, `a`. -/
theorem onStateUpdate_permuted_collection_changes_nothing_witness :
    (onStateUpdate entityDom Mod.fresh sampleHeap sampleState permutedComponent).1
      = .done { permutedComponent with emitted := ["bindforrender"] } :=
  onStateUpdate_permuted_collection_changes_nothing entityDom Mod.fresh sampleHeap sampleState
    (.arr 0) permutedComponent [.str "a", .str "b"] rfl rfl rfl (List.Perm.swap _ _ _)

/-- C16 (defect of the code): with numeric item keys a pass removes every node it has just
rendered.  On a container that holds only its template, the collection keyed 1, 3, 4 is
rendered item by item (three calls of `renderTemplate`, the nodes 1, 2 and 3 are created),
yet the pass ends with the template as the only child and with `renderedKeys` empty: each
node is tagged with the string of its key, which `keys.indexOf` does not find among the
numbers.  On the example of the specification (the keys 1, 2, 3 rendered, each by a node
tagged with it, the collection keyed 1, 3, 4) the pass renders the item keyed 4 and then
removes all four nodes. -/
theorem onStateUpdate_numeric_keys_removes_all_nodes :
    collectionKeys numberedHeap freshComponent.data (.arr 0)
      = some [.num 1, .num 3, .num 4] ∧
    (onStateUpdate entityDom Mod.fresh numberedHeap numberedState freshComponent).1
      = .done { freshComponent with
          created := 4
          rendered := [.obj [("id", .num 1)], .obj [("id", .num 3)], .obj [("id", .num 4)]]
          emitted := ["bindforrender"] } ∧
    (onStateUpdate entityDom Mod.fresh numberedHeap numberedState renderedComponent).1
      = .done { freshComponent with
          created := 5
          rendered := [.obj [("id", .num 4)]]
          emitted := ["bindforrender"] } :=
  ⟨rfl, rfl, rfl⟩

/-! ## C18: composed handler tables -/

theorem mergeEntry_same {σ : Type} (out : List (String × Slot σ)) (a : String)
    (f : Handler σ) (prev : List (Handler σ)) (hprev : lookupKey a out = slotOf prev) :
    lookupKey a (mergeEntry out (a, f)) = slotOf (prev ++ [f]) := by
  match prev, hprev with
  | [], hprev => simp [mergeEntry, hprev, slotOf, lookupKey_setKey_same]
  | [g], hprev => simp [mergeEntry, hprev, slotOf, lookupKey_setKey_same]
  | x :: y :: zs, hprev => simp [mergeEntry, hprev, slotOf, lookupKey_setKey_same]

theorem mergeEntry_other {σ : Type} (out : List (String × Slot σ)) (a k : String)
    (f : Handler σ) (hne : a ≠ k) :
    lookupKey a (mergeEntry out (k, f)) = lookupKey a out := by
  unfold mergeEntry
  split <;> exact lookupKey_setKey_ne k a _ out hne

/-- The entries of a table with pairwise distinct names that carry the name `a`. -/
theorem filter_name_eq_lookupKey {β : Type} (a : String) (t : List (String × β))
    (hnodup : (keysOf t).Nodup) :
    (t.filter (fun e => decide (e.1 = a))).map Prod.snd = (lookupKey a t).toList := by
  induction t with
  | nil => rfl
  | cons e rest ih =>
    obtain ⟨k, v⟩ := e
    simp only [keysOf, List.map_cons, List.nodup_cons] at hnodup
    by_cases hk : k = a
    · subst hk
      have hnone : rest.filter (fun e => decide (e.1 = k)) = [] := by
        rw [List.filter_eq_nil_iff]
        intro e he heq
        simp only [decide_eq_true_eq] at heq
        exact hnodup.1 (List.mem_map.2 ⟨e, he, heq⟩)
      simp [List.filter_cons, lookupKey, hnone]
    · simp only [List.filter_cons, hk, decide_False, Bool.false_eq_true, if_false, lookupKey]
      exact ih hnodup.2

theorem foldl_mergeEntry_lookup {σ : Type} (a : String) :
    ∀ (t : List (String × Handler σ)) (out : List (String × Slot σ)) (prev : List (Handler σ)),
      lookupKey a out = slotOf prev →
      lookupKey a (t.foldl mergeEntry out)
        = slotOf (prev ++ (t.filter (fun e => decide (e.1 = a))).map Prod.snd) := by
  intro t
  induction t with
  | nil => intro out prev hprev; simpa using hprev
  | cons e rest ih =>
    intro out prev hprev
    obtain ⟨k, f⟩ := e
    simp only [List.foldl_cons]
    by_cases hk : k = a
    · subst hk
      rw [ih _ (prev ++ [f]) (mergeEntry_same out k f prev hprev)]
      simp [List.filter_cons]
    · rw [ih _ prev ((mergeEntry_other out a k f (fun h => hk h.symm)).trans hprev)]
      simp [List.filter_cons, hk]

theorem foldl_tables_lookup {σ : Type} (a : String) :
    ∀ (tables : List (List (String × Handler σ))) (out : List (String × Slot σ))
      (prev : List (Handler σ)), (∀ t ∈ tables, (keysOf t).Nodup) →
      lookupKey a out = slotOf prev →
      lookupKey a (tables.foldl (fun out table => table.foldl mergeEntry out) out)
        = slotOf (prev ++ tables.filterMap (lookupKey a)) := by
  intro tables
  induction tables with
  | nil => intro out prev _ hprev; simpa using hprev
  | cons t rest ih =>
    intro out prev hnodup hprev
    simp only [List.foldl_cons]
    rw [ih _ _ (fun x hx => hnodup x (List.mem_cons_of_mem _ hx))
      (foldl_mergeEntry_lookup a t out prev hprev),
      filter_name_eq_lookupKey a t (hnodup t (List.mem_cons_self _ _))]
    cases hl : lookupKey a t <;> simp [List.filterMap_cons, hl]

theorem lookupKey_map_snd {β γ : Type} (g : β → γ) (a : String) (l : List (String × β)) :
    lookupKey a (l.map (fun e => (e.1, g e.2))) = (lookupKey a l).map g := by
  induction l with
  | nil => rfl
  | cons e rest ih =>
    obtain ⟨k, v⟩ := e
    by_cases hk : k = a <;> simp [lookupKey, hk, ih]

theorem mem_keysOf_iff_lookupKey {β : Type} (a : String) (l : List (String × β)) :
    a ∈ keysOf l ↔ (lookupKey a l).isSome = true := by
  induction l with
  | nil => simp [keysOf, lookupKey]
  | cons e rest ih =>
    obtain ⟨k, v⟩ := e
    by_cases hk : k = a
    · simp [keysOf, lookupKey, hk]
    · have hk' : ¬ a = k := fun h => hk h.symm
      simp only [keysOf, List.map_cons, List.mem_cons, hk', false_or, lookupKey, hk, if_false]
      exact ih

theorem slotOf_map_composeSlot {σ : Type} (fs : List (Handler σ)) :
    (slotOf fs).map composeSlot = composedOf fs := by
  match fs with
  | [] => rfl
  | [f] => rfl
  | x :: y :: zs => rfl

/-- The table `composeHandlers` returns, entry by entry. -/
theorem composeHandlers_lookup {σ : Type} (inputHandlers : List (List (String × Handler σ)))
    (hunique : ∀ t ∈ inputHandlers, (keysOf t).Nodup) (a : String) :
    lookupKey a (composeHandlers inputHandlers)
      = composedOf (inputHandlers.filterMap (lookupKey a)) := by
  unfold composeHandlers
  simp only []
  rw [lookupKey_map_snd composeSlot, foldl_tables_lookup a inputHandlers [] [] hunique rfl,
    List.nil_append, slotOf_map_composeSlot]

/-- Functions that return normally are applied one after the other, each once, to the
same payload. -/
theorem composeFunctions_done {σ : Type} (payload : Val) :
    ∀ (fs : List (Handler σ)) (state : σ),
      (∀ f ∈ fs, ∀ s, (f s payload).returned = true) →
      composeFunctions fs state payload
        = .done (fs.foldl (fun s f => (f s payload).result) state) := by
  intro fs
  induction fs with
  | nil => intro state _; rfl
  | cons f rest ih =>
    intro state hret
    have hf := hret f (List.mem_cons_self _ _) state
    simp only [composeFunctions, List.foldl_cons]
    cases hrun : f state payload with
    | threw e s1 => rw [hrun] at hf; simp [Outcome.returned] at hf
    | done s1 =>
      simp only [Outcome.result]
      exact ih s1 (fun g hg => hret g (List.mem_cons_of_mem _ hg))

theorem filterMap_lookupKey_ne_nil {β : Type} (a : String) (tables : List (List (String × β))) :
    tables.filterMap (lookupKey a) ≠ [] ↔ ∃ t ∈ tables, a ∈ keysOf t := by
  induction tables with
  | nil => simp
  | cons t rest ih =>
    cases hl : lookupKey a t with
    | none =>
      have hnot : a ∉ keysOf t := by
        rw [mem_keysOf_iff_lookupKey, hl]; simp
      simp only [List.filterMap_cons, hl, List.mem_cons, exists_eq_or_imp, hnot, false_or]
      exact ih
    | some v =>
      have hin : a ∈ keysOf t := by
        rw [mem_keysOf_iff_lookupKey, hl]; rfl
      simp [List.filterMap_cons, hl, hin]

theorem composedOf_isSome {σ : Type} (fs : List (Handler σ)) :
    (composedOf fs).isSome = true ↔ fs ≠ [] := by
  match fs with
  | [] => simp [composedOf]
  | [f] => simp [composedOf]
  | x :: y :: zs => simp [composedOf]

theorem composedOf_apply {σ : Type} (fs : List (Handler σ)) (hne : fs ≠ []) :
    ∃ g, composedOf fs = some g ∧ ∀ state payload, g state payload = composeFunctions fs state payload := by
  match fs, hne with
  | [f], _ =>
    refine ⟨f, rfl, fun state payload => ?_⟩
    simp only [composeFunctions]
    cases f state payload <;> rfl
  | x :: y :: zs, _ => exact ⟨_, rfl, fun _ _ => rfl⟩

/-- C18: let every table passed to `composeHandlers` map pairwise distinct action names
to functions.  The result has exactly the union of the action names of the tables.  A
name that exactly one table defines maps to the handler of that table.  For every name `a`
of the union, `result[a](state, payload)` runs the handlers `h1[a]`, ..., `hn[a]` that are
defined, in argument order, each on the state the one before it left and on the same
payload, ending at the first one that throws; when they all return normally each has run
exactly once. -/
theorem composeHandlers_runs_handlers_in_argument_order {σ : Type}
    (inputHandlers : List (List (String × Handler σ)))
    (hunique : ∀ t ∈ inputHandlers, (keysOf t).Nodup) (a : String) :
    (a ∈ keysOf (composeHandlers inputHandlers) ↔ ∃ t ∈ inputHandlers, a ∈ keysOf t) ∧
    (∀ f, inputHandlers.filterMap (lookupKey a) = [f] →
      lookupKey a (composeHandlers inputHandlers) = some f) ∧
    ((∃ t ∈ inputHandlers, a ∈ keysOf t) →
      ∃ g, lookupKey a (composeHandlers inputHandlers) = some g ∧
        (∀ state payload, g state payload
          = composeFunctions (inputHandlers.filterMap (lookupKey a)) state payload) ∧
        (∀ state payload,
          (∀ f ∈ inputHandlers.filterMap (lookupKey a), ∀ s, (f s payload).returned = true) →
          g state payload = .done ((inputHandlers.filterMap (lookupKey a)).foldl
            (fun s f => (f s payload).result) state))) := by
  have hlookup := composeHandlers_lookup inputHandlers hunique a
  refine ⟨?_, ?_, ?_⟩
  · rw [mem_keysOf_iff_lookupKey, hlookup, composedOf_isSome, filterMap_lookupKey_ne_nil]
  · intro f hf
    rw [hlookup, hf]
    rfl
  · intro hmem
    obtain ⟨g, hg, happly⟩ := composedOf_apply (inputHandlers.filterMap (lookupKey a))
      ((filterMap_lookupKey_ne_nil a inputHandlers).2 hmem)
    refine ⟨g, hlookup.trans hg, happly, ?_⟩
    intro state payload hret
    rw [happly, composeFunctions_done payload _ state hret]

/-- Witness of `composeHandlers_runs_handlers_in_argument_order`: in `recorderTables` the
action `add` has the handlers 1 and 3; the composed handler calls 1, then 3, with the
payload it was given. -/
theorem composeHandlers_runs_handlers_in_argument_order_witness :
    ∃ g, lookupKey "add" (composeHandlers recorderTables) = some g ∧
      g [] (.num 7) = .done [(1, .num 7), (3, .num 7)] := by
  have hunique : ∀ t ∈ recorderTables, (keysOf t).Nodup := by
    intro t ht
    simp only [recorderTables, List.mem_cons, List.mem_singleton, List.not_mem_nil, or_false] at ht
    rcases ht with rfl | rfl | rfl <;> decide
  obtain ⟨g, hg, happly, _⟩ :=
    (composeHandlers_runs_handlers_in_argument_order recorderTables hunique "add").2.2
      ⟨_, List.mem_cons_self _ _, by decide⟩
  exact ⟨g, hg, (happly [] (.num 7)).trans rfl⟩

/-! ## The reconciler on string keys -/

theorem indexOfValFrom_str_absent (s : String) :
    ∀ (L : List String) (i : Nat), s ∉ L → indexOfValFrom (L.map Val.str) (.str s) i = -1 := by
  intro L
  induction L with
  | nil => intro i _; rfl
  | cons x xs ih =>
    intro i hs
    simp only [List.mem_cons, not_or] at hs
    have hne : ¬ x = s := fun h => hs.1 h.symm
    simp [indexOfValFrom, Val.beq, hne, ih (i + 1) hs.2]

/-- In an array of strings, `splice(indexOf(s), 1)` takes out the first `s`. -/
theorem indexOfValFrom_str_present (s : String) :
    ∀ (L : List String) (i : Nat), s ∈ L →
      ∃ j, indexOfValFrom (L.map Val.str) (.str s) i = ((i + j : Nat) : Int) ∧
        (L.map Val.str).take j ++ (L.map Val.str).drop (j + 1) = (L.erase s).map Val.str ∧
        j < L.length := by
  intro L
  induction L with
  | nil => intro i hs; cases hs
  | cons x xs ih =>
    intro i hs
    by_cases hx : x = s
    · subst hx
      exact ⟨0, by simp [indexOfValFrom, Val.beq], by simp, by simp⟩
    · have hs' : s ∈ xs := by
        rcases List.mem_cons.1 hs with h | h
        · exact absurd h.symm hx
        · exact h
      obtain ⟨j, hj, hsplit, hlt⟩ := ih (i + 1) hs'
      refine ⟨j + 1, ?_, ?_, by simpa using hlt⟩
      · simp only [List.map_cons, indexOfValFrom, Val.beq, beq_iff_eq, hx, if_false, hj]
        congr 1
        omega
      · have herase : (x :: xs).erase s = x :: xs.erase s := by
          rw [List.erase_cons_tail]
          simpa using hx
        simp only [List.map_cons, List.take_succ_cons, List.drop_succ_cons, List.cons_append,
          herase, hsplit]

theorem splice_indexOfVal_str (s : String) (L : List String) (hs : s ∈ L) :
    splice (L.map Val.str) (indexOfVal (L.map Val.str) (.str s)) 1 = (L.erase s).map Val.str := by
  obtain ⟨j, hj, hsplit, hlt⟩ := indexOfValFrom_str_present s L 0 hs
  unfold splice indexOfVal
  rw [hj]
  have h1 : ¬ (((0 + j : Nat) : Int) < 0) := by omega
  have h2 : (min (((0 + j : Nat) : Int)) ((L.map Val.str).length : Int)).toNat = j := by
    simp only [List.length_map]
    omega
  simp only [h1, if_false, h2]
  exact hsplit

theorem tagLastChild_append (dom : Dom) (h : Heap) (children : List Node) (node : Node)
    (text : String) :
    tagLastChild dom h (children ++ [node]) (.str text)
      = .ok (children ++ [{ node with key := some text }]) := by
  simp [tagLastChild, attributeText, scalarText, List.getLast?_append,
    List.dropLast_append_of_ne_nil]

theorem filter_absent_append (R K : List String) (k : String) (hk : k ∉ K) :
    K.filter (fun x => decide (x ∉ R ++ [k])) = K.filter (fun x => decide (x ∉ R)) := by
  apply List.filter_congr
  intro x hx
  have hne : x ≠ k := fun h => hk (h ▸ hx)
  simp [hne]

/-- The first loop on string keys: the keys of the collection that are not rendered yet
are rendered in collection order, one fresh node each, tagged with its key, and pushed on
`renderedKeys`. -/
theorem addLoop_strings (dom : Dom) (h : Heap) (list : Val) (tpl : String)
    (hrender : ∀ item, ∃ tag attr, dom.renderTemplate tpl item = .ok [(tag, attr)] ∧
      tag ≠ "TEMPLATE") :
    ∀ (n i : Nat) (keys : List Val) (c : BindForComponent) (R K : List String),
      c.template = tpl →
      collectionKeysFrom h c.data list n i = some (K.map Val.str) → K.Nodup →
      c.renderedKeys = R.map Val.str →
      ∃ c1 added, addLoop dom h list keys c n i = .done (keys ++ K.map Val.str, c1) ∧
        c1.renderedKeys = (R ++ K.filter (fun k => decide (k ∉ R))).map Val.str ∧
        c1.children = c.children ++ added ∧
        added.map (fun x => x.key) = (K.filter (fun k => decide (k ∉ R))).map some ∧
        (∀ x ∈ added, x.tagName ≠ "TEMPLATE") ∧
        added.map (fun x => x.id) = List.range' c.created added.length ∧
        c1.created = c.created + added.length ∧
        c1.rendered.length = c.rendered.length + added.length ∧
        c1.emitted = c.emitted := by
  intro n
  induction n with
  | zero =>
    intro i keys c R K _ hK _ hR
    simp only [collectionKeysFrom, Option.some.injEq] at hK
    have hnil : K = [] := by
      cases K with
      | nil => rfl
      | cons k ks => simp at hK
    subst hnil
    exact ⟨c, [], by simp [addLoop], by simpa using hR, by simp, rfl, by simp, rfl, rfl, rfl, rfl⟩
  | succ n ih =>
    intro i keys c R K htpl hK hnodup hR
    simp only [collectionKeysFrom] at hK
    cases hitem : getProp h list (toString i) with
    | error e => simp [hitem] at hK
    | ok item =>
      simp only [hitem] at hK
      cases hkey : itemKey h c.data item i with
      | error e => simp [hkey] at hK
      | ok k =>
        simp only [hkey] at hK
        cases hrest : collectionKeysFrom h c.data list n (i + 1) with
        | none => simp [hrest] at hK
        | some ks =>
          simp only [hrest, Option.map_some', Option.some.injEq] at hK
          cases K with
          | nil => simp at hK
          | cons k0 K1 =>
            simp only [List.map_cons, List.cons.injEq] at hK
            obtain ⟨hk, hks⟩ := hK
            subst hk hks
            simp only [List.nodup_cons] at hnodup
            by_cases hin : k0 ∈ R
            · have hfound : indexOfVal c.renderedKeys (.str k0) ≠ -1 := by
                rw [hR]
                exact indexOfValFrom_mem _ _ (by simp [Val.beq]) 0 (List.mem_map.2 ⟨k0, hin, rfl⟩)
              obtain ⟨c1, added, hrun, hkeys, hch, hadded, htags, hids, hcreated, hlog, hem⟩ :=
                ih (i + 1) (keys ++ [.str k0]) c R K1 htpl hrest hnodup.2 hR
              refine ⟨c1, added, ?_, ?_, hch, ?_, htags, hids, hcreated, hlog, hem⟩
              · simp only [addLoop, hitem, hkey, hfound, if_false, hrun]
                simp
              · simpa [List.filter_cons, hin] using hkeys
              · simpa [List.filter_cons, hin] using hadded
            · have habsent : indexOfVal c.renderedKeys (.str k0) = -1 := by
                rw [hR]
                exact indexOfValFrom_str_absent k0 R 0 hin
              obtain ⟨tag, attr, hfrag, htag⟩ := hrender item
              obtain ⟨c1, added, hrun, hkeys, hch, hadded, htags, hids, hcreated, hlog, hem⟩ :=
                ih (i + 1) (keys ++ [.str k0])
                  { c with children := c.children ++ [{ id := c.created, tagName := tag, key := some k0 }]
                           created := c.created + 1
                           rendered := c.rendered ++ [item]
                           renderedKeys := c.renderedKeys ++ [.str k0] }
                  (R ++ [k0]) K1 htpl hrest hnodup.2 (by simp [hR])
              rw [filter_absent_append R K1 k0 hnodup.1] at hkeys hadded
              dsimp only at hch hids hcreated hlog hem
              simp only [htpl] at hrun
              refine ⟨c1, { id := c.created, tagName := tag, key := some k0 } :: added,
                ?_, ?_, ?_, ?_, ?_, ?_, ?_, ?_, hem⟩
              · simp only [addLoop, hitem, hkey, habsent, if_true, htpl, hfrag,
                  fragmentNodes, tagLastChild_append, List.length_singleton, hrun]
                simp
              · simpa [List.filter_cons, hin] using hkeys
              · simpa using hch
              · simpa [List.filter_cons, hin] using hadded
              · intro x hx
                rcases List.mem_cons.1 hx with rfl | hx
                · exact htag
                · exact htags x hx
              · simp only [List.map_cons, List.length_cons, hids]
                rfl
              · rw [hcreated, List.length_cons]
                omega
              · rw [hlog, List.length_cons, List.length_append, List.length_singleton]
                omega

/-- The second loop on string keys: the stale children are marked in order, and the key
of each is taken out of `renderedKeys`. -/
theorem removeLoop_strings (K : List String) :
    ∀ (cs : List Node) (L : List String) (tr : List Node),
      (∀ x ∈ cs, x.tagName ≠ "TEMPLATE" → ∃ s, x.key = some s) →
      ((cs.filter (isStale K)).filterMap (fun x => x.key)).Nodup →
      (∀ s ∈ (cs.filter (isStale K)).filterMap (fun x => x.key), s ∈ L) →
      removeLoop (K.map Val.str) cs (tr, L.map Val.str)
        = (tr ++ cs.filter (isStale K),
            (L.diff ((cs.filter (isStale K)).filterMap (fun x => x.key))).map Val.str) := by
  intro cs
  induction cs with
  | nil => intro L tr _ _ _; simp [removeLoop]
  | cons child rest ih =>
    intro L tr hkeyed hnodup hsub
    have hkeyed' : ∀ x ∈ rest, x.tagName ≠ "TEMPLATE" → ∃ s, x.key = some s :=
      fun x hx => hkeyed x (List.mem_cons_of_mem _ hx)
    by_cases htag : child.tagName = "TEMPLATE"
    · have hstale : isStale K child = false := by simp [isStale, htag]
      simp only [List.filter_cons, hstale, Bool.false_eq_true, if_false] at hnodup hsub ⊢
      simp only [removeLoop, htag, if_true]
      exact ih L tr hkeyed' hnodup hsub
    · obtain ⟨s, hs⟩ := hkeyed child (List.mem_cons_self _ _) htag
      have hattr : getAttribute child = .str s := by simp [getAttribute, hs]
      by_cases hin : s ∈ K
      · have hstale : isStale K child = false := by simp [isStale, hs, hin]
        have hfound : indexOfVal (K.map Val.str) (.str s) ≠ -1 :=
          indexOfValFrom_mem _ _ (by simp [Val.beq]) 0 (List.mem_map.2 ⟨s, hin, rfl⟩)
        simp only [List.filter_cons, hstale, Bool.false_eq_true, if_false] at hnodup hsub ⊢
        simp only [removeLoop, htag, if_false, hattr, hfound]
        exact ih L tr hkeyed' hnodup hsub
      · have hstale : isStale K child = true := by simp [isStale, hs, hin, htag]
        have habsent : indexOfVal (K.map Val.str) (.str s) = -1 :=
          indexOfValFrom_str_absent s K 0 hin
        simp only [List.filter_cons, hstale, if_true, List.filterMap_cons, hs,
          List.nodup_cons, List.mem_cons, forall_eq_or_imp] at hnodup hsub ⊢
        simp only [removeLoop, htag, if_false, hattr, habsent, if_true,
          splice_indexOfVal_str s L hsub.1]
        rw [ih (L.erase s) (tr ++ [child]) hkeyed' hnodup.2
          (fun x hx => (List.mem_erase_of_ne
            (fun (h : x = s) => hnodup.1 (by rw [← h]; exact hx))).2 (hsub.2 x hx))]
        simp [List.diff_cons]

/-- Removing the marked children one by one leaves the children whose identity is not
marked. -/
theorem foldl_removeChild (tr : List Node) :
    ∀ cs : List Node, tr.foldl removeChild cs
      = cs.filter (fun x => decide (x.id ∉ tr.map (fun t => t.id))) := by
  induction tr with
  | nil => intro cs; simp
  | cons t rest ih =>
    intro cs
    simp only [List.foldl_cons, ih, removeChild, List.filter_filter]
    apply List.filter_congr
    intro x _
    simp only [List.map_cons, List.mem_cons, not_or, bne_iff_ne, ne_eq, Bool.and_eq_true,
      decide_eq_true_eq, Bool.decide_and, Bool.decide_eq_true]
    by_cases h1 : x.id = t.id <;> by_cases h2 : x.id ∈ rest.map (fun t => t.id) <;> simp [h1, h2]

/-- With pairwise distinct identities, the children marked by a test are told by their
identity. -/
theorem filter_id_not_marked (p : Node → Bool) :
    ∀ cs : List Node, (cs.map (fun x => x.id)).Nodup →
      cs.filter (fun x => decide (x.id ∉ (cs.filter p).map (fun t => t.id)))
        = cs.filter (fun x => !p x) := by
  intro cs hnodup
  apply List.filter_congr
  intro x hx
  have hiff : x.id ∈ (cs.filter p).map (fun t => t.id) ↔ p x = true := by
    constructor
    · intro hmem
      obtain ⟨y, hy, hid⟩ := List.mem_map.1 hmem
      obtain ⟨hycs, hpy⟩ := List.mem_filter.1 hy
      have hxy : y = x := List.inj_on_of_nodup_map hnodup hycs hx hid
      rw [← hxy]; exact hpy
    · intro hp
      exact List.mem_map.2 ⟨x, List.mem_filter.2 ⟨hx, hp⟩, rfl⟩
  by_cases hp : p x = true
  · simp [hiff.2 hp, hp]
  · have : x.id ∉ (cs.filter p).map (fun t => t.id) := fun h => hp (hiff.1 h)
    simp [this, hp]

/-- The keys of the stale nodes among nodes that mirror `R`. -/
theorem stale_keys_of_mirror (K : List String) :
    ∀ (M : List Node) (R : List String), M.map (fun x => x.key) = R.map some →
      (M.filter (fun x => decide (x.key ∉ K.map some))).filterMap (fun x => x.key)
        = R.filter (fun r => decide (r ∉ K)) := by
  intro M
  induction M with
  | nil =>
    intro R hR
    cases R with
    | nil => rfl
    | cons r rs => simp at hR
  | cons x xs ih =>
    intro R hR
    cases R with
    | nil => simp at hR
    | cons r rs =>
      simp only [List.map_cons, List.cons.injEq] at hR
      obtain ⟨hx, hxs⟩ := hR
      by_cases hr : r ∈ K
      · have h1 : decide (x.key ∉ K.map some) = false := by simp [hx, hr]
        have h2 : decide (r ∉ K) = false := by simp [hr]
        simp only [List.filter_cons, h1, h2, Bool.false_eq_true, if_false]
        exact ih rs hxs
      · have h1 : decide (x.key ∉ K.map some) = true := by simp [hx, hr]
        have h2 : decide (r ∉ K) = true := by simp [hr]
        simp only [List.filter_cons, h1, h2, if_true, List.filterMap_cons]
        simp only [hx, ih rs hxs]

theorem filter_kept_append (R K : List String) (hR : R.Nodup) (hK : K.Nodup) :
    (R ++ K.filter (fun k => decide (k ∉ R))).diff (R.filter (fun r => decide (r ∉ K)))
      = R.filter (fun r => decide (r ∈ K)) ++ K.filter (fun k => decide (k ∉ R)) := by
  have hnodup : (R ++ K.filter (fun k => decide (k ∉ R))).Nodup := by
    rw [List.nodup_append]
    refine ⟨hR, hK.filter _, ?_⟩
    intro x hx hx'
    simpa [hx] using (List.mem_filter.1 hx').2
  rw [hnodup.diff_eq_filter, List.filter_append]
  congr 1
  · apply List.filter_congr
    intro x hx
    simp [hx]
  · rw [List.filter_eq_self]
    intro x hx
    have hxR : x ∉ R := by simpa using (List.mem_filter.1 hx).2
    simp [hxR]

/-- On string keys a pass does what the specification describes.  Let the collection
have the pairwise distinct string keys `K`, let `renderedKeys` be the pairwise distinct
strings `R`, mirrored one to one by the key attributes of the children that are not
`TEMPLATE` elements, let the children have distinct identities, and let every template
render to one element that is not a `TEMPLATE`.  Then the pass removes exactly the
children keyed by a key of `R` that is not in `K`, keeps the others in their order,
appends one new node per key of `K` that is not in `R`, in collection order, and ends with
`renderedKeys` = (`R` filtered to `K`) followed by (`K` filtered to the keys not in `R`). -/
theorem onStateUpdate_string_keys (dom : Dom) (m : Mod) (h : Heap) (state list : Val)
    (c : BindForComponent) (R K : List String)
    (hsel : (select m h state c.data.in_ none "").1 = .ok list)
    (hK : collectionKeys h c.data list = some (K.map Val.str)) (hKnodup : K.Nodup)
    (hR : c.renderedKeys = R.map Val.str) (hRnodup : R.Nodup)
    (hmirror : (keyedNodes c.children).map (fun x => x.key) = R.map some)
    (hids : (c.children.map (fun x => x.id)).Nodup)
    (hfresh : ∀ x ∈ c.children, x.id < c.created)
    (hrender : ∀ item, ∃ tag attr, dom.renderTemplate c.template item = .ok [(tag, attr)] ∧
      tag ≠ "TEMPLATE") :
    ∃ c1 added, (onStateUpdate dom m h state c).1 = .done c1 ∧
      c1.renderedKeys = (R.filter (fun r => decide (r ∈ K))
        ++ K.filter (fun k => decide (k ∉ R))).map Val.str ∧
      c1.children = c.children.filter (fun x => !isStale K x) ++ added ∧
      added.map (fun x => x.key) = (K.filter (fun k => decide (k ∉ R))).map some ∧
      (∀ x ∈ added, x.tagName ≠ "TEMPLATE" ∧ c.created ≤ x.id) ∧
      c1.rendered.length = c.rendered.length + (K.filter (fun k => decide (k ∉ R))).length ∧
      c1.emitted = c.emitted ++ ["bindforrender"] := by
  unfold collectionKeys at hK
  cases hlen : lengthOf h list with
  | error e => simp [hlen] at hK
  | ok n =>
    simp only [hlen] at hK
    obtain ⟨c2, added, hrun, hkeys, hch, hadded, htags, haddedIds, hcreated, hlog, hem⟩ :=
      addLoop_strings dom h list c.template hrender n 0 [] c R K rfl hK hKnodup hR
    simp only [List.nil_append] at hrun
    have hlenAdded : added.length = (K.filter (fun k => decide (k ∉ R))).length := by
      have := congrArg List.length hadded
      simpa using this
    have haddedKey : ∀ x ∈ added, ∃ k, k ∈ K ∧ x.key = some k := by
      intro x hx
      have hmem : x.key ∈ added.map (fun x => x.key) := List.mem_map.2 ⟨x, hx, rfl⟩
      rw [hadded] at hmem
      obtain ⟨k, hk, hkx⟩ := List.mem_map.1 hmem
      exact ⟨k, (List.mem_filter.1 hk).1, hkx.symm⟩
    have haddedFresh : ∀ x ∈ added, c.created ≤ x.id := by
      intro x hx
      have hmem : x.id ∈ added.map (fun x => x.id) := List.mem_map.2 ⟨x, hx, rfl⟩
      rw [haddedIds] at hmem
      exact (List.mem_range'_1.1 hmem).1
    have hnotStale : ∀ x ∈ added, isStale K x = false := by
      intro x hx
      obtain ⟨k, hk, hkx⟩ := haddedKey x hx
      simp [isStale, hkx, hk]
    have hstaleAdded : added.filter (isStale K) = [] := by
      rw [List.filter_eq_nil_iff]
      intro x hx
      simp [hnotStale x hx]
    have hstaleOld : c.children.filter (isStale K)
        = (keyedNodes c.children).filter (fun x => decide (x.key ∉ K.map some)) := by
      unfold keyedNodes
      rw [List.filter_filter]
      apply List.filter_congr
      intro x _
      simp only [isStale, Bool.and_comm]
    have hS : ((c.children ++ added).filter (isStale K)).filterMap (fun x => x.key)
        = R.filter (fun r => decide (r ∉ K)) := by
      rw [List.filter_append, hstaleAdded, List.append_nil, hstaleOld,
        stale_keys_of_mirror K _ R hmirror]
    have hkeyed : ∀ x ∈ c.children ++ added, x.tagName ≠ "TEMPLATE" → ∃ s, x.key = some s := by
      intro x hx htag
      rcases List.mem_append.1 hx with hold | hnew
      · have hmem : x.key ∈ (keyedNodes c.children).map (fun x => x.key) := by
          refine List.mem_map.2 ⟨x, ?_, rfl⟩
          simp only [keyedNodes, List.mem_filter, bne_iff_ne, ne_eq]
          exact ⟨hold, htag⟩
        rw [hmirror] at hmem
        obtain ⟨s, _, hs⟩ := List.mem_map.1 hmem
        exact ⟨s, hs.symm⟩
      · obtain ⟨k, _, hkx⟩ := haddedKey x hnew
        exact ⟨k, hkx⟩
    have hloop := removeLoop_strings K (c.children ++ added)
      (R ++ K.filter (fun k => decide (k ∉ R))) [] hkeyed
      (by rw [hS]; exact hRnodup.filter _)
      (by rw [hS]; intro s hs; exact List.mem_append_left _ (List.mem_filter.1 hs).1)
    rw [hS, filter_kept_append R K hRnodup hKnodup, List.nil_append] at hloop
    have hidsAll : ((c.children ++ added).map (fun x => x.id)).Nodup := by
      rw [List.map_append, List.nodup_append]
      refine ⟨hids, by rw [haddedIds]; exact List.nodup_range' _ _, ?_⟩
      intro i hi hi'
      obtain ⟨x, hx, rfl⟩ := List.mem_map.1 hi
      rw [haddedIds] at hi'
      have := hfresh x hx
      have := (List.mem_range'_1.1 hi').1
      omega
    have hchildren : ((c.children ++ added).filter (isStale K)).foldl removeChild
        (c.children ++ added) = c.children.filter (fun x => !isStale K x) ++ added := by
      rw [foldl_removeChild, filter_id_not_marked (isStale K) _ hidsAll, List.filter_append]
      congr 1
      rw [List.filter_eq_self]
      intro x hx
      simp [hnotStale x hx]
    have hrec : reconcile dom h list c = .done
        { c2 with
          renderedKeys := (R.filter (fun r => decide (r ∈ K))
            ++ K.filter (fun k => decide (k ∉ R))).map Val.str
          children := c.children.filter (fun x => !isStale K x) ++ added
          emitted := c2.emitted ++ ["bindforrender"] } := by
      simp only [reconcile, hlen, hrun, hch, hkeys, hloop, hchildren]
    unfold onStateUpdate
    cases hs : select m h state c.data.in_ none "" with
    | mk r m1 =>
      rw [hs] at hsel
      simp only at hsel
      subst hsel
      refine ⟨{ c2 with
          renderedKeys := (R.filter (fun r => decide (r ∈ K))
            ++ K.filter (fun k => decide (k ∉ R))).map Val.str
          children := c.children.filter (fun x => !isStale K x) ++ added
          emitted := c2.emitted ++ ["bindforrender"] }, added, ?_, rfl, rfl, hadded,
        fun x hx => ⟨htags x hx, haddedFresh x hx⟩, ?_, ?_⟩
      · simp only [hrec]
      · simp only [hlog, hlenAdded]
      · simp only [hem]

/-- The example of the specification with string keys, through
`onStateUpdate_string_keys`: with `1`, `2`, `3` rendered and the collection keyed `1`, `3`,
`4`, the pass removes only the node keyed `2`, appends one node keyed `4` and ends with
`renderedKeys` = `1`, `3`, `4`. -/
theorem onStateUpdate_string_keys_example :
    ∃ c1 added,
      (onStateUpdate entityDom Mod.fresh labelledHeap numberedState labelledComponent).1
        = .done c1 ∧
      c1.renderedKeys = [.str "1", .str "3", .str "4"] ∧
      c1.children = [{ id := 0, tagName := "TEMPLATE", key := none },
                     { id := 1, tagName := "A-ENTITY", key := some "1" },
                     { id := 3, tagName := "A-ENTITY", key := some "3" }] ++ added ∧
      added.map (fun x => x.key) = [some "4"] := by
  obtain ⟨c1, added, hrun, hkeys, hch, hadded, _⟩ :=
    onStateUpdate_string_keys entityDom Mod.fresh labelledHeap numberedState (.arr 0)
      labelledComponent ["1", "2", "3"] ["1", "3", "4"] rfl rfl (by decide) rfl (by decide)
      rfl (by decide) (by decide) (fun _ => ⟨"A-ENTITY", none, rfl, by decide⟩)
  exact ⟨c1, added, hrun, hkeys.trans rfl, hch.trans rfl, hadded.trans rfl⟩

/-! ## C21: watched keys -/

theorem splitWhitespace_tokens_free :
    ∀ (cs : List Char) (inRun : Bool), ∀ t ∈ splitWhitespace inRun cs,
      ∀ c ∈ t, isWhitespace c = false := by
  intro cs
  induction cs with
  | nil => intro inRun t ht c hc; simp [splitWhitespace] at ht; subst ht; cases hc
  | cons a rest ih =>
    intro inRun t ht c hc
    by_cases ha : isWhitespace a = true
    · simp only [splitWhitespace, ha, if_true] at ht
      cases inRun with
      | true => exact ih true t (by simpa using ht) c hc
      | false =>
        simp only [Bool.false_eq_true, if_false, List.mem_cons] at ht
        rcases ht with rfl | ht
        · cases hc
        · exact ih true t ht c hc
    · have ha' : isWhitespace a = false := by simpa using ha
      simp only [splitWhitespace, ha', Bool.false_eq_true, if_false] at ht
      cases hs : splitWhitespace false rest with
      | nil =>
        rw [hs] at ht
        simp only [List.mem_singleton] at ht
        rw [ht] at hc
        simp only [List.mem_singleton] at hc
        rw [hc]; exact ha'
      | cons u us =>
        rw [hs] at ht
        simp only [List.mem_cons] at ht
        rcases ht with ht | ht
        · rw [ht] at hc
          rcases List.mem_cons.1 hc with hc | hc
          · rw [hc]; exact ha'
          · exact ih false u (by rw [hs]; exact List.mem_cons_self _ _) c hc
        · exact ih false t (by rw [hs]; exact List.mem_cons_of_mem _ ht) c hc

theorem dropWhile_free (cs : List Char) (hfree : ∀ c ∈ cs, isWhitespace c = false) :
    cs.dropWhile isWhitespace = cs := by
  cases cs with
  | nil => rfl
  | cons c rest => simp [List.dropWhile, hfree c (List.mem_cons_self _ _)]

/-- A token of `str.split(/\s+/)` holds no whitespace, so `trim` leaves it as it is. -/
theorem trim_token (str t : String) (ht : t ∈ nativeSplit str .whitespace) : trim t = t := by
  simp only [nativeSplit, List.mem_map] at ht
  obtain ⟨cs, hcs, rfl⟩ := ht
  have hfree := splitWhitespace_tokens_free str.data false cs hcs
  have hrev : ∀ c ∈ cs.reverse, isWhitespace c = false :=
    fun c hc => hfree c (List.mem_reverse.1 hc)
  simp only [trim, dropWhile_free cs hfree, dropWhile_free cs.reverse hrev, List.reverse_reverse]

/-- Where `indexOf` finds `x`: the elements before that position are not `x`. -/
theorem indexOfFrom_split {α : Type} [DecidableEq α] (x : α) :
    ∀ (l : List α) (i : Nat), x ∈ l →
      ∃ j, indexOfFrom l x i = ((i + j : Nat) : Int) ∧ x ∉ l.take j ∧
        l = l.take j ++ x :: l.drop (j + 1) := by
  intro l
  induction l with
  | nil => intro i hx; cases hx
  | cons y ys ih =>
    intro i hx
    by_cases hy : y = x
    · subst hy
      exact ⟨0, by simp [indexOfFrom], by simp, by simp⟩
    · have hx' : x ∈ ys := by
        rcases List.mem_cons.1 hx with h | h
        · exact absurd h.symm hy
        · exact h
      obtain ⟨j, hj, hfree, hsplit⟩ := ih (i + 1) hx'
      refine ⟨j + 1, ?_, ?_, ?_⟩
      · simp only [indexOfFrom, hy, if_false, hj]
        congr 1
        omega
      · simp only [List.take_succ_cons, List.mem_cons, not_or]
        exact ⟨fun h => hy h.symm, hfree⟩
      · simp only [List.take_succ_cons, List.drop_succ_cons, List.cons_append]
        rw [← hsplit]

/-- What `parseKeyToWatch` returns for a string without whitespace at its ends: the first
dotted segment of the string without its leading negation. -/
theorem parseKeyToWatch_eq_topLevelKey (t : String) (htrim : trim t = t) :
    parseKeyToWatch t = topLevelKey t := by
  unfold parseKeyToWatch topLevelKey
  simp only [htrim, nativeSplit]
  by_cases hdot : '.' ∈ (stripNot t).data
  · obtain ⟨j, hj, hfree, hsplit⟩ := indexOfFrom_split '.' (stripNot t).data 0 hdot
    have hidx : indexOf (stripNot t).data '.' = ((0 + j : Nat) : Int) := hj
    have hne : ¬ indexOf (stripNot t).data '.' = -1 := by rw [hidx]; omega
    have hnat : (indexOf (stripNot t).data '.').toNat = j := by rw [hidx]; omega
    simp only [hne, if_false, hnat]
    conv_rhs => rw [hsplit, splitChar_append '.' _ _ hfree]
    rfl
  · have hidx : indexOf (stripNot t).data '.' = -1 := (indexOf_eq_neg_one_iff _ _).2 hdot
    simp only [hidx, if_true, splitChar_free '.' _ hdot]
    rfl

/-- The key `parseKeyToWatch` returns holds no dot. -/
theorem parseKeyToWatch_dot_free (t : String) : '.' ∉ (parseKeyToWatch t).data := by
  unfold parseKeyToWatch
  simp only
  by_cases hdot : '.' ∈ (stripNot (trim t)).data
  · obtain ⟨j, hj, hfree, _⟩ := indexOfFrom_split '.' (stripNot (trim t)).data 0 hdot
    have hidx : indexOf (stripNot (trim t)).data '.' = ((0 + j : Nat) : Int) := hj
    have hne : ¬ indexOf (stripNot (trim t)).data '.' = -1 := by rw [hidx]; omega
    have hnat : (indexOf (stripNot (trim t)).data '.').toNat = j := by rw [hidx]; omega
    simp only [hne, if_false, hnat]
    exact hfree
  · have hidx : indexOf (stripNot (trim t)).data '.' = -1 := (indexOf_eq_neg_one_iff _ _).2 hdot
    simp only [hidx, if_true]
    exact hdot

/-- The keys `parseKeysToWatch` pushes hold no dot. -/
theorem parseKeysLoop_dot_free :
    ∀ (tokens keys : List String), (∀ k ∈ keys, '.' ∉ k.data) →
      ∀ k ∈ parseKeysLoop keys tokens, '.' ∉ k.data := by
  intro tokens
  induction tokens with
  | nil => intro keys hkeys k hk; exact hkeys k hk
  | cons t rest ih =>
    intro keys hkeys k hk
    simp only [parseKeysLoop] at hk
    split at hk
    · refine ih (keys ++ [parseKeyToWatch t]) ?_ k hk
      intro x hx
      rcases List.mem_append.1 hx with hx | hx
      · exact hkeys x hx
      · rw [List.mem_singleton.1 hx]; exact parseKeyToWatch_dot_free t
    · exact ih keys hkeys k hk

theorem parseKeyToWatch_head (t : String)
    (hbang : (stripNot (trim t)).data.head? ≠ some '!') :
    (parseKeyToWatch t).data.head? ≠ some '!' := by
  unfold parseKeyToWatch
  simp only
  split
  · exact hbang
  · cases hl : (stripNot (trim t)).data with
    | nil => simp
    | cons c cs =>
      rw [hl] at hbang
      cases (indexOf (c :: cs) '.').toNat with
      | zero => simp
      | succ j => simpa using hbang

/-- A key without dot and without leading `!` is its own watched key. -/
theorem parseKeyToWatch_plain (t : String) (htrim : trim t = t) (hdot : '.' ∉ t.data)
    (hbang : t.data.head? ≠ some '!') : parseKeyToWatch t = t := by
  unfold parseKeyToWatch
  simp only [htrim, stripNot_plain t hbang, (indexOf_eq_neg_one_iff _ _).2 hdot, if_true]

/-- The loop of `parseKeysToWatch` on tokens none of which keeps a leading `!` once its
negation is stripped: the keys already there stay, and the key of every path token ends
up among the keys. -/
theorem parseKeysLoop_covers :
    ∀ (tokens keys : List String), (∀ t ∈ tokens, trim t = t) →
      (∀ t ∈ tokens, isPathToken t = true → (stripNot t).data.head? ≠ some '!') →
      (∀ k ∈ keys, '.' ∉ k.data ∧ k.data.head? ≠ some '!') →
      (∀ k ∈ keys, k ∈ parseKeysLoop keys tokens) ∧
        (∀ t ∈ tokens, isPathToken t = true → parseKeyToWatch t ∈ parseKeysLoop keys tokens) := by
  intro tokens
  induction tokens with
  | nil => intro keys _ _ _; exact ⟨fun k hk => hk, fun t ht => by cases ht⟩
  | cons t rest ih =>
    intro keys htrim hbang hkeys
    have htrim' : ∀ x ∈ rest, trim x = x := fun x hx => htrim x (List.mem_cons_of_mem _ hx)
    have hbang' : ∀ x ∈ rest, isPathToken x = true → (stripNot x).data.head? ≠ some '!' :=
      fun x hx => hbang x (List.mem_cons_of_mem _ hx)
    have ht := htrim t (List.mem_cons_self _ _)
    by_cases hpath : isPathToken t = true
    · by_cases hin : t ∈ keys
      · -- the token itself is among the keys: it is skipped, and is its own key
        have hidx : ¬ indexOf keys t = -1 := (indexOf_ne_neg_one_iff _ _).2 hin
        have hskip : parseKeysLoop keys (t :: rest) = parseKeysLoop keys rest := by
          simp [parseKeysLoop, hidx]
        obtain ⟨h1, h2⟩ := ih keys htrim' hbang' hkeys
        rw [hskip]
        refine ⟨h1, ?_⟩
        intro x hx hxpath
        rcases List.mem_cons.1 hx with rfl | hx
        · rw [parseKeyToWatch_plain x ht (hkeys x hin).1 (hkeys x hin).2]
          exact h1 x hin
        · exact h2 x hx hxpath
      · have hidx : indexOf keys t = -1 := (indexOf_eq_neg_one_iff _ _).2 hin
        have hpush : parseKeysLoop keys (t :: rest)
            = parseKeysLoop (keys ++ [parseKeyToWatch t]) rest := by
          unfold isPathToken at hpath
          simp only [parseKeysLoop, hpath, hidx, decide_True, Bool.and_self, if_true]
        have hkeys' : ∀ k ∈ keys ++ [parseKeyToWatch t],
            '.' ∉ k.data ∧ k.data.head? ≠ some '!' := by
          intro k hk
          rcases List.mem_append.1 hk with hk | hk
          · exact hkeys k hk
          · rw [List.mem_singleton.1 hk]
            refine ⟨parseKeyToWatch_dot_free t, parseKeyToWatch_head t ?_⟩
            rw [ht]
            exact hbang t (List.mem_cons_self _ _) hpath
        obtain ⟨h1, h2⟩ := ih (keys ++ [parseKeyToWatch t]) htrim' hbang' hkeys'
        rw [hpush]
        refine ⟨fun k hk => h1 k (List.mem_append_left _ hk), ?_⟩
        intro x hx hxpath
        rcases List.mem_cons.1 hx with rfl | hx
        · exact h1 _ (List.mem_append_right _ (List.mem_singleton.2 rfl))
        · exact h2 x hx hxpath
    · have hskip : parseKeysLoop keys (t :: rest) = parseKeysLoop keys rest := by
        unfold isPathToken at hpath
        simp only [parseKeysLoop]
        rw [if_neg]
        intro hcond
        apply hpath
        simp only [Bool.and_eq_true] at hcond ⊢
        exact hcond.1
      obtain ⟨h1, h2⟩ := ih keys htrim' hbang' hkeys
      rw [hskip]
      refine ⟨h1, ?_⟩
      intro x hx hxpath
      rcases List.mem_cons.1 hx with rfl | hx
      · exact absurd hxpath hpath
      · exact h2 x hx hxpath

/-- Where no token keeps a leading `!` once its negation is stripped (no token starts with
`!!!`), `parseKeysToWatch` on an empty list collects the top-level key of every path token
of the selector, and every key it collects is free of dots. -/
theorem parseKeysToWatch_covers (str : String)
    (hbang : ∀ t ∈ nativeSplit str .whitespace, isPathToken t = true →
      (stripNot t).data.head? ≠ some '!') :
    (∀ t ∈ nativeSplit str .whitespace, isPathToken t = true →
      topLevelKey t ∈ parseKeysToWatch [] str) ∧
    (∀ k ∈ parseKeysToWatch [] str, '.' ∉ k.data) := by
  have htrim : ∀ t ∈ nativeSplit str .whitespace, trim t = t := fun t ht => trim_token str t ht
  refine ⟨?_, parseKeysLoop_dot_free _ [] (fun k hk => by cases hk)⟩
  intro t ht hpath
  rw [← parseKeyToWatch_eq_topLevelKey t (htrim t ht)]
  exact (parseKeysLoop_covers _ [] htrim hbang (fun k hk => by cases hk)).2 t ht hpath

/-- C21 (defect of the code): the test that skips a token compares the token itself, not
its key, with the keys collected so far.  For the selector `!!!a || !a` the token `!!!a`
gives the key `!a` (one `!!` is stripped); the path token `!a`, whose top-level key is
`a`, is then found among the keys and skipped.  The list ends as `!a` alone: `a` is not
watched, although the value of the selector changes with `a`.  Every key collected is free
of dots, for every selector and every list of dot-free keys to start from. -/
theorem parseKeysToWatch_misses_key_of_negated_token :
    parseKeysToWatch [] "!!!a || !a" = ["!a"] ∧
    "!a" ∈ nativeSplit "!!!a || !a" .whitespace ∧ isPathToken "!a" = true ∧
    topLevelKey "!a" = "a" ∧ "a" ∉ parseKeysToWatch [] "!!!a || !a" ∧
    (select Mod.fresh [] (.obj [("a", .bool false)]) "!!!a || !a" none "").1
      = .ok (.bool true) ∧
    (select Mod.fresh [] (.obj [("a", .bool true)]) "!!!a || !a" none "").1
      = .ok (.bool false) ∧
    (∀ (keys : List String) (str : String), (∀ k ∈ keys, '.' ∉ k.data) →
      ∀ k ∈ parseKeysToWatch keys str, '.' ∉ k.data) :=
  ⟨by decide, by decide, by decide, by decide, by decide, rfl, rfl,
    fun keys str hkeys => parseKeysLoop_dot_free _ keys hkeys⟩

/-- An example for `parseKeysToWatch_covers`: the selector `a.b == 'x' && !!c.d || !e`
has the path tokens `a.b`, `!!c.d` and `!e`; the keys collected are `a`, `c` and `e`. -/
theorem parseKeysToWatch_covers_example :
    parseKeysToWatch [] "a.b == 'x' && !!c.d || !e" = ["a", "c", "e"] ∧
    (∀ t ∈ nativeSplit "a.b == 'x' && !!c.d || !e" .whitespace, isPathToken t = true →
      topLevelKey t ∈ parseKeysToWatch [] "a.b == 'x' && !!c.d || !e") :=
  ⟨by decide, (parseKeysToWatch_covers "a.b == 'x' && !!c.d || !e" (by decide)).1⟩

/-! ## The cache and the scratch arrays -/

theorem split_tokenArray (m : Mod) (str : String) (d : Delimiter) :
    (split m str d).2.tokenArray = m.tokenArray := by
  unfold split
  simp only
  split <;> rfl

/-- Without iteration context: two sound caches give the same result, and the call keeps
the cache sound and the token array as it is. -/
theorem selectPlain_cache (m1 m2 : Mod) (h : Heap) (state selector : Val)
    (hc1 : CacheOk m1) (hc2 : CacheOk m2) :
    (selectPlain m1 h state selector).1 = (selectPlain m2 h state selector).1 ∧
      CacheOk (selectPlain m1 h state selector).2 ∧
      (selectPlain m1 h state selector).2.tokenArray = m1.tokenArray := by
  cases selector with
  | str sel =>
    obtain ⟨h1, hk1, ht1⟩ := selectPlain_of_cacheOk m1 h state sel hc1
    obtain ⟨h2, _, _⟩ := selectPlain_of_cacheOk m2 h state sel hc2
    exact ⟨h1.trans h2.symm, hk1, ht1⟩
  | undefined => exact ⟨rfl, hc1, rfl⟩
  | null => exact ⟨rfl, hc1, rfl⟩
  | bool b => exact ⟨rfl, hc1, rfl⟩
  | num n => exact ⟨rfl, hc1, rfl⟩
  | arr r => exact ⟨rfl, hc1, rfl⟩
  | obj fs => exact ⟨rfl, hc1, rfl⟩

theorem findItem_cache (h : Heap) (bindFor : BindFor) (bindForKey : String)
    (originalSelector : Option String) (value : Val) :
    ∀ (n i : Nat) (m1 m2 : Mod), CacheOk m1 → CacheOk m2 →
      (findItem m1 h bindFor bindForKey originalSelector value n i).1
        = (findItem m2 h bindFor bindForKey originalSelector value n i).1 ∧
      CacheOk (findItem m1 h bindFor bindForKey originalSelector value n i).2 ∧
      (findItem m1 h bindFor bindForKey originalSelector value n i).2.tokenArray
        = m1.tokenArray := by
  intro n
  induction n with
  | zero => intro i m1 m2 hc1 _; exact ⟨rfl, hc1, rfl⟩
  | succ n ih =>
    intro i m1 m2 hc1 hc2
    simp only [findItem]
    cases getProp h value (toString i) with
    | error e => exact ⟨rfl, hc1, rfl⟩
    | ok item =>
      simp only
      cases getProp h item bindFor.key with
      | error e => exact ⟨rfl, hc1, rfl⟩
      | ok k =>
        simp only
        by_cases hk : k.beq (.str bindForKey) = true
        · simp only [hk, if_true]
          cases originalSelector with
          | none => exact ⟨rfl, hc1, rfl⟩
          | some original => exact selectPlain_cache m1 m2 h item _ hc1 hc2
        · simp only [hk, Bool.false_eq_true, if_false]
          exact ih (i + 1) m1 m2 hc1 hc2

theorem selectProperty_cache (m1 m2 : Mod) (h : Heap) (state selector : Val)
    (bindFor : Option BindFor) (bindForKey : String) (hc1 : CacheOk m1) (hc2 : CacheOk m2) :
    (selectProperty m1 h state selector bindFor bindForKey).1
      = (selectProperty m2 h state selector bindFor bindForKey).1 ∧
      CacheOk (selectProperty m1 h state selector bindFor bindForKey).2 ∧
      (selectProperty m1 h state selector bindFor bindForKey).2.tokenArray = m1.tokenArray := by
  cases bindFor with
  | none => exact selectPlain_cache m1 m2 h state selector hc1 hc2
  | some bf =>
    cases selector with
    | str sel =>
      simp only [selectProperty]
      generalize (if startsWith bf.for_.data sel.data = true then bf.in_ else sel) = sel1
      generalize (if startsWith bf.for_.data sel.data = true then some sel else none) = os
      obtain ⟨hs1, hk1, _⟩ := split_of_cacheOk m1 (stripNot sel1) (.char '.') hc1
      obtain ⟨hs2, hk2, _⟩ := split_of_cacheOk m2 (stripNot sel1) (.char '.') hc2
      have ht1 := split_tokenArray m1 (stripNot sel1) (.char '.')
      generalize split m1 (stripNot sel1) (.char '.') = r1 at hs1 hk1 ht1 ⊢
      generalize split m2 (stripNot sel1) (.char '.') = r2 at hs2 hk2 ⊢
      obtain ⟨t1, ma⟩ := r1
      obtain ⟨t2, mb⟩ := r2
      simp only at hs1 hs2 hk1 hk2 ht1
      subst hs1 hs2
      simp only [walk_fst]
      generalize (walk h _ _ state ma.console).2 = ca
      generalize (walk h _ _ state mb.console).2 = cb
      cases walkValue h (nativeSplit (stripNot sel1) (.char '.')) state with
      | error e => exact ⟨rfl, hk1, ht1⟩
      | ok value =>
        simp only
        by_cases hkey : bf.key = ""
        · simp only [hkey, if_true]
          exact ⟨trivial, hk1, ht1⟩
        · simp only [hkey, if_false]
          cases lengthOf h value with
          | error e => exact ⟨rfl, hk1, ht1⟩
          | ok n =>
            simp only
            have key := findItem_cache h bf bindForKey os value n 0
              { ma with console := ca } { mb with console := cb } hk1 hk2
            rcases hfa : findItem { ma with console := ca } h bf bindForKey os value n 0
              with ⟨ra, ma1⟩
            rcases hfb : findItem { mb with console := cb } h bf bindForKey os value n 0
              with ⟨rb, mb1⟩
            rw [hfa, hfb] at key
            simp only at key
            obtain ⟨hres, hcache, htok⟩ := key
            subst hres
            cases ra with
            | error e => exact ⟨rfl, hcache, htok.trans ht1⟩
            | ok v => exact ⟨rfl, hcache, htok.trans ht1⟩
    | undefined => exact ⟨rfl, hc1, rfl⟩
    | null => exact ⟨rfl, hc1, rfl⟩
    | bool b => exact ⟨rfl, hc1, rfl⟩
    | num n => exact ⟨rfl, hc1, rfl⟩
    | arr r => exact ⟨rfl, hc1, rfl⟩
    | obj fs => exact ⟨rfl, hc1, rfl⟩

/-- The step both loops of `select` share: `selectProperty` without iteration context on
two sound module states whose token arrays agree. -/
theorem selectProperty_pair (m1 m2 : Mod) (h : Heap) (state selector : Val)
    (bindFor : Option BindFor) (bindForKey : String)
    (hc1 : CacheOk m1) (hc2 : CacheOk m2) (htok : m1.tokenArray = m2.tokenArray) :
    ∃ r ma mb, selectProperty m1 h state selector bindFor bindForKey = (r, ma) ∧
      selectProperty m2 h state selector bindFor bindForKey = (r, mb) ∧
      CacheOk ma ∧ CacheOk mb ∧ ma.tokenArray = mb.tokenArray ∧
      ma.tokenArray = m1.tokenArray := by
  obtain ⟨hres, hk1, ht1⟩ := selectProperty_cache m1 m2 h state selector bindFor bindForKey hc1 hc2
  obtain ⟨_, hk2, ht2⟩ := selectProperty_cache m2 m1 h state selector bindFor bindForKey hc2 hc1
  rcases ha : selectProperty m1 h state selector bindFor bindForKey with ⟨ra, ma⟩
  rcases hb : selectProperty m2 h state selector bindFor bindForKey with ⟨rb, mb⟩
  rw [ha] at hres hk1 ht1
  rw [hb] at hres hk2 ht2
  simp only at hres hk1 ht1 hk2 ht2
  subst hres
  exact ⟨ra, ma, mb, rfl, rfl, hk1, hk2, by rw [ht1, ht2, htok], ht1⟩

theorem comparisonPass_cache (h : Heap) (state : Val) :
    ∀ (n : Nat) (toks : List String) (m1 m2 : Mod), toks.length ≤ n →
      CacheOk m1 → CacheOk m2 → m1.tokenArray = m2.tokenArray →
      (comparisonPass h state toks m1).1 = (comparisonPass h state toks m2).1 ∧
        CacheOk (comparisonPass h state toks m1).2 ∧
        CacheOk (comparisonPass h state toks m2).2 ∧
        (comparisonPass h state toks m1).2.tokenArray
          = (comparisonPass h state toks m2).2.tokenArray := by
  intro n
  induction n with
  | zero =>
    intro toks m1 m2 hlen hc1 hc2 htok
    have hnil : toks = [] := List.length_eq_zero.mp (Nat.le_zero.mp hlen)
    subst hnil
    exact ⟨rfl, hc1, hc2, htok⟩
  | succ n ih =>
    intro toks m1 m2 hlen hc1 hc2 htok
    have hpop1 : (popToken m1).1 = (popToken m2).1 := by simp only [popToken, htok]
    have hpop2 : (popToken m1).2.tokenArray = (popToken m2).2.tokenArray := by
      simp only [popToken, htok]
    have hpc1 : CacheOk (popToken m1).2 := hc1
    have hpc2 : CacheOk (popToken m2).2 := hc2
    obtain ⟨r, ma, mb, ha, hb, hka, hkb, htab, _⟩ :=
      selectProperty_pair (popToken m1).2 (popToken m2).2 h state (popToken m1).1 none ""
        hpc1 hpc2 hpop2
    rw [hpop1] at ha hb
    match toks, hlen with
    | [], _ => exact ⟨rfl, hc1, hc2, htok⟩
    | [tok], _ =>
      simp only [comparisonPass]
      by_cases hcmp : indexOf COMPARISONS tok = -1
      · simp only [hcmp, if_true]
        exact ⟨trivial, hc1, hc2, by simp only [pushToken, htok]⟩
      · simp only [hcmp, if_false, hpop1, ha, hb]
        cases r with
        | error e => exact ⟨rfl, hka, hkb, htab⟩
        | ok v => exact ⟨rfl, hka, hkb, htab⟩
    | tok :: lit :: rest, hlen =>
      simp only [comparisonPass]
      by_cases hcmp : indexOf COMPARISONS tok = -1
      · simp only [hcmp, if_true]
        exact ih (lit :: rest) (pushToken m1 (.str tok)) (pushToken m2 (.str tok))
          (by simp only [List.length_cons] at hlen ⊢; omega) hc1 hc2
          (by simp only [pushToken, htok])
      · simp only [hcmp, if_false, hpop1, ha, hb]
        cases r with
        | error e => exact ⟨rfl, hka, hkb, htab⟩
        | ok v =>
          simp only
          exact ih rest (pushToken ma _) (pushToken mb _)
            (by simp only [List.length_cons] at hlen; omega) hka hkb
            (by simp only [pushToken, htab])

theorem booleanPass_cache (h : Heap) (state : Val) :
    ∀ (n : Nat) (toks : List Val) (i : Nat) (runningBool : Val) (m1 m2 : Mod),
      toks.length ≤ n → CacheOk m1 → CacheOk m2 → m1.tokenArray = m2.tokenArray →
      (booleanPass h state toks i runningBool m1).1
          = (booleanPass h state toks i runningBool m2).1 ∧
        CacheOk (booleanPass h state toks i runningBool m1).2 ∧
        CacheOk (booleanPass h state toks i runningBool m2).2 := by
  intro n
  induction n with
  | zero =>
    intro toks i rb m1 m2 hlen hc1 hc2 _
    have hnil : toks = [] := List.length_eq_zero.mp (Nat.le_zero.mp hlen)
    subst hnil
    exact ⟨rfl, hc1, hc2⟩
  | succ n ih =>
    intro toks i rb m1 m2 hlen hc1 hc2 htok
    match toks, hlen with
    | [], _ => exact ⟨rfl, hc1, hc2⟩
    | [op], _ =>
      simp only [booleanPass]
      split
      · exact ⟨rfl, hc1, hc2⟩
      · exact ⟨rfl, hc1, hc2⟩
    | op :: operand :: rest, hlen =>
      have hlen' : rest.length ≤ n := by simp only [List.length_cons] at hlen; omega
      simp only [booleanPass]
      by_cases hop : (!(op.beq (.str OR)) && !(op.beq (.str AND))) = true
      · simp only [hop, if_true]
        exact ih rest (i + 2) rb m1 m2 hlen' hc1 hc2 htok
      · simp only [hop, Bool.false_eq_true, if_false]
        by_cases hb : operand.isBoolean = true
        · simp only [hb, if_true]
          exact ih rest (i + 2) _ _ _ hlen' hc1 hc2 (by simp only [htok])
        · simp only [hb, Bool.false_eq_true, if_false]
          obtain ⟨r, ma, mb, ha, hbq, hka, hkb, htab, _⟩ :=
            selectProperty_pair m1 m2 h state operand none "" hc1 hc2 htok
          simp only [ha, hbq]
          cases r with
          | error e => exact ⟨rfl, hka, hkb⟩
          | ok v =>
            simp only
            exact ih rest (i + 2) _ _ _ hlen' hka hkb (by simp only [htab])

/-- Two module states with sound caches give `select` the same result, whatever their
scratch token arrays hold, and `select` leaves the cache sound. -/
theorem select_cache (m1 m2 : Mod) (h : Heap) (state : Val) (selector : String)
    (bindFor : Option BindFor) (bindForKey : String) (hc1 : CacheOk m1) (hc2 : CacheOk m2) :
    (select m1 h state selector bindFor bindForKey).1
      = (select m2 h state selector bindFor bindForKey).1 ∧
      CacheOk (select m1 h state selector bindFor bindForKey).2 ∧
      CacheOk (select m2 h state selector bindFor bindForKey).2 := by
  obtain ⟨hs1, hk1, _⟩ := split_of_cacheOk m1 selector .whitespace hc1
  obtain ⟨hs2, hk2, _⟩ := split_of_cacheOk m2 selector .whitespace hc2
  unfold select
  simp only
  generalize split m1 selector .whitespace = r1 at hs1 hk1 ⊢
  generalize split m2 selector .whitespace = r2 at hs2 hk2 ⊢
  obtain ⟨t1, ma⟩ := r1
  obtain ⟨t2, mb⟩ := r2
  simp only at hs1 hs2 hk1 hk2
  subst hs1 hs2
  simp only
  by_cases hone : (nativeSplit selector .whitespace).length = 1
  · simp only [hone, if_true]
    obtain ⟨hres, hka, _⟩ :=
      selectProperty_cache ma mb h state (.str selector) bindFor bindForKey hk1 hk2
    obtain ⟨_, hkb, _⟩ :=
      selectProperty_cache mb ma h state (.str selector) bindFor bindForKey hk2 hk1
    exact ⟨hres, hka, hkb⟩
  · simp only [hone, if_false]
    have hcmp := comparisonPass_cache h state _ (nativeSplit selector .whitespace)
      { ma with tokenArray := []
                tempTokenArray := copyArray ma.tempTokenArray
                  ((nativeSplit selector .whitespace).map Val.str) }
      { mb with tokenArray := []
                tempTokenArray := copyArray mb.tempTokenArray
                  ((nativeSplit selector .whitespace).map Val.str) }
      (Nat.le_refl _) hk1 hk2 rfl
    rcases hpa : comparisonPass h state (nativeSplit selector .whitespace)
      { ma with tokenArray := []
                tempTokenArray := copyArray ma.tempTokenArray
                  ((nativeSplit selector .whitespace).map Val.str) } with ⟨oa, m3a⟩
    rcases hpb : comparisonPass h state (nativeSplit selector .whitespace)
      { mb with tokenArray := []
                tempTokenArray := copyArray mb.tempTokenArray
                  ((nativeSplit selector .whitespace).map Val.str) } with ⟨ob, m3b⟩
    rw [hpa, hpb] at hcmp
    simp only at hcmp
    obtain ⟨ho, hk3a, hk3b, ht3⟩ := hcmp
    subst ho
    cases oa with
    | some e => exact ⟨rfl, hk3a, hk3b⟩
    | none =>
      simp only
      rw [← ht3]
      cases htoks : m3a.tokenArray with
      | nil => exact ⟨rfl, hk3a, hk3b⟩
      | cons t rest =>
        cases rest with
        | nil => exact ⟨rfl, hk3a, hk3b⟩
        | cons u rest' =>
          simp only
          by_cases hb : t.isBoolean = true
          · simp only [hb, if_true]
            exact booleanPass_cache h state _ (u :: rest') 1 t m3a m3b (Nat.le_refl _)
              hk3a hk3b ht3
          · simp only [hb, Bool.false_eq_true, if_false]
            obtain ⟨r, m4a, m4b, ha, hbq, hk4a, hk4b, ht4, _⟩ :=
              selectProperty_pair m3a m3b h state t bindFor bindForKey hk3a hk3b ht3
            simp only [ha, hbq]
            cases r with
            | error e => exact ⟨rfl, hk4a, hk4b⟩
            | ok v =>
              simp only
              exact booleanPass_cache h state _ (u :: rest') 1 v m4a m4b (Nat.le_refl _)
                hk4a hk4b ht4

/-- Every sequence of calls leaves a cache whose entries are true splits. -/
theorem runCalls_cacheOk (calls : List Call) :
    ∀ m : Mod, CacheOk m → CacheOk (runCalls m calls) := by
  induction calls with
  | nil => intro m hm; exact hm
  | cons c rest ih =>
    intro m hm
    simp only [runCalls, List.foldl_cons]
    refine ih _ ?_
    cases c with
    | split str d => exact (split_of_cacheOk m str d hm).2.1
    | select h state selector bindFor bindForKey =>
      exact (select_cache m m h state selector bindFor bindForKey hm hm).2.1

/-- Earlier calls do not change what the cached split and `select` answer.  After any
sequence of earlier calls of the cached split and of `select`, starting from the module as
loaded, the cached `split(str, delimiter)` returns the tokens of the uncached
`str.split(delimiter)`, for every string that is not the name of a member of
`Object.prototype` and every delimiter the module uses; and `select(state, selector,
bindFor, bindForKey)` returns (or throws) what it returns on the module as loaded, for
every state, selector and iteration context.  For the names of `Object.prototype` the
source finds the inherited member in the cache object, on the module as loaded as after
any call, where the embedding, which reads the cache by its own entries, finds nothing. -/
theorem select_independent_of_earlier_calls (calls : List Call) :
    (∀ (str : String) (delimiter : Delimiter), str ∉ objectPrototypeNames →
      (split (runCalls Mod.fresh calls) str delimiter).1 = nativeSplit str delimiter) ∧
    (∀ (h : Heap) (state : Val) (selector : String) (bindFor : Option BindFor)
        (bindForKey : String),
      (select (runCalls Mod.fresh calls) h state selector bindFor bindForKey).1
        = (select Mod.fresh h state selector bindFor bindForKey).1) :=
  ⟨fun str delimiter _ =>
      (split_of_cacheOk _ str delimiter (runCalls_cacheOk calls Mod.fresh cacheOk_fresh)).1,
    fun h state selector bindFor bindForKey =>
      (select_cache _ Mod.fresh h state selector bindFor bindForKey
        (runCalls_cacheOk calls Mod.fresh cacheOk_fresh) cacheOk_fresh).1⟩

/-- C17 (defect of the code): with numeric keys a pass over a permuted collection removes
every node.  The keys 3, 1, 4 are rendered, each by one node tagged with it, and the
collection is keyed 1, 3, 4, a permutation of them.  The pass renders no item, as claimed,
but then removes the three nodes and empties `renderedKeys`: the attribute of a node is the
string of its key, which `keys.indexOf` does not find among the numbers. -/
theorem onStateUpdate_numeric_keys_permuted_removes_all_nodes :
    collectionKeys numberedHeap reorderedComponent.data (.arr 0)
      = some [.num 1, .num 3, .num 4] ∧
    List.Perm [Val.num 1, .num 3, .num 4] reorderedComponent.renderedKeys ∧
    (keyedNodes reorderedComponent.children).map (fun child => child.key)
      = [some "3", some "1", some "4"] ∧
    (onStateUpdate entityDom Mod.fresh numberedHeap numberedState reorderedComponent).1
      = .done { reorderedComponent with
          renderedKeys := []
          children := [{ id := 0, tagName := "TEMPLATE", key := none }]
          emitted := ["bindforrender"] } :=
  ⟨rfl, (List.Perm.swap _ _ _), rfl, rfl⟩

/-- C6 (defect of the code): a subscribed list-bound observer whose array is dirty is not
notified.  Observers A and L are subscribed in this order, L is a `bind-for` observer
watching the array `items`, which `init` has flagged dirty, and `increment` changes
`count`, which A watches.  The callback of A unsubscribes A.  The loop then finds the list
one shorter at the next index and ends: L, still subscribed and with its array dirty when
the loop starts and when it ends, is not called in this dispatch; the dispatch then clears
the flag, so that the next dispatch finds the array clean. -/
theorem dispatch_skips_dirty_bindfor_observer :
    shouldNotify (beforeNotify detachingEnv listWorld "increment" .null).result.store observerL
      = .ok true ∧
    (notifyLoop detachingEnv 3 0
        (beforeNotify detachingEnv listWorld "increment" .null).result).map
      (fun out => (out.returned, out.result.calls, out.result.store.subscriptions,
        shouldNotify out.result.store observerL)) =
      some (true, [observerA], [observerL], .ok true) ∧
    (dispatch detachingEnv 3 listWorld "increment" .null).map
        (fun out => (out.returned, out.result.calls, out.result.store.subscriptions,
          shouldNotify out.result.store observerL)) =
      some (true, [observerA], [observerL], .ok false) :=
  ⟨rfl, rfl, rfl⟩

/-- C8 (counterexample): the handler table `{increment: ...}` has no entry named
`toString`, yet `dispatch('toString')` does not fail.  The read `State.handlers['toString']`
finds the function the table inherits from `Object.prototype`; the call returns, and the
dispatch runs to its end: the list-bound observer L, whose array is dirty, is notified,
the dirty flag is cleared and `stateupdate` is emitted. -/
theorem dispatch_inherited_action_returns :
    (lookupKey "toString" plainTable).isSome = false ∧
    (dispatch plainTableEnv 3 listWorld "toString" .null).map
        (fun out => (out.returned, out.result.calls,
          out.result.emitted.map (fun e => (e.name, e.action)),
          isDirty listWorld.store.heap 0, isDirty out.result.store.heap 0)) =
      some (true, [observerL], [("stateupdate", "toString")], true, false) :=
  ⟨rfl, rfl⟩

/-- The test for list-bound observers, at the level of a dispatch.  In a dispatch in which
neither the handler nor the hook changes the subscription list, whose handler phase
completes, and whose observer callbacks only touch the view, the dispatch ends, and a
subscribed `bind-for` observer whose first watched key holds an array is called exactly
when that array is flagged dirty, whatever the changed-key set holds. -/
theorem dispatch_calls_bindfor_iff_dirty (env : Env) (fuel : Nat) (w w1 : World)
    (actionName : String) (payload : Val) (sub : Observer) (key : String) (r : Nat)
    (hhandler : ∀ handler, env.handlers actionName = some handler →
      ∀ s q, (handler s q).result.subscriptions = s.subscriptions)
    (hcompute : ∀ s b q, (env.computeState s b q).result.subscriptions = s.subscriptions)
    (hview : ∀ o s, env.onStateUpdate o s = .done s)
    (hfuel : w.store.subscriptions.length < fuel)
    (hpre : beforeNotify env w actionName payload = .done w1)
    (hpred : ∀ o ∈ w.store.subscriptions, ∃ b, shouldNotify w1.store o = .ok b)
    (hcalls : w.calls = [])
    (hsub : sub ∈ w.store.subscriptions)
    (hname : sub.name = "bind-for")
    (hkey : sub.keysToWatch.head? = some key)
    (harr : getProp w1.store.heap w1.store.state key = .ok (.arr r)) :
    ∃ out, dispatch env fuel w actionName payload = some out ∧
      (sub ∈ out.result.calls ↔ isDirty w1.store.heap r = true) := by
  obtain ⟨hsubs, hcalls1, _⟩ :=
    beforeNotify_frame env w w1 actionName payload hhandler hcompute hpre
  have hloop : notifyLoop env fuel 0 w1 = some (notifyInOrder env w.store.subscriptions w1) :=
    notifyLoop_eq_notifyInOrder env (fun o s => by rw [hview o s]; rfl) w.store.subscriptions
      [] w1 fuel (by simpa using hsubs) hfuel
  have hin := notifyInOrder_view_only env hview w.store.subscriptions w1 hpred
  have hshould : shouldNotify w1.store sub = .ok (isDirty w1.store.heap r) := by
    simp [shouldNotify, hname, hkey, harr, getProp_dirty_arr, isDirty]
  have hholds : predicateHolds w1.store sub = isDirty w1.store.heap r := by
    unfold predicateHolds
    rw [hshould]
    cases isDirty w1.store.heap r <;> rfl
  refine ⟨afterNotify env
    { w1 with calls := w1.calls ++ (w.store.subscriptions.filter (predicateHolds w1.store)) }
    actionName payload, ?_, ?_⟩
  · simp [dispatch, hpre, hloop, hin]
  · rw [afterNotify_calls]
    simp only [hcalls1, hcalls, List.nil_append, List.mem_filter, hholds]
    exact ⟨fun hx => hx.2, fun hx => ⟨hsub, hx⟩⟩

/-- Example of `dispatch_calls_bindfor_iff_dirty`: right after `init`, with observers A
and L subscribed and callbacks that only touch the view, `noop` leaves the changed-key
set empty, and L is called, its array being dirty. -/
theorem dispatch_calls_bindfor_iff_dirty_example :
    ∃ out, dispatch counterEnv 3 listWorld "noop" .null = some out ∧
      (observerL ∈ out.result.calls ↔ isDirty listWorld.store.heap 0 = true) :=
  dispatch_calls_bindfor_iff_dirty counterEnv 3 listWorld listWorld "noop" .null observerL
    "items" 0
    (by
      intro handler hh s q
      have : handler = (fun s _ => .done s) := by
        simp [counterEnv] at hh; exact hh.symm
      subst this
      rfl)
    (fun _ _ _ => rfl) (fun _ _ => rfl) (by decide) rfl
    (by
      intro o ho
      have hcases : o = observerA ∨ o = observerL := by
        simpa [listWorld, subscribe, init] using ho
      rcases hcases with rfl | rfl
      · exact ⟨false, rfl⟩
      · exact ⟨true, rfl⟩)
    rfl (by decide) rfl rfl rfl

end KFrame
